import Mathlib

/-!
A shallow embedding of the gflow combinator library

This development embeds the final variant of the gflow library (package
`gflow`: event-driven flows as immutable DAGs of states connected by
predicate-guarded transitions, composed with THEN / OR / AND and traversed
with Advance / FindByID / Finished) and proves the specified properties.

Modelling conventions:
* Go heap pointers become indices into an arena (`Graph`): `states` and
  `trans` are lists, a `*flowState` is an index into `states`, a
  `*transition` an index into `trans`.  Pointer mutation (`addIn`, `addOut`,
  field writes) becomes functional update of the arena entry.
* A Go `Test` (predicate) is identified by a token (`TestId`); the library
  compares tests by function identity only, so construction needs just the
  token.  Traversal evaluates tests through an environment `Sem` mapping a
  token and an event to a Bool.
* A Go `Action` is identified by a token; `Advance` reports the list of
  action tokens it invoked instead of performing side effects.
* Go's unbounded recursion over the (acyclic, finite) graph becomes
  fuel-indexed recursion; theorems assume enough fuel, certified by a rank
  function witnessing acyclicity, matching the library's documented
  invariant that reachable graphs are acyclic and finite.
-/

namespace GFlow

/-- Identity token of a `Test` (predicates are compared by identity). -/
abbrev TestId := Nat

/-- Identity token of an `Action`. -/
abbrev ActionId := Nat

/-- `EventData` is opaque to the library; we use `Nat` tokens. -/
abbrev EventData := Nat

/-- Semantics environment: which events each test accepts. -/
abbrev Sem := TestId → EventData → Bool

/-- `transition` from the source: a test plus owning source and destination
states (`from`/`to` in Go; `src`/`dst` here since `from` is a keyword). -/
structure Transition where
  test : TestId
  src : Nat
  dst : Nat
  deriving Repr, DecidableEq, Inhabited

/-- `flowState` from the source: identifier, inbound (`in`, here `ins`) and
outbound transition lists, the AND co-branches and optional action. -/
structure FlowState where
  ID : Nat
  ins : List Nat
  out : List Nat
  andedStates : List Nat
  action : Option ActionId
  deriving Repr, DecidableEq, Inhabited

/-- The arena holding every allocated state and transition. -/
structure Graph where
  states : List FlowState
  trans : List Transition
  deriving Repr, DecidableEq, Inhabited

/-- Dereference a state pointer. -/
def getSt (g : Graph) (s : Nat) : FlowState := g.states.getD s default

/-- Dereference a transition pointer. -/
def getTr (g : Graph) (t : Nat) : Transition := g.trans.getD t default

/-- Update the state at index `s`. -/
def modSt (g : Graph) (s : Nat) (f : FlowState → FlowState) : Graph :=
  { g with states := g.states.set s (f (getSt g s)) }

/-- Update the transition at index `t`. -/
def modTr (g : Graph) (t : Nat) (f : Transition → Transition) : Graph :=
  { g with trans := g.trans.set t (f (getTr g t)) }

/-- `new(flowState)`: allocate a fresh zero-valued state and return its index. -/
def newState (g : Graph) : Graph × Nat :=
  ({ g with states := g.states ++ [default] }, g.states.length)

/-- `&transition{test, from, to}`: allocate a fresh transition. -/
def newTransition (g : Graph) (test : TestId) (src dst : Nat) : Graph × Nat :=
  ({ g with trans := g.trans ++ [⟨test, src, dst⟩] }, g.trans.length)

/-- `state.addIn(trans)`: point the transition's `to` at `state` and append it
to `state`'s inbound list. -/
def addIn (g : Graph) (s tr : Nat) : Graph :=
  modSt (modTr g tr fun t => { t with dst := s }) s
    fun st => { st with ins := st.ins ++ [tr] }

/-- `state.addOut(trans)`: point the transition's `from` at `state` and append
it to `state`'s outbound list. -/
def addOut (g : Graph) (s tr : Nat) : Graph :=
  modSt (modTr g tr fun t => { t with src := s }) s
    fun st => { st with out := st.out ++ [tr] }

/-- `state.transitionWithTest(test)`: first outbound transition using `test`. -/
def transitionWithTest (g : Graph) (s : Nat) (test : TestId) : Option Nat :=
  (getSt g s).out.find? fun tr => (getTr g tr).test == test

/-- `state.hasTest(test)`. -/
def hasTest (g : Graph) (s : Nat) (test : TestId) : Bool :=
  (transitionWithTest g s test).isSome

/-- `state.root()`: walk `in[0].from` backwards until a state with no inbound
transitions; fuel-indexed (the Go original recurses unboundedly). -/
def rootFuel (g : Graph) : Nat → Nat → Nat
  | 0, s => s
  | fuel + 1, s =>
    match (getSt g s).ins with
    | [] => s
    | tr :: _ => rootFuel g fuel (getTr g tr).src

/-- `state.root()` with fuel adequate for any acyclic graph. -/
def rootOf (g : Graph) (s : Nat) : Nat :=
  rootFuel g g.states.length s

/-- `state.Finished()`: no outbound transitions. -/
def Finished (g : Graph) (s : Nat) : Bool :=
  (getSt g s).out.isEmpty

/-- The scan inside `Advance`: first transition whose test passes wins; its
destination's action (if any) is invoked.  Returns the next state and the
invoked actions. -/
def advanceScan (sem : Sem) (g : Graph) (s : Nat) (data : EventData) :
    List Nat → Nat × List ActionId
  | [] => (s, [])
  | tr :: rest =>
    if sem (getTr g tr).test data then
      ((getTr g tr).dst, ((getSt g (getTr g tr).dst).action).toList)
    else
      advanceScan sem g s data rest

/-- `state.Advance(data)`. -/
def Advance (sem : Sem) (g : Graph) (s : Nat) (data : EventData) :
    Nat × List ActionId :=
  advanceScan sem g s data (getSt g s).out

/-- Drive a flow through a sequence of events by repeated `Advance`. -/
def runFlow (sem : Sem) (g : Graph) (s : Nat) (events : List EventData) : Nat :=
  events.foldl (fun cur e => (Advance sem g cur e).1) s

/-- A sequence of events is accepted from `s` when it drives `s` to a
Finished state. -/
def accepts (sem : Sem) (g : Graph) (s : Nat) (events : List EventData) : Bool :=
  Finished g (runFlow sem g s events)

/-- `state.FindByID(id)`: compare the receiver's own identifier first, then
depth-first over outbound transitions; fuel-indexed. -/
def findByIdFuel (g : Graph) (id : Nat) : Nat → Nat → Option Nat
  | 0, _ => none
  | fuel + 1, s =>
    if (getSt g s).ID = id then some s
    else (getSt g s).out.findSome? fun tr => findByIdFuel g id fuel (getTr g tr).dst

/-- `state.FindByID(id)` with fuel adequate for any acyclic graph. -/
def FindByID (g : Graph) (s : Nat) (id : Nat) : Option Nat :=
  findByIdFuel g id (g.states.length + 1) s

/-- `Test.state()`: lift a test into a two-state fragment, returning the
destination ("to") state as the composable handle. -/
def liftTest (g : Graph) (test : TestId) : Graph × Nat :=
  let gf := newState g
  let gt := newState gf.1
  let gr := newTransition gt.1 test gf.2 gt.2
  let g3 := addIn gr.1 gt.2 gr.2
  let g4 := addOut g3 gf.2 gr.2
  (g4, gt.2)

/-- The loop over outbound transitions inside `assignIds`; `rec` is the
recursive call on the destination state. -/
def assignIdsList (rec : Graph → Nat → Nat → Graph × Nat) :
    Graph → List Nat → Nat → Graph × Nat
  | g, [], cur => (g, cur)
  | g, tr :: rest, cur =>
    let r := rec g (getTr g tr).dst cur
    assignIdsList rec r.1 rest r.2

/-- `state.assignIds(startingId)`: preorder depth-first identifier
assignment; returns the updated graph and the running counter. -/
def assignIds (g : Graph) (s : Nat) (startingId : Nat) :
    (fuel : Nat) → Graph × Nat
  | 0 => (g, startingId)
  | fuel + 1 =>
    let cur := startingId + 1
    let g1 := modSt g s fun st => { st with ID := cur }
    assignIdsList (fun g2 t i => assignIds g2 t i fuel) g1
      ((getSt g1 s).out) cur

/-- `state.Build()`: resolve the root, assign identifiers from 0, return
the root. -/
def Build (g : Graph) (s : Nat) : Graph × Nat :=
  let r := rootOf g s
  ((assignIds g r 0 (g.states.length + 1)).1, r)

/-- `state.DO(action)`: attach an action to the state. -/
def DO (g : Graph) (s : Nat) (a : ActionId) : Graph :=
  modSt g s fun st => { st with action := some a }

/-- The loop over outbound transitions inside `doCopy`: clone the
destination (via the recursive call `rec`), allocate a copied transition,
wire it up. -/
def doCopyOuts (rec : Graph → List (Nat × Nat) → Nat →
      Graph × List (Nat × Nat) × Nat) :
    Graph → List (Nat × Nat) → Nat → List Nat → Graph × List (Nat × Nat)
  | g, mp, _, [] => (g, mp)
  | g, mp, c, tr :: rest =>
    let r := rec g mp ((getTr g tr).dst)
    let gt := newTransition r.1 (getTr r.1 tr).test c r.2.2
    let g2 := addOut gt.1 c gt.2
    let g3 := addIn g2 r.2.2 gt.2
    doCopyOuts rec g3 r.2.1 c rest

/-- The loop over `andedStates` inside `doCopy` (final variant: the
co-branch states are themselves deep-copied). -/
def doCopyAnded (rec : Graph → List (Nat × Nat) → Nat →
      Graph × List (Nat × Nat) × Nat) :
    Graph → List (Nat × Nat) → Nat → List Nat → Graph × List (Nat × Nat)
  | g, mp, _, [] => (g, mp)
  | g, mp, c, a :: rest =>
    let r := rec g mp a
    let g2 := modSt r.1 c fun st =>
      { st with andedStates := st.andedStates ++ [r.2.2] }
    doCopyAnded rec g2 r.2.1 c rest

/-- `state.doCopy(stateCopies)` (final variant): identity-keyed deep clone.
The association list `mp` maps original state indices to their copies, the
result triple is (graph, map, copy of `s`). -/
def doCopy (g : Graph) (mp : List (Nat × Nat)) (s : Nat) :
    (fuel : Nat) → Graph × List (Nat × Nat) × Nat
  | 0 => (g, mp, g.states.length)
  | fuel + 1 =>
    match mp.lookup s with
    | some c => (g, mp, c)
    | none =>
      let gc := newState g
      let mp1 := (s, gc.2) :: mp
      let r1 := doCopyOuts (fun g2 m t => doCopy g2 m t fuel) gc.1 mp1 gc.2
        ((getSt gc.1 s).out)
      let r2 := doCopyAnded (fun g2 m t => doCopy g2 m t fuel) r1.1 r1.2 gc.2
        ((getSt r1.1 s).andedStates)
      let g3 := modSt r2.1 gc.2 fun st =>
        { st with action := (getSt r2.1 s).action }
      (g3, r2.2, gc.2)

/-- `state.copy()`: deep-copy the whole graph from the root, return the copy
of `state` (an invalid index if `state` is unreachable from its root, where
the Go original would yield nil). -/
def copyState (g : Graph) (s : Nat) : Graph × Nat :=
  let r := doCopy g [] (rootOf g s) (g.states.length + 1)
  (r.1, (r.2.1.lookup s).getD r.1.states.length)

/-- `from.THEN(to)`: deep-clone both operands, splice the clone-of-`to`'s
root's outbound transitions onto the clone of `from`, return the clone of
`to` as the handle. -/
def THEN (g : Graph) (fromS : Nat) (toS : Nat) : Graph × Nat :=
  let rf := copyState g fromS
  let rt := copyState rf.1 toS
  let rootOuts := (getSt rt.1 (rootOf rt.1 rt.2)).out
  (rootOuts.foldl (fun g2 tr => addOut g2 rf.2 tr) rt.1, rt.2)

/-- The loop over `left.out` inside `addOrStates`: merge transitions whose
test the right branch shares, route to `end` when a continuation is
terminal; `rec` is the recursive `addOrStates` call. -/
def orLeftLoop (rec : Graph → Nat → Nat → Nat → Nat → Graph) :
    Graph → Nat → Nat → Nat → List Nat → Graph
  | g, _, _, _, [] => g
  | g, state, r, endS, tr :: rest =>
    let nextLeft := (getTr g tr).dst
    let atEnd0 := (getSt g nextLeft).out.isEmpty
    let merged :=
      match transitionWithTest g r (getTr g tr).test with
      | some rtr =>
        if (getSt g (getTr g rtr).dst).out.isEmpty then (true, r)
        else (atEnd0, (getTr g rtr).dst)
      | none => (atEnd0, r)
    let gn := if merged.1 then (g, endS) else newState g
    let gt := newTransition gn.1 (getTr gn.1 tr).test state gn.2
    let g2 := addOut gt.1 state gt.2
    let g3 := addIn g2 gn.2 gt.2
    let g4 := if merged.1 then g3
      else rec g3 gn.2 nextLeft merged.2 endS
    orLeftLoop rec g4 state r endS rest

/-- The loop over `right.out` inside `addOrStates`: skip tests already
handled by the left pass. -/
def orRightLoop (rec : Graph → Nat → Nat → Nat → Nat → Graph) :
    Graph → Nat → Nat → Nat → List Nat → Graph
  | g, _, _, _, [] => g
  | g, state, l, endS, tr :: rest =>
    if hasTest g l (getTr g tr).test then
      orRightLoop rec g state l endS rest
    else
      let nextRight := (getTr g tr).dst
      let atEnd := (getSt g nextRight).out.isEmpty
      let gn := if atEnd then (g, endS) else newState g
      let gt := newTransition gn.1 (getTr gn.1 tr).test state gn.2
      let g2 := addOut gt.1 state gt.2
      let g3 := addIn g2 gn.2 gt.2
      let g4 := if atEnd then g3
        else rec g3 gn.2 l nextRight endS
      orRightLoop rec g4 state l endS rest

/-- `state.addOrStates(left, right, end)` (final variant): recursively build
the OR automaton under `state` for the operand positions `l` and `r`. -/
def addOrStates (g : Graph) (state l r endS : Nat) :
    (fuel : Nat) → Graph
  | 0 => g
  | fuel + 1 =>
    let g1 := orLeftLoop (fun g2 st a b e => addOrStates g2 st a b e fuel)
      g state r endS ((getSt g l).out)
    orRightLoop (fun g2 st a b e => addOrStates g2 st a b e fuel)
      g1 state l endS ((getSt g1 r).out)

/-- Fuel adequate for the OR and AND recursions on any acyclic graph. -/
def bigFuel (g : Graph) : Nat :=
  g.states.length * g.states.length + 1

/-- `state.OR(other)`: one shared synthetic start and end around both
operands' roots; returns the end state. -/
def OR (g : Graph) (s other : Nat) : Graph × Nat :=
  let g1 := newState g
  let g2 := newState g1.1
  let start := g1.2
  let endS := g2.2
  let root1 := rootOf g2.1 s
  let root2 := rootOf g2.1 other
  (addOrStates g2.1 start root1 root2 endS (bigFuel g2.1), endS)

/-- `replace(states, index, state)` from the source. -/
def replaceAt (states : List Nat) (index : Nat) (st : Nat) : List Nat :=
  states.take index ++ [st] ++ states.drop (index + 1)

/-- The inner loop over one co-branch's outbound transitions; `rec` is the
recursive `addAndStates` call. -/
def andInnerLoop (rec : Graph → Nat → List Nat → Nat → Graph) (state : Nat)
    (anded : List Nat) (endS : Nat) (i : Nat) :
    Graph → List Nat → Bool → Graph × Bool
  | g, [], atEnd => (g, atEnd)
  | g, tr :: rest, _ =>
    let gn := newState g
    let gt := newTransition gn.1 (getTr gn.1 tr).test state gn.2
    let g2 := addOut gt.1 state gt.2
    let g3 := addIn g2 gn.2 gt.2
    let nextAnded := replaceAt anded i ((getTr g3 tr).dst)
    let g4 := rec g3 gn.2 nextAnded endS
    andInnerLoop rec state anded endS i g4 rest false

/-- The outer loop over the co-branch list (with its index, for `replace`);
the Bool accumulator is the `atEnd` flag, cleared by any inner iteration. -/
def andOuterLoop (rec : Graph → Nat → List Nat → Nat → Graph) (state : Nat)
    (anded : List Nat) (endS : Nat) :
    Graph → Nat → List Nat → Bool → Graph × Bool
  | g, _, [], atEnd => (g, atEnd)
  | g, i, a :: rest', atEnd =>
    let r := andInnerLoop rec state anded endS i g ((getSt g a).out) atEnd
    andOuterLoop rec state anded endS r.1 (i + 1) rest' r.2

/-- `state.addAndStates(andedStates, end)`: recursively build the product
automaton; when no branch has outbound transitions left, re-home this
state's inbound transitions onto `end`. -/
def addAndStates (g : Graph) (state : Nat) (anded : List Nat) (endS : Nat) :
    (fuel : Nat) → Graph
  | 0 => g
  | fuel + 1 =>
    let r := andOuterLoop (fun g2 st a e => addAndStates g2 st a e fuel)
      state anded endS g 0 anded true
    if r.2 then
      ((getSt r.1 state).ins).foldl (fun g2 tr => addIn g2 endS tr) r.1
    else r.1

/-- `state.AND(other)`: accumulate the co-branch list, build the product
automaton between a fresh start and end; returns the end state. -/
def AND (g : Graph) (s other : Nat) : Graph × Nat :=
  let g1 := newState g
  let g2 := newState g1.1
  let start := g1.2
  let endS := g2.2
  let anded0 := (getSt g2.1 s).andedStates
  let anded1 := if anded0.isEmpty then anded0 ++ [s] else anded0
  let anded := anded1 ++ [other]
  let g3 := modSt g2.1 endS fun st => { st with andedStates := anded }
  let roots := anded.map fun st => rootOf g3 st
  (addAndStates g3 start roots endS (bigFuel g3), endS)

/-! ## Basic list-arena lemmas -/

theorem getD_set_self {α : Type} : ∀ (l : List α) (i : Nat) (a d : α),
    i < l.length → (l.set i a).getD i d = a
  | _ :: _, 0, _, _, _ => rfl
  | _ :: xs, i + 1, a, d, h =>
    getD_set_self xs i a d (Nat.lt_of_succ_lt_succ h)

theorem getD_set_ne {α : Type} : ∀ (l : List α) (i j : Nat) (a d : α),
    i ≠ j → (l.set i a).getD j d = l.getD j d
  | [], _, _, _, _, _ => rfl
  | _ :: _, 0, 0, _, _, h => absurd rfl h
  | _ :: _, 0, _ + 1, _, _, _ => rfl
  | _ :: _, _ + 1, 0, _, _, _ => rfl
  | _ :: xs, i + 1, j + 1, a, d, h =>
    getD_set_ne xs i j a d (fun e => h (by omega))

theorem getD_append_left {α : Type} : ∀ (l m : List α) (i : Nat) (d : α),
    i < l.length → (l ++ m).getD i d = l.getD i d
  | _ :: _, _, 0, _, _ => rfl
  | _ :: xs, m, i + 1, d, h =>
    getD_append_left xs m i d (Nat.lt_of_succ_lt_succ h)
  | [], _, _, _, h => absurd h (by simp)

theorem getD_append_last {α : Type} : ∀ (l : List α) (a d : α),
    (l ++ [a]).getD l.length d = a
  | [], _, _ => rfl
  | _ :: xs, a, d => getD_append_last xs a d

theorem getD_ge_length {α : Type} : ∀ (l : List α) (i : Nat) (d : α),
    l.length ≤ i → l.getD i d = d
  | [], _, _, _ => rfl
  | _ :: xs, i + 1, d, h => getD_ge_length xs i d (Nat.le_of_succ_le_succ h)

/-! Arena access/update lemmas. -/

theorem length_modSt (g : Graph) (s : Nat) (f : FlowState → FlowState) :
    (modSt g s f).states.length = g.states.length := by
  simp [modSt]

theorem trans_modSt (g : Graph) (s : Nat) (f : FlowState → FlowState) :
    (modSt g s f).trans = g.trans := rfl

theorem getTr_modSt (g : Graph) (s : Nat) (f : FlowState → FlowState)
    (t : Nat) : getTr (modSt g s f) t = getTr g t := rfl

theorem getSt_modSt_self (g : Graph) (s : Nat) (f : FlowState → FlowState)
    (h : s < g.states.length) : getSt (modSt g s f) s = f (getSt g s) :=
  getD_set_self _ _ _ _ h

theorem getSt_modSt_ne (g : Graph) (s : Nat) (f : FlowState → FlowState)
    (t : Nat) (h : s ≠ t) : getSt (modSt g s f) t = getSt g t :=
  getD_set_ne _ _ _ _ _ h

theorem states_modTr (g : Graph) (t : Nat) (f : Transition → Transition) :
    (modTr g t f).states = g.states := rfl

theorem getSt_modTr (g : Graph) (t : Nat) (f : Transition → Transition)
    (s : Nat) : getSt (modTr g t f) s = getSt g s := rfl

theorem length_trans_modTr (g : Graph) (t : Nat) (f : Transition → Transition) :
    (modTr g t f).trans.length = g.trans.length := by
  simp [modTr]

theorem getTr_modTr_self (g : Graph) (t : Nat) (f : Transition → Transition)
    (h : t < g.trans.length) : getTr (modTr g t f) t = f (getTr g t) :=
  getD_set_self _ _ _ _ h

theorem getTr_modTr_ne (g : Graph) (t : Nat) (f : Transition → Transition)
    (u : Nat) (h : t ≠ u) : getTr (modTr g t f) u = getTr g u :=
  getD_set_ne _ _ _ _ _ h

theorem getSt_newState_old (g : Graph) (s : Nat) (h : s < g.states.length) :
    getSt (newState g).1 s = getSt g s :=
  getD_append_left _ _ _ _ h

theorem getSt_newState_new (g : Graph) :
    getSt (newState g).1 g.states.length = default :=
  getD_append_last _ _ _

theorem length_newState (g : Graph) :
    (newState g).1.states.length = g.states.length + 1 := by
  simp [newState]

theorem trans_newState (g : Graph) : (newState g).1.trans = g.trans := rfl

theorem getTr_newState (g : Graph) (t : Nat) :
    getTr (newState g).1 t = getTr g t := rfl

theorem states_newTransition (g : Graph) (test : TestId) (a b : Nat) :
    (newTransition g test a b).1.states = g.states := rfl

theorem getSt_newTransition (g : Graph) (test : TestId) (a b s : Nat) :
    getSt (newTransition g test a b).1 s = getSt g s := rfl

theorem getTr_newTransition_old (g : Graph) (test : TestId) (a b t : Nat)
    (h : t < g.trans.length) :
    getTr (newTransition g test a b).1 t = getTr g t :=
  getD_append_left _ _ _ _ h

theorem getTr_newTransition_new (g : Graph) (test : TestId) (a b : Nat) :
    getTr (newTransition g test a b).1 g.trans.length = ⟨test, a, b⟩ :=
  getD_append_last _ _ _

theorem length_trans_newTransition (g : Graph) (test : TestId) (a b : Nat) :
    (newTransition g test a b).1.trans.length = g.trans.length + 1 := by
  simp [newTransition]

/-! ## Advance: first-match scan semantics -/

/-- The scan inside `Advance` either fires the first passing transition of
the list (invoking the destination's action exactly once if present), or
falls through to `(s, [])`. -/
theorem advanceScan_spec (sem : Sem) (g : Graph) (s : Nat) (e : EventData) :
    ∀ l : List Nat,
      (∃ i, ∃ h : i < l.length,
          sem (getTr g (l.get ⟨i, h⟩)).test e = true ∧
          (∀ j (hj : j < i),
            sem (getTr g (l.get ⟨j, Nat.lt_trans hj h⟩)).test e = false) ∧
          advanceScan sem g s e l =
            ((getTr g (l.get ⟨i, h⟩)).dst,
             ((getSt g (getTr g (l.get ⟨i, h⟩)).dst).action).toList))
      ∨ ((∀ j (hj : j < l.length),
            sem (getTr g (l.get ⟨j, hj⟩)).test e = false) ∧
          advanceScan sem g s e l = (s, [])) := by
  intro l
  induction l with
  | nil =>
    right
    refine ⟨fun j hj => absurd hj (by simp), rfl⟩
  | cons tr rest ih =>
    by_cases hs : sem (getTr g tr).test e = true
    · left
      refine ⟨0, by simp, hs, fun j hj => absurd hj (Nat.not_lt_zero j), ?_⟩
      simp [advanceScan, hs]
    · have hs' : sem (getTr g tr).test e = false := by
        cases hval : sem (getTr g tr).test e
        · rfl
        · exact absurd hval hs
      rcases ih with ⟨i, h, hpass, hfirst, heq⟩ | ⟨hall, heq⟩
      · left
        refine ⟨i + 1, Nat.succ_lt_succ h, ?_, ?_, ?_⟩
        · simpa using hpass
        · intro j hj
          cases j with
          | zero => simpa using hs'
          | succ j' => simpa using hfirst j' (Nat.lt_of_succ_lt_succ hj)
        · simp only [advanceScan, hs', if_false, Bool.false_eq_true]
          simpa using heq
      · right
        refine ⟨?_, ?_⟩
        · intro j hj
          cases j with
          | zero => simpa using hs'
          | succ j' => simpa using hall j' (Nat.lt_of_succ_lt_succ hj)
        · simp only [advanceScan, hs', if_false, Bool.false_eq_true]
          exact heq

/-- C2: `Advance(s, e)` scans `s`'s outbound transitions in insertion order;
it returns the destination of the first transition whose predicate accepts
`e`, invoking that destination's attached Action (if any) on `e` exactly
once; if no outbound transition's predicate accepts `e`, it returns `s`
itself with no action invoked — a no-op, not an error. -/
theorem advance_first_match_or_noop (sem : Sem) (g : Graph) (s : Nat)
    (e : EventData) :
    (∃ i, ∃ h : i < (getSt g s).out.length,
        sem (getTr g ((getSt g s).out.get ⟨i, h⟩)).test e = true ∧
        (∀ j (hj : j < i),
          sem (getTr g ((getSt g s).out.get ⟨j, Nat.lt_trans hj h⟩)).test e
            = false) ∧
        Advance sem g s e =
          ((getTr g ((getSt g s).out.get ⟨i, h⟩)).dst,
           ((getSt g (getTr g ((getSt g s).out.get ⟨i, h⟩)).dst).action).toList))
    ∨ ((∀ j (hj : j < (getSt g s).out.length),
          sem (getTr g ((getSt g s).out.get ⟨j, hj⟩)).test e = false) ∧
        Advance sem g s e = (s, [])) :=
  advanceScan_spec sem g s e ((getSt g s).out)

/-! ## Running flows over event sequences -/

theorem runFlow_nil (sem : Sem) (g : Graph) (s : Nat) :
    runFlow sem g s [] = s := rfl

theorem runFlow_cons (sem : Sem) (g : Graph) (s : Nat) (e : EventData)
    (w : List EventData) :
    runFlow sem g s (e :: w) = runFlow sem g (Advance sem g s e).1 w := rfl

/-- Advancing a state with a single outbound transition. -/
theorem advance_single (sem : Sem) (g : Graph) (s : Nat) (e : EventData)
    (t : Nat) (h : (getSt g s).out = [t]) :
    (Advance sem g s e).1 =
      if sem (getTr g t).test e then (getTr g t).dst else s := by
  rw [Advance, h]
  by_cases hc : sem (getTr g t).test e
  · simp [advanceScan, hc]
  · simp [advanceScan, hc]

/-- Advancing a state with exactly two outbound transitions. -/
theorem advance_double (sem : Sem) (g : Graph) (s : Nat) (e : EventData)
    (t u : Nat) (h : (getSt g s).out = [t, u]) :
    (Advance sem g s e).1 =
      if sem (getTr g t).test e then (getTr g t).dst
      else if sem (getTr g u).test e then (getTr g u).dst else s := by
  rw [Advance, h]
  by_cases hc : sem (getTr g t).test e
  · simp [advanceScan, hc]
  · by_cases hd : sem (getTr g u).test e
    · simp [advanceScan, hc, hd]
    · simp [advanceScan, hc, hd]

/-! ## The flow a.THEN(a).THEN(b) (tests: a = 0, b = 1) -/

/-- The empty arena (no allocations yet). -/
def emptyGraph : Graph := ⟨[], []⟩

/-- `a.THEN(a).THEN(b)` as the library builds it: both `a` occurrences are
separately auto-lifted, then sequenced, then sequenced with a lifted `b`. -/
def aThenAThenB : Graph × Nat :=
  let r1 := liftTest emptyGraph 0
  let r2 := liftTest r1.1 0
  let r3 := THEN r2.1 r1.2 r2.2
  let r4 := liftTest r3.1 1
  THEN r4.1 r3.2 r4.2

/-- The finalized graph of `a.THEN(a).THEN(b).Build()`. -/
def aThenAThenB_built : Graph × Nat := Build aThenAThenB.1 aThenAThenB.2

/-- C5: for predicates a, b matching tokens A, B, the flow
`a.THEN(a).THEN(b)` does NOT finish on `[A, B]` (the single A fires only
one transition and is not double-counted), while `[A, A, B]`,
`[A, X, A, Y, B]` (X, Y matching neither predicate) and `[A, A, A, A, B]`
all finish. -/
theorem then_does_not_double_count (sem : Sem) (A B X Y : EventData)
    (hA0 : sem 0 A = true) (hA1 : sem 1 A = false)
    (hB0 : sem 0 B = false) (hB1 : sem 1 B = true)
    (hX0 : sem 0 X = false) (hX1 : sem 1 X = false)
    (hY0 : sem 0 Y = false) (hY1 : sem 1 Y = false) :
    accepts sem aThenAThenB_built.1 aThenAThenB_built.2 [A, B] = false ∧
    accepts sem aThenAThenB_built.1 aThenAThenB_built.2 [A, A, B] = true ∧
    accepts sem aThenAThenB_built.1 aThenAThenB_built.2 [A, X, A, Y, B]
      = true ∧
    accepts sem aThenAThenB_built.1 aThenAThenB_built.2 [A, A, A, A, B]
      = true := by
  have hroot : aThenAThenB_built.2 = 10 := by decide
  -- single-step behavior of the three live states of the chain
  have s10 : ∀ e, (Advance sem aThenAThenB_built.1 10 e).1 =
      if sem 0 e then 11 else 10 := by
    intro e
    rw [advance_single sem aThenAThenB_built.1 10 e 6 (by decide)]
    rw [show getTr aThenAThenB_built.1 6 = ⟨0, 10, 11⟩ by decide]
  have s11 : ∀ e, (Advance sem aThenAThenB_built.1 11 e).1 =
      if sem 0 e then 12 else 11 := by
    intro e
    rw [advance_single sem aThenAThenB_built.1 11 e 5 (by decide)]
    rw [show getTr aThenAThenB_built.1 5 = ⟨0, 11, 12⟩ by decide]
  have s12 : ∀ e, (Advance sem aThenAThenB_built.1 12 e).1 =
      if sem 1 e then 14 else 12 := by
    intro e
    rw [advance_single sem aThenAThenB_built.1 12 e 7 (by decide)]
    rw [show getTr aThenAThenB_built.1 7 = ⟨1, 12, 14⟩ by decide]
  refine ⟨?_, ?_, ?_, ?_⟩
  · rw [accepts, hroot, runFlow_cons, s10 A, hA0]
    simp only [if_true]
    rw [runFlow_cons, s11 B, hB0]
    simp only [Bool.false_eq_true, if_false]
    rw [runFlow_nil]
    decide
  · rw [accepts, hroot, runFlow_cons, s10 A, hA0]
    simp only [if_true]
    rw [runFlow_cons, s11 A, hA0]
    simp only [if_true]
    rw [runFlow_cons, s12 B, hB1]
    simp only [if_true]
    rw [runFlow_nil]
    decide
  · rw [accepts, hroot, runFlow_cons, s10 A, hA0]
    simp only [if_true]
    rw [runFlow_cons, s11 X, hX0]
    simp only [Bool.false_eq_true, if_false]
    rw [runFlow_cons, s11 A, hA0]
    simp only [if_true]
    rw [runFlow_cons, s12 Y, hY1]
    simp only [Bool.false_eq_true, if_false]
    rw [runFlow_cons, s12 B, hB1]
    simp only [if_true]
    rw [runFlow_nil]
    decide
  · rw [accepts, hroot, runFlow_cons, s10 A, hA0]
    simp only [if_true]
    rw [runFlow_cons, s11 A, hA0]
    simp only [if_true]
    rw [runFlow_cons, s12 A, hA1]
    simp only [Bool.false_eq_true, if_false]
    rw [runFlow_cons, s12 A, hA1]
    simp only [Bool.false_eq_true, if_false]
    rw [runFlow_cons, s12 B, hB1]
    simp only [if_true]
    rw [runFlow_nil]
    decide

/-- Witness for C5 at concrete tokens A = 0, B = 1, X = 7, Y = 8, with each
test accepting exactly its own token. -/
theorem then_does_not_double_count_witness :
    accepts (fun t e => t == e) aThenAThenB_built.1 aThenAThenB_built.2
      [0, 1] = false ∧
    accepts (fun t e => t == e) aThenAThenB_built.1 aThenAThenB_built.2
      [0, 0, 1] = true ∧
    accepts (fun t e => t == e) aThenAThenB_built.1 aThenAThenB_built.2
      [0, 7, 0, 8, 1] = true ∧
    accepts (fun t e => t == e) aThenAThenB_built.1 aThenAThenB_built.2
      [0, 0, 0, 0, 1] = true :=
  then_does_not_double_count (fun t e => t == e) 0 1 7 8
    (by decide) (by decide) (by decide) (by decide)
    (by decide) (by decide) (by decide) (by decide)

/-! ## Reachability, acyclicity certificates -/

/-- `ReachN g n s x`: `x` is reachable from `s` in exactly `n` forward
steps along outbound transitions. -/
inductive ReachN (g : Graph) : Nat → Nat → Nat → Prop where
  | refl (s : Nat) : ReachN g 0 s s
  | step {n s x : Nat} (tr : Nat) (htr : tr ∈ (getSt g s).out)
      (h : ReachN g n ((getTr g tr).dst) x) : ReachN g (n + 1) s x

/-- `x` is reachable from `s` (in any number of steps). -/
def Reaches (g : Graph) (s x : Nat) : Prop := ∃ n, ReachN g n s x

/-- Rank of a state in a rank table (default 0). -/
def rkOf (rks : List Nat) (s : Nat) : Nat := rks.getD s 0

/-- Executable well-formedness certificate: all transition indices stored in
`out`/`ins` lists of valid states are valid, their endpoints are valid, and
the rank table strictly decreases along every edge (so the graph is acyclic
and both the forward walks and the backward root walk terminate). -/
def wfB (g : Graph) (rks : List Nat) : Bool :=
  (List.range g.states.length).all fun s =>
    decide (rkOf rks s < g.states.length) &&
    ((getSt g s).out.all fun tr =>
      decide (tr < g.trans.length) &&
      decide ((getTr g tr).dst < g.states.length) &&
      decide (rkOf rks (getTr g tr).dst < rkOf rks s)) &&
    ((getSt g s).ins.all fun tr =>
      decide (tr < g.trans.length) &&
      decide ((getTr g tr).src < g.states.length) &&
      decide (rkOf rks s < rkOf rks (getTr g tr).src)) &&
    ((getSt g s).andedStates.all fun a => decide (a < g.states.length))

theorem wf_rk {g : Graph} {rks : List Nat} (h : wfB g rks = true) {s : Nat}
    (hs : s < g.states.length) : rkOf rks s < g.states.length := by
  have := (List.all_eq_true.mp h) s (List.mem_range.mpr hs)
  simp only [Bool.and_eq_true, decide_eq_true_eq] at this
  exact this.1.1.1

theorem wf_out {g : Graph} {rks : List Nat} (h : wfB g rks = true) {s tr : Nat}
    (hs : s < g.states.length) (htr : tr ∈ (getSt g s).out) :
    tr < g.trans.length ∧ (getTr g tr).dst < g.states.length ∧
      rkOf rks (getTr g tr).dst < rkOf rks s := by
  have := (List.all_eq_true.mp h) s (List.mem_range.mpr hs)
  simp only [Bool.and_eq_true, List.all_eq_true, decide_eq_true_eq] at this
  obtain ⟨⟨⟨-, hout⟩, -⟩, -⟩ := this
  have := hout tr htr
  exact ⟨this.1.1, this.1.2, this.2⟩

theorem wf_ins {g : Graph} {rks : List Nat} (h : wfB g rks = true) {s tr : Nat}
    (hs : s < g.states.length) (htr : tr ∈ (getSt g s).ins) :
    tr < g.trans.length ∧ (getTr g tr).src < g.states.length ∧
      rkOf rks s < rkOf rks (getTr g tr).src := by
  have := (List.all_eq_true.mp h) s (List.mem_range.mpr hs)
  simp only [Bool.and_eq_true, List.all_eq_true, decide_eq_true_eq] at this
  obtain ⟨⟨-, hins⟩, -⟩ := this
  have := hins tr htr
  exact ⟨this.1.1, this.1.2, this.2⟩

theorem wf_anded {g : Graph} {rks : List Nat} (h : wfB g rks = true)
    {s a : Nat} (hs : s < g.states.length)
    (ha : a ∈ (getSt g s).andedStates) : a < g.states.length := by
  have := (List.all_eq_true.mp h) s (List.mem_range.mpr hs)
  simp only [Bool.and_eq_true, List.all_eq_true, decide_eq_true_eq] at this
  exact this.2 a ha

/-- Along a well-formed graph, forward reachability is bounded by rank. -/
theorem reachN_le_rank {g : Graph} {rks : List Nat} (hwf : wfB g rks = true) :
    ∀ {n s x : Nat}, ReachN g n s x → s < g.states.length →
      n ≤ rkOf rks s ∧ x < g.states.length := by
  intro n s x hr
  induction hr with
  | refl s => exact fun hs => ⟨Nat.zero_le _, hs⟩
  | step tr htr h ih =>
    intro hs
    obtain ⟨-, hdst, hrk⟩ := wf_out hwf hs htr
    obtain ⟨ihn, ihx⟩ := ih hdst
    exact ⟨Nat.succ_le_of_lt (Nat.lt_of_le_of_lt ihn hrk), ihx⟩

/-! ## Identifier assignment as a preorder visit trace -/

/-- The preorder depth-first visit list of `assignIds` (with repetitions on
states reachable along several paths). -/
def dfsPre (g : Graph) : Nat → Nat → List Nat
  | 0, _ => []
  | fuel + 1, s =>
    s :: ((getSt g s).out).flatMap fun tr => dfsPre g fuel (getTr g tr).dst

/-- Pair each visited state with its assigned identifier:
the k-th visit (0-based) gets identifier `base + 1 + k`. -/
def zipIds : List Nat → Nat → List (Nat × Nat)
  | [], _ => []
  | s :: rest, base => (s, base + 1) :: zipIds rest (base + 1)

/-- Sequentially perform identifier writes. -/
def applyWrites (g : Graph) (l : List (Nat × Nat)) : Graph :=
  l.foldl (fun g2 p => modSt g2 p.1 fun st => { st with ID := p.2 }) g

theorem zipIds_length : ∀ (v : List Nat) (base : Nat),
    (zipIds v base).length = v.length
  | [], _ => rfl
  | _ :: rest, base => by simp [zipIds, zipIds_length rest]

theorem zipIds_append : ∀ (v w : List Nat) (base : Nat),
    zipIds (v ++ w) base = zipIds v base ++ zipIds w (base + v.length)
  | [], w, base => rfl
  | s :: rest, w, base => by
    have ih := zipIds_append rest w (base + 1)
    show (s, base + 1) :: zipIds (rest ++ w) (base + 1)
        = ((s, base + 1) :: zipIds rest (base + 1))
          ++ zipIds w (base + (rest.length + 1))
    rw [List.cons_append, ih]
    have harith : base + 1 + rest.length = base + (rest.length + 1) := by omega
    rw [harith]

theorem applyWrites_nil (g : Graph) : applyWrites g [] = g := rfl

theorem applyWrites_cons (g : Graph) (p : Nat × Nat) (l : List (Nat × Nat)) :
    applyWrites g (p :: l) =
      applyWrites (modSt g p.1 fun st => { st with ID := p.2 }) l := rfl

theorem applyWrites_append (g : Graph) (l m : List (Nat × Nat)) :
    applyWrites g (l ++ m) = applyWrites (applyWrites g l) m :=
  List.foldl_append ..

/-- `List.set` past the end is the identity. -/
theorem set_of_ge {α : Type} : ∀ (l : List α) (n : Nat) (a : α),
    l.length ≤ n → l.set n a = l
  | [], _, _, _ => rfl
  | _ :: _, 0, _, h => absurd h (by simp)
  | x :: xs, n + 1, a, h => by
    simp only [List.set]
    rw [set_of_ge xs n a (Nat.le_of_succ_le_succ h)]

/-- `modSt` past the end of the state arena is the identity. -/
theorem modSt_of_ge (g : Graph) (x : Nat) (f : FlowState → FlowState)
    (h : g.states.length ≤ x) : modSt g x f = g := by
  unfold modSt
  rw [set_of_ge _ _ _ h]

/-- An identifier write changes nothing but the `ID` field of one state. -/
theorem getSt_write_shape (g : Graph) (x v s : Nat) :
    ((getSt (modSt g x fun st => { st with ID := v }) s).ins
        = (getSt g s).ins) ∧
    ((getSt (modSt g x fun st => { st with ID := v }) s).out
        = (getSt g s).out) ∧
    ((getSt (modSt g x fun st => { st with ID := v }) s).andedStates
        = (getSt g s).andedStates) ∧
    ((getSt (modSt g x fun st => { st with ID := v }) s).action
        = (getSt g s).action) := by
  by_cases hxs : x = s
  · subst hxs
    by_cases hx : x < g.states.length
    · rw [getSt_modSt_self g x _ hx]
      exact ⟨rfl, rfl, rfl, rfl⟩
    · rw [modSt_of_ge g x _ (Nat.le_of_not_lt hx)]
      exact ⟨rfl, rfl, rfl, rfl⟩
  · rw [getSt_modSt_ne g x _ s hxs]
    exact ⟨rfl, rfl, rfl, rfl⟩

theorem applyWrites_shape (l : List (Nat × Nat)) : ∀ (g : Graph) (s : Nat),
    ((getSt (applyWrites g l) s).ins = (getSt g s).ins) ∧
    ((getSt (applyWrites g l) s).out = (getSt g s).out) ∧
    ((getSt (applyWrites g l) s).andedStates = (getSt g s).andedStates) ∧
    ((getSt (applyWrites g l) s).action = (getSt g s).action) := by
  induction l with
  | nil => exact fun g s => ⟨rfl, rfl, rfl, rfl⟩
  | cons p rest ih =>
    intro g s
    rw [applyWrites_cons]
    obtain ⟨h1, h2, h3, h4⟩ := ih (modSt g p.1 fun st => { st with ID := p.2 }) s
    obtain ⟨k1, k2, k3, k4⟩ := getSt_write_shape g p.1 p.2 s
    exact ⟨h1.trans k1, h2.trans k2, h3.trans k3, h4.trans k4⟩

theorem trans_applyWrites (l : List (Nat × Nat)) : ∀ (g : Graph),
    (applyWrites g l).trans = g.trans := by
  induction l with
  | nil => exact fun g => rfl
  | cons p rest ih =>
    intro g
    rw [applyWrites_cons, ih]
    rfl

theorem getTr_applyWrites (l : List (Nat × Nat)) (g : Graph) (t : Nat) :
    getTr (applyWrites g l) t = getTr g t := by
  show (applyWrites g l).trans.getD t default = _
  rw [trans_applyWrites]
  rfl

theorem length_applyWrites (l : List (Nat × Nat)) : ∀ (g : Graph),
    (applyWrites g l).states.length = g.states.length := by
  induction l with
  | nil => exact fun g => rfl
  | cons p rest ih =>
    intro g
    rw [applyWrites_cons, ih, length_modSt]

/-- ID writes do not change the preorder visit list. -/
theorem dfsPre_applyWrites (l : List (Nat × Nat)) :
    ∀ (fuel : Nat) (g : Graph) (s : Nat),
      dfsPre (applyWrites g l) fuel s = dfsPre g fuel s := by
  intro fuel
  induction fuel with
  | zero => exact fun g s => rfl
  | succ fuel ih =>
    intro g s
    rw [dfsPre, dfsPre, (applyWrites_shape l g s).2.1]
    congr 1
    apply List.flatMap_congr
    intro tr _
    rw [getTr_applyWrites, ih]

/-- The inner loop of `assignIds`, as a visit trace (given the trace shape
of the recursive call). -/
theorem assignIdsList_trace (fuel : Nat)
    (IH : ∀ (g : Graph) (s i : Nat),
      assignIds g s i fuel =
        (applyWrites g (zipIds (dfsPre g fuel s) i),
         i + (dfsPre g fuel s).length)) :
    ∀ (outs : List Nat) (g : Graph) (cur : Nat),
      assignIdsList (fun g2 t i2 => assignIds g2 t i2 fuel) g outs cur =
        (applyWrites g
          (zipIds (outs.flatMap fun tr => dfsPre g fuel (getTr g tr).dst) cur),
         cur + (outs.flatMap fun tr => dfsPre g fuel (getTr g tr).dst).length)
  | [], g, cur => rfl
  | tr :: rest, g, cur => by
    rw [assignIdsList]
    rw [IH g ((getTr g tr).dst) cur]
    rw [assignIdsList_trace fuel IH rest _ _]
    have hTr : ∀ u, getTr (applyWrites g (zipIds (dfsPre g fuel
        ((getTr g tr).dst)) cur)) u = getTr g u :=
      fun u => getTr_applyWrites _ g u
    have hPre : ∀ u, dfsPre (applyWrites g (zipIds (dfsPre g fuel
        ((getTr g tr).dst)) cur)) fuel u = dfsPre g fuel u :=
      fun u => dfsPre_applyWrites _ fuel g u
    have hflat : (rest.flatMap fun tr2 =>
        dfsPre (applyWrites g (zipIds (dfsPre g fuel ((getTr g tr).dst)) cur))
          fuel
          ((getTr (applyWrites g (zipIds (dfsPre g fuel ((getTr g tr).dst))
            cur)) tr2).dst)) =
        (rest.flatMap fun tr2 => dfsPre g fuel ((getTr g tr2).dst)) := by
      apply List.flatMap_congr
      intro tr2 _
      rw [hTr, hPre]
    rw [hflat]
    show (applyWrites (applyWrites g _) _, _) = _
    rw [← applyWrites_append]
    have hzip := zipIds_append (dfsPre g fuel ((getTr g tr).dst))
      (rest.flatMap fun tr2 => dfsPre g fuel ((getTr g tr2).dst)) cur
    rw [← hzip]
    have hflat2 : ((tr :: rest).flatMap fun tr2 =>
        dfsPre g fuel ((getTr g tr2).dst)) =
        dfsPre g fuel ((getTr g tr).dst)
          ++ (rest.flatMap fun tr2 => dfsPre g fuel ((getTr g tr2).dst)) := by
      simp [List.flatMap_cons]
    rw [hflat2]
    simp [List.length_append]
    omega

/-- `assignIds` equals the preorder visit trace, each visit writing the
next identifier: the k-th visited state (0-based) receives identifier
`startingId + 1 + k`, and the returned counter is the starting identifier
plus the number of visits. -/
theorem assignIds_trace : ∀ (fuel : Nat) (g : Graph) (s i : Nat),
    assignIds g s i fuel =
      (applyWrites g (zipIds (dfsPre g fuel s) i),
       i + (dfsPre g fuel s).length)
  | 0, g, s, i => rfl
  | fuel + 1, g, s, i => by
    rw [assignIds]
    rw [assignIdsList_trace fuel (fun g2 s2 i2 => assignIds_trace fuel g2 s2 i2)]
    have hout : (getSt (modSt g s fun st => { st with ID := i + 1 }) s).out
        = (getSt g s).out := (getSt_write_shape g s (i + 1) s).2.1
    have hTr : ∀ u, getTr (modSt g s fun st => { st with ID := i + 1 }) u
        = getTr g u := fun u => rfl
    have hPre : ∀ fl u, dfsPre (modSt g s fun st => { st with ID := i + 1 })
        fl u = dfsPre g fl u := by
      intro fl u
      have := dfsPre_applyWrites [(s, i + 1)] fl g u
      simpa [applyWrites, modSt] using this
    have hflat : ((getSt (modSt g s fun st => { st with ID := i + 1 }) s).out.flatMap
        fun tr => dfsPre (modSt g s fun st => { st with ID := i + 1 }) fuel
          ((getTr (modSt g s fun st => { st with ID := i + 1 }) tr).dst)) =
        ((getSt g s).out.flatMap fun tr => dfsPre g fuel ((getTr g tr).dst)) := by
      rw [hout]
      apply List.flatMap_congr
      intro tr2 _
      rw [hTr, hPre]
    rw [hflat]
    show (applyWrites (modSt g s fun st => { st with ID := i + 1 }) _, _) = _
    have hw : applyWrites g (zipIds (dfsPre g (fuel + 1) s) i) =
        applyWrites (modSt g s fun st => { st with ID := i + 1 })
          (zipIds ((getSt g s).out.flatMap fun tr =>
            dfsPre g fuel ((getTr g tr).dst)) (i + 1)) := by
      rw [dfsPre]
      rfl
    rw [hw]
    have hlen : (dfsPre g (fuel + 1) s).length =
        ((getSt g s).out.flatMap fun tr =>
          dfsPre g fuel ((getTr g tr).dst)).length + 1 := by
      rw [dfsPre]
      simp
    rw [hlen]
    have : i + 1 + ((getSt g s).out.flatMap fun tr =>
        dfsPre g fuel ((getTr g tr).dst)).length =
        i + (((getSt g s).out.flatMap fun tr =>
          dfsPre g fuel ((getTr g tr).dst)).length + 1) := by omega
    rw [this]

/-- The value left in a state by a write list: the latest write to `x`,
defaulting to `d`. -/
def lastWriteTo (l : List (Nat × Nat)) (x : Nat) (d : Nat) : Nat :=
  l.foldl (fun acc p => if p.1 = x then p.2 else acc) d

theorem lastWriteTo_nil (x d : Nat) : lastWriteTo [] x d = d := rfl

theorem lastWriteTo_cons (p : Nat × Nat) (l : List (Nat × Nat)) (x d : Nat) :
    lastWriteTo (p :: l) x d =
      lastWriteTo l x (if p.1 = x then p.2 else d) := rfl

/-- After a write list, a (valid) state's identifier is its latest write. -/
theorem ID_applyWrites : ∀ (l : List (Nat × Nat)) (g : Graph) (x : Nat),
    x < g.states.length →
    (getSt (applyWrites g l) x).ID = lastWriteTo l x ((getSt g x).ID)
  | [], g, x, _ => rfl
  | p :: rest, g, x, hx => by
    rw [applyWrites_cons, lastWriteTo_cons]
    rw [ID_applyWrites rest _ x (by rw [length_modSt]; exact hx)]
    by_cases hpx : p.1 = x
    · subst hpx
      rw [getSt_modSt_self g p.1 _ hx, if_pos rfl]
    · rw [getSt_modSt_ne g p.1 _ x hpx, if_neg hpx]

/-- A state not in the visit list receives no write. -/
theorem lastWriteTo_zipIds_not_mem : ∀ (v : List Nat) (base x d : Nat),
    x ∉ v → lastWriteTo (zipIds v base) x d = d
  | [], _, _, _, _ => rfl
  | s :: rest, base, x, d, hx => by
    rw [zipIds, lastWriteTo_cons]
    have hsx : s ≠ x := fun h => hx (h ▸ List.mem_cons_self s rest)
    rw [if_neg hsx]
    exact lastWriteTo_zipIds_not_mem rest (base + 1) x d
      (fun h => hx (List.mem_cons_of_mem s h))

/-- The latest write to a visited state is determined by the position of its
last visit: it equals `base + 1 + k` where `k` is the index of the last
occurrence of the state in the visit list. -/
theorem lastWriteTo_zipIds_mem : ∀ (v : List Nat) (base x d : Nat),
    x ∈ v →
    ∃ k, k < v.length ∧ v.getD k 0 = x ∧
      (∀ k', k < k' → k' < v.length → v.getD k' 0 ≠ x) ∧
      lastWriteTo (zipIds v base) x d = base + 1 + k
  | s :: rest, base, x, d, hx => by
    rw [zipIds, lastWriteTo_cons]
    by_cases hmem : x ∈ rest
    · obtain ⟨k, hk, hgd, hmax, hval⟩ :=
        lastWriteTo_zipIds_mem rest (base + 1) x
          (if s = x then base + 1 else d) hmem
      refine ⟨k + 1, by simpa using Nat.succ_lt_succ hk, hgd, ?_, ?_⟩
      · intro k' hk1 hk2
        cases k' with
        | zero => exact absurd hk1 (Nat.not_lt_zero _)
        | succ k'' =>
          exact hmax k'' (Nat.lt_of_succ_lt_succ hk1)
            (Nat.lt_of_succ_lt_succ (by simpa using hk2))
      · rw [hval]
        omega
    · have hsx : s = x := by
        rcases List.mem_cons.mp hx with h | h
        · exact h.symm
        · exact absurd h hmem
      rw [if_pos hsx]
      rw [lastWriteTo_zipIds_not_mem rest (base + 1) x _ hmem]
      refine ⟨0, by simp, hsx, ?_, by omega⟩
      intro k' hk1 hk2
      cases k' with
      | zero => exact absurd hk1 (Nat.lt_irrefl 0)
      | succ k'' =>
        intro hgd
        apply hmem
        rw [show (s :: rest).getD (k'' + 1) 0 = rest.getD k'' 0 from rfl] at hgd
        have hlt : k'' < rest.length := by simpa using hk2
        rw [List.getD_eq_getElem rest 0 hlt] at hgd
        exact hgd ▸ List.getElem_mem hlt

/-- Distinct visited states end with distinct identifiers. -/
theorem lastWriteTo_zipIds_inj (v : List Nat) (base x y d d' : Nat)
    (hx : x ∈ v) (hy : y ∈ v) (hxy : x ≠ y) :
    lastWriteTo (zipIds v base) x d ≠ lastWriteTo (zipIds v base) y d' := by
  obtain ⟨k, hk, hgd, hmax, hval⟩ := lastWriteTo_zipIds_mem v base x d hx
  obtain ⟨k', hk', hgd', hmax', hval'⟩ := lastWriteTo_zipIds_mem v base y d' hy
  rw [hval, hval']
  intro heq
  have : k = k' := by omega
  subst this
  exact hxy (hgd ▸ hgd' ▸ rfl)

/-- Every reachable state within the fuel bound appears in the visit list. -/
theorem mem_dfsPre_of_reachN {g : Graph} :
    ∀ {n s x : Nat}, ReachN g n s x → ∀ {fuel : Nat}, n < fuel →
      x ∈ dfsPre g fuel s := by
  intro n s x hr
  induction hr with
  | refl s =>
    intro fuel hf
    match fuel, hf with
    | fuel + 1, _ => exact List.mem_cons_self _ _
  | step tr htr h ih =>
    intro fuel hf
    match fuel, hf with
    | fuel + 1, hf =>
      refine List.mem_cons_of_mem _ (List.mem_flatMap.mpr ⟨tr, htr, ?_⟩)
      exact ih (Nat.lt_of_succ_lt_succ hf)

/-- Every visited state is reachable (within the fuel bound). -/
theorem reachN_of_mem_dfsPre {g : Graph} :
    ∀ {fuel : Nat} {s x : Nat}, x ∈ dfsPre g fuel s →
      ∃ n, n < fuel ∧ ReachN g n s x := by
  intro fuel
  induction fuel with
  | zero => intro s x hx; exact absurd hx (by simp [dfsPre])
  | succ fuel ih =>
    intro s x hx
    rw [dfsPre] at hx
    rcases List.mem_cons.mp hx with h | h
    · exact ⟨0, Nat.succ_pos _, by cases h; exact ReachN.refl _⟩
    · obtain ⟨tr, htr, hmem⟩ := List.mem_flatMap.mp h
      obtain ⟨n, hn, hr⟩ := ih hmem
      exact ⟨n + 1, Nat.succ_lt_succ hn, ReachN.step tr htr hr⟩

/-- The backward root walk terminates at a state with no inbound
transitions, given fuel covering the remaining rank headroom. -/
theorem rootFuel_spec {g : Graph} {rks : List Nat} (hwf : wfB g rks = true) :
    ∀ (fuel s : Nat), s < g.states.length →
      g.states.length ≤ fuel + rkOf rks s →
      (getSt g (rootFuel g fuel s)).ins = [] ∧
        rootFuel g fuel s < g.states.length
  | 0, s, hs, hfuel => by
    have := wf_rk hwf hs
    omega
  | fuel + 1, s, hs, hfuel => by
    rw [rootFuel]
    cases hins : (getSt g s).ins with
    | nil => exact ⟨hins, hs⟩
    | cons tr rest =>
      obtain ⟨-, hsrc, hrk⟩ := wf_ins hwf hs (hins ▸ List.mem_cons_self tr rest)
      exact rootFuel_spec hwf fuel ((getTr g tr).src) hsrc (by omega)

/-- `rootOf` lands on a state with no inbound transitions. -/
theorem rootOf_spec {g : Graph} {rks : List Nat} (hwf : wfB g rks = true)
    {s : Nat} (hs : s < g.states.length) :
    (getSt g (rootOf g s)).ins = [] ∧ rootOf g s < g.states.length :=
  rootFuel_spec hwf g.states.length s hs (Nat.le_add_right _ _)

/-- If `findSome?` succeeds, some list element produced the value. -/
theorem findSome?_mem {α β : Type} (f : α → Option β) :
    ∀ (l : List α) (b : β), l.findSome? f = some b → ∃ a, a ∈ l ∧ f a = some b
  | [], b, h => absurd h (by simp)
  | a :: rest, b, h => by
    cases hfa : f a with
    | some c =>
      refine ⟨a, List.mem_cons_self a rest, ?_⟩
      rw [hfa]
      rw [List.findSome?_cons, hfa] at h
      exact h
    | none =>
      rw [List.findSome?_cons, hfa] at h
      obtain ⟨a', ha', hfa'⟩ := findSome?_mem f rest b h
      exact ⟨a', List.mem_cons_of_mem a ha', hfa'⟩

/-- `findByIdFuel` only returns a state whose current identifier is the
query, and that state is reachable from the start. -/
theorem findByIdFuel_some : ∀ {fuel : Nat} {g : Graph} {id s x : Nat},
    findByIdFuel g id fuel s = some x →
    (getSt g x).ID = id ∧ ∃ n, n < fuel ∧ ReachN g n s x := by
  intro fuel
  induction fuel with
  | zero => intro g id s x h; exact absurd h (by simp [findByIdFuel])
  | succ fuel ih =>
    intro g id s x h
    rw [findByIdFuel] at h
    by_cases hid : (getSt g s).ID = id
    · rw [if_pos hid] at h
      cases h
      exact ⟨hid, 0, Nat.succ_pos _, ReachN.refl s⟩
    · rw [if_neg hid] at h
      obtain ⟨tr, htr, hfind⟩ := findSome?_mem _ _ _ h
      obtain ⟨hID, n, hn, hr⟩ := ih hfind
      exact ⟨hID, n + 1, Nat.succ_lt_succ hn, ReachN.step tr htr hr⟩

/-- `findByIdFuel` finds a state when some reachable state (within fuel)
carries the queried identifier. -/
theorem findByIdFuel_complete : ∀ {fuel : Nat} {g : Graph} {id s x n : Nat},
    ReachN g n s x → n < fuel → (getSt g x).ID = id →
    findByIdFuel g id fuel s ≠ none := by
  intro fuel
  induction fuel with
  | zero => intro g id s x n hr hn; omega
  | succ fuel ih =>
    intro g id s x n hr hn hID
    rw [findByIdFuel]
    by_cases hid : (getSt g s).ID = id
    · rw [if_pos hid]; exact Option.some_ne_none s
    · rw [if_neg hid]
      cases hr with
      | refl => exact absurd hID hid
      | step tr htr h =>
        intro hnone
        rw [List.findSome?_eq_none_iff] at hnone
        exact ih h (by omega) hID (hnone tr htr)

/-- Identifier writes preserve reachability (the graph shape is unchanged). -/
theorem reachN_shape {g g2 : Graph}
    (hout : ∀ s, (getSt g2 s).out = (getSt g s).out)
    (htr : ∀ t, getTr g2 t = getTr g t) :
    ∀ {n s x : Nat}, ReachN g2 n s x → ReachN g n s x := by
  intro n s x hr
  induction hr with
  | refl s => exact ReachN.refl s
  | step tr htr2 h ih =>
    refine ReachN.step tr ?_ ?_
    · rw [← hout]; exact htr2
    · rw [← htr]; exact ih

/-- `zipIds`, spelled out: the visits are paired with `base+1, base+2, …`. -/
theorem zipIds_eq_zip_range' : ∀ (v : List Nat) (base : Nat),
    zipIds v base = v.zip (List.range' (base + 1) v.length)
  | [], _ => rfl
  | s :: rest, base => by
    show (s, base + 1) :: zipIds rest (base + 1) =
      (s :: rest).zip (List.range' (base + 1) (rest.length + 1))
    rw [List.range'_succ]
    rw [List.zip_cons_cons]
    rw [zipIds_eq_zip_range' rest (base + 1)]

/-! ## Paths and multiply-visited states -/

/-- All transition paths from `s` to `x` (each path is the list of
transition indices followed), up to the fuel bound on length. -/
def pathsTo (g : Graph) : Nat → Nat → Nat → List (List Nat)
  | 0, _, _ => []
  | fuel + 1, s, x =>
    (if s = x then [[]] else []) ++
      ((getSt g s).out).flatMap fun tr =>
        (pathsTo g fuel (getTr g tr).dst x).map (tr :: ·)

/-- `p` is a genuine transition path from `s` to `x`. -/
def IsPathTo (g : Graph) : Nat → Nat → List Nat → Prop
  | s, x, [] => s = x
  | s, x, tr :: rest =>
    tr ∈ (getSt g s).out ∧ IsPathTo g ((getTr g tr).dst) x rest

/-- Everything `pathsTo` lists is a genuine path. -/
theorem pathsTo_sound {g : Graph} : ∀ {fuel s x : Nat} {p : List Nat},
    p ∈ pathsTo g fuel s x → IsPathTo g s x p := by
  intro fuel
  induction fuel with
  | zero => intro s x p hp; exact absurd hp (by simp [pathsTo])
  | succ fuel ih =>
    intro s x p hp
    rw [pathsTo] at hp
    rcases List.mem_append.mp hp with h | h
    · by_cases hsx : s = x
      · rw [if_pos hsx] at h
        have : p = [] := by simpa using h
        subst this
        exact hsx
      · rw [if_neg hsx] at h
        exact absurd h (by simp)
    · obtain ⟨tr, htr, hmem⟩ := List.mem_flatMap.mp h
      obtain ⟨q, hq, hpq⟩ := List.mem_map.mp hmem
      subst hpq
      exact ⟨htr, ih hq⟩

/-- The DFS visit list visits a state exactly once per path from the start:
its multiplicity equals the number of paths. -/
theorem count_dfsPre_eq_pathsTo (g : Graph) :
    ∀ (fuel s x : Nat),
      (dfsPre g fuel s).count x = (pathsTo g fuel s x).length := by
  intro fuel
  induction fuel with
  | zero => intro s x; rfl
  | succ fuel ih =>
    intro s x
    rw [dfsPre, pathsTo]
    rw [List.count_cons, List.length_append]
    have hlist : ∀ outs : List Nat,
        (outs.flatMap fun tr => dfsPre g fuel (getTr g tr).dst).count x =
        (outs.flatMap fun tr =>
          (pathsTo g fuel (getTr g tr).dst x).map (tr :: ·)).length := by
      intro outs
      induction outs with
      | nil => rfl
      | cons tr rest ihrest =>
        rw [List.flatMap_cons, List.flatMap_cons, List.count_append,
          List.length_append, ihrest, List.length_map, ih]
    rw [hlist]
    by_cases hsx : s = x
    · rw [if_pos hsx]
      simp [hsx]
      omega
    · rw [if_neg hsx]
      have : (x == s) = false := by
        simp [Ne.symm hsx]
      simp [this, hsx]

/-! ## C8, C10, C4: Build, identifier lookup, diamonds -/

/-- The graph part of `Build` is exactly the write trace applied. -/
theorem build_eq_applyWrites (g : Graph) (s : Nat) :
    (Build g s).1 = applyWrites g
      (zipIds (dfsPre g (g.states.length + 1) (rootOf g s)) 0) := by
  show (assignIds g (rootOf g s) 0 (g.states.length + 1)).1 = _
  rw [assignIds_trace]

/-- C8: `Build(s)` resolves the root by walking inbound transitions
backward until a state with no inbound transitions is reached, then assigns
identifiers by a depth-first preorder walk over outbound transitions —
visiting the root first and giving the k-th visited state (0-based)
identifier `k + 1`, i.e. the count starts at 1 at the root and increments
by one per visited state — and returns that root. -/
theorem build_root_walk_and_preorder_ids (g : Graph) (rks : List Nat)
    (s : Nat) (hwf : wfB g rks = true) (hs : s < g.states.length) :
    (Build g s).2 = rootOf g s ∧
    (getSt g (rootOf g s)).ins = [] ∧
    (dfsPre g (g.states.length + 1) (rootOf g s)).head? = some (rootOf g s) ∧
    (Build g s).1 =
      applyWrites g ((dfsPre g (g.states.length + 1) (rootOf g s)).zip
        (List.range' 1 (dfsPre g (g.states.length + 1) (rootOf g s)).length)) := by
  refine ⟨rfl, (rootOf_spec hwf hs).1, ?_, ?_⟩
  · rw [dfsPre]
    rfl
  · rw [build_eq_applyWrites, zipIds_eq_zip_range']

/-- Witness for C8 on the concrete flow `a.THEN(a).THEN(b)`. -/
theorem build_root_walk_and_preorder_ids_witness :
    wfB aThenAThenB.1 [5, 0, 5, 0, 5, 4, 5, 0, 5, 0, 5, 4, 3, 5, 0] = true ∧
    aThenAThenB.2 < aThenAThenB.1.states.length ∧
    ((Build aThenAThenB.1 aThenAThenB.2).2 = rootOf aThenAThenB.1 aThenAThenB.2 ∧
    (getSt aThenAThenB.1 (rootOf aThenAThenB.1 aThenAThenB.2)).ins = [] ∧
    (dfsPre aThenAThenB.1 (aThenAThenB.1.states.length + 1)
      (rootOf aThenAThenB.1 aThenAThenB.2)).head?
        = some (rootOf aThenAThenB.1 aThenAThenB.2) ∧
    (Build aThenAThenB.1 aThenAThenB.2).1 =
      applyWrites aThenAThenB.1
        ((dfsPre aThenAThenB.1 (aThenAThenB.1.states.length + 1)
          (rootOf aThenAThenB.1 aThenAThenB.2)).zip
          (List.range' 1 (dfsPre aThenAThenB.1
            (aThenAThenB.1.states.length + 1)
            (rootOf aThenAThenB.1 aThenAThenB.2)).length))) :=
  ⟨by decide, by decide,
    build_root_walk_and_preorder_ids aThenAThenB.1
      [5, 0, 5, 0, 5, 4, 5, 0, 5, 0, 5, 4, 3, 5, 0] aThenAThenB.2
      (by decide) (by decide)⟩

/-- C10: a state whose identifier is still the zero value 0 (before any
`Build`) is returned by `FindByID(0)` on itself, because `FindByID`
compares the receiver's own identifier first; after `Build`, every state
reachable from the root carries an identifier of at least 1, and
`FindByID(0)` from the root is `none` (not-found). -/
theorem findByID_zero_before_and_after_build (g : Graph) (rks : List Nat)
    (s : Nat) (hwf : wfB g rks = true) (hs : s < g.states.length) :
    (∀ x, (getSt g x).ID = 0 → FindByID g x 0 = some x) ∧
    (∀ x, Reaches (Build g s).1 (Build g s).2 x →
      1 ≤ (getSt (Build g s).1 x).ID) ∧
    FindByID (Build g s).1 (Build g s).2 0 = none := by
  have hbuilt := build_eq_applyWrites g s
  have hroot2 : (Build g s).2 = rootOf g s := rfl
  have hrOk := rootOf_spec hwf hs
  have hout2 : ∀ u, (getSt (Build g s).1 u).out = (getSt g u).out := by
    intro u
    rw [hbuilt]
    exact (applyWrites_shape _ g u).2.1
  have htr2 : ∀ t, getTr (Build g s).1 t = getTr g t := by
    intro t
    rw [hbuilt]
    exact getTr_applyWrites _ g t
  have hgeone : ∀ x, Reaches (Build g s).1 (Build g s).2 x →
      1 ≤ (getSt (Build g s).1 x).ID := by
    intro x ⟨n, hr⟩
    rw [hroot2] at hr
    have hrg : ReachN g n (rootOf g s) x := reachN_shape hout2 htr2 hr
    obtain ⟨hn, hxlen⟩ := reachN_le_rank hwf hrg hrOk.2
    have hrk := wf_rk hwf hrOk.2
    have hmem : x ∈ dfsPre g (g.states.length + 1) (rootOf g s) :=
      mem_dfsPre_of_reachN hrg (by omega)
    obtain ⟨k, -, -, -, hval⟩ :=
      lastWriteTo_zipIds_mem (dfsPre g (g.states.length + 1) (rootOf g s)) 0
        x ((getSt g x).ID) hmem
    rw [hbuilt, ID_applyWrites _ g x hxlen, hval]
    omega
  refine ⟨?_, hgeone, ?_⟩
  · intro x hx
    rw [FindByID]
    show findByIdFuel g 0 (g.states.length + 1) x = some x
    rw [findByIdFuel, if_pos hx]
  · cases hfind : FindByID (Build g s).1 (Build g s).2 0 with
    | none => rfl
    | some x =>
      obtain ⟨hID, n, -, hr⟩ := findByIdFuel_some hfind
      have := hgeone x ⟨n, hr⟩
      omega

/-- Witness for C10 on the concrete flow `a.THEN(a).THEN(b)`. -/
theorem findByID_zero_witness :
    wfB aThenAThenB.1 [5, 0, 5, 0, 5, 4, 5, 0, 5, 0, 5, 4, 3, 5, 0] = true ∧
    aThenAThenB.2 < aThenAThenB.1.states.length ∧
    FindByID aThenAThenB.1 aThenAThenB.2 0 = some aThenAThenB.2 ∧
    FindByID (Build aThenAThenB.1 aThenAThenB.2).1
      (Build aThenAThenB.1 aThenAThenB.2).2 0 = none := by
  have h := findByID_zero_before_and_after_build aThenAThenB.1
    [5, 0, 5, 0, 5, 4, 5, 0, 5, 0, 5, 4, 3, 5, 0] aThenAThenB.2
    (by decide) (by decide)
  exact ⟨by decide, by decide, h.1 aThenAThenB.2 (by decide), h.2.2⟩

/-- C4: in a built flow with a state `x` reachable from the root by more
than one path (visited more than once by the depth-first identifier walk),
the walk visits `x` exactly once per root-to-`x` path, each visit
overwrites `x`'s identifier, so after `Build` the state holds only the
latest write, `FindByID` never locates `x` by an identifier that differs
from its final one, and it does locate `x` by its final (last-assigned)
identifier. -/
theorem diamond_last_assigned_id_wins (g : Graph) (rks : List Nat)
    (s x : Nat) (hwf : wfB g rks = true) (hs : s < g.states.length)
    (hx2 : 2 ≤ (dfsPre g (g.states.length + 1) (rootOf g s)).count x) :
    (dfsPre g (g.states.length + 1) (rootOf g s)).count x =
      (pathsTo g (g.states.length + 1) (rootOf g s) x).length ∧
    (getSt (Build g s).1 x).ID =
      lastWriteTo (zipIds (dfsPre g (g.states.length + 1) (rootOf g s)) 0)
        x ((getSt g x).ID) ∧
    (∀ v, v ≠ (getSt (Build g s).1 x).ID →
      FindByID (Build g s).1 (Build g s).2 v ≠ some x) ∧
    FindByID (Build g s).1 (Build g s).2 ((getSt (Build g s).1 x).ID)
      = some x := by
  have hbuilt := build_eq_applyWrites g s
  have hroot2 : (Build g s).2 = rootOf g s := rfl
  have hrOk := rootOf_spec hwf hs
  have hout2 : ∀ u, (getSt (Build g s).1 u).out = (getSt g u).out := by
    intro u
    rw [hbuilt]
    exact (applyWrites_shape _ g u).2.1
  have htr2 : ∀ t, getTr (Build g s).1 t = getTr g t := by
    intro t
    rw [hbuilt]
    exact getTr_applyWrites _ g t
  have hlen2 : (Build g s).1.states.length = g.states.length := by
    rw [hbuilt]
    exact length_applyWrites _ g
  have hmem : x ∈ dfsPre g (g.states.length + 1) (rootOf g s) := by
    by_contra hnot
    rw [List.count_eq_zero_of_not_mem hnot] at hx2
    omega
  obtain ⟨nx, hnx, hrx⟩ := reachN_of_mem_dfsPre hmem
  have hxlen : x < g.states.length := (reachN_le_rank hwf hrx hrOk.2).2
  -- every visited state's final identifier is its latest write
  have hIDofMem : ∀ y, y ∈ dfsPre g (g.states.length + 1) (rootOf g s) →
      y < g.states.length →
      (getSt (Build g s).1 y).ID =
        lastWriteTo (zipIds (dfsPre g (g.states.length + 1) (rootOf g s)) 0)
          y ((getSt g y).ID) := by
    intro y _ hylen
    rw [hbuilt, ID_applyWrites _ g y hylen]
  refine ⟨count_dfsPre_eq_pathsTo g _ _ _, hIDofMem x hmem hxlen, ?_, ?_⟩
  · intro v hv hfind
    obtain ⟨hID, -⟩ := findByIdFuel_some hfind
    exact hv (hID ▸ rfl)
  · -- completeness: the lookup cannot fail …
    have hrBuilt : ReachN (Build g s).1 nx (Build g s).2 x := by
      rw [hroot2]
      exact reachN_shape (fun u => (hout2 u).symm) (fun t => (htr2 t).symm) hrx
    have hne := @findByIdFuel_complete ((Build g s).1.states.length + 1)
      _ _ _ _ _ hrBuilt (by omega) rfl
    rw [FindByID]
    cases hfind : findByIdFuel (Build g s).1 ((getSt (Build g s).1 x).ID)
        ((Build g s).1.states.length + 1) (Build g s).2 with
    | none => exact absurd hfind hne
    | some y =>
      -- … and whatever it returns carries the same final identifier,
      -- which distinct visited states never share
      obtain ⟨hIDy, m, hm, hry⟩ := findByIdFuel_some hfind
      have hryg : ReachN g m (rootOf g s) y := by
        rw [hroot2] at hry
        exact reachN_shape hout2 htr2 hry
      have hylen : y < g.states.length := (reachN_le_rank hwf hryg hrOk.2).2
      have hymem : y ∈ dfsPre g (g.states.length + 1) (rootOf g s) := by
        refine mem_dfsPre_of_reachN hryg ?_
        have := (reachN_le_rank hwf hryg hrOk.2).1
        have := wf_rk hwf hrOk.2
        omega
      by_cases hyx : y = x
      · rw [hyx]
      · exfalso
        apply lastWriteTo_zipIds_inj
          (dfsPre g (g.states.length + 1) (rootOf g s)) 0 y x
          ((getSt g y).ID) ((getSt g x).ID) hymem hmem hyx
        rw [← hIDofMem y hymem hylen, ← hIDofMem x hmem hxlen]
        exact hIDy

/-! ## C6: a.AND(b) -/

/-- Advancing with an event that matches no outbound transition is a
no-op: the state is returned unchanged, no action fires. -/
theorem advance_noMatch (sem : Sem) (g : Graph) (s : Nat) (e : EventData)
    (h : ∀ tr ∈ (getSt g s).out, sem (getTr g tr).test e = false) :
    Advance sem g s e = (s, []) := by
  rw [Advance]
  have : ∀ l, (∀ tr ∈ l, sem (getTr g tr).test e = false) →
      advanceScan sem g s e l = (s, []) := by
    intro l
    induction l with
    | nil => intro _; rfl
    | cons tr rest ih =>
      intro hl
      rw [advanceScan, hl tr (List.mem_cons_self tr rest)]
      exact ih fun tr2 htr2 => hl tr2 (List.mem_cons_of_mem tr htr2)
  exact this _ h

theorem runFlow_append (sem : Sem) (g : Graph) (s : Nat)
    (u v : List EventData) :
    runFlow sem g s (u ++ v) = runFlow sem g (runFlow sem g s u) v :=
  List.foldl_append ..

/-- The flow `a.AND(b)` as the library builds it (tests: a = 0, b = 1). -/
def aANDb : Graph × Nat :=
  let r1 := liftTest emptyGraph 0
  let r2 := liftTest r1.1 1
  AND r2.1 r1.2 r2.2

/-- The finalized graph of `a.AND(b).Build()`. -/
def aANDb_built : Graph × Nat := Build aANDb.1 aANDb.2

/-- Every transition of the `a.AND(b)` arena is guarded by test 0 or 1. -/
theorem aANDb_tests (s tr : Nat) (htr : tr ∈ (getSt aANDb_built.1 s).out) :
    (getTr aANDb_built.1 tr).test = 0 ∨ (getTr aANDb_built.1 tr).test = 1 := by
  by_cases hs : s < aANDb_built.1.states.length
  · have hall : (List.range aANDb_built.1.states.length).all (fun u =>
        (getSt aANDb_built.1 u).out.all fun t =>
          ((getTr aANDb_built.1 t).test == 0)
            || ((getTr aANDb_built.1 t).test == 1)) = true := by decide
    have := (List.all_eq_true.mp hall) s (List.mem_range.mpr hs)
    have := (List.all_eq_true.mp this) tr htr
    simpa using this
  · exfalso
    have : getSt aANDb_built.1 s = default := by
      show aANDb_built.1.states.getD s default = default
      exact getD_ge_length _ _ _ (Nat.le_of_not_lt hs)
    rw [this] at htr
    exact absurd htr (by simp [default])

/-- Events matching neither test leave every state of `a.AND(b)`
unchanged. -/
theorem aANDb_junk_noop (sem : Sem) (e : EventData) (h0 : sem 0 e = false)
    (h1 : sem 1 e = false) (s : Nat) :
    Advance sem aANDb_built.1 s e = (s, []) := by
  refine advance_noMatch sem _ s e fun tr htr => ?_
  rcases aANDb_tests s tr htr with h | h
  · rw [h, h0]
  · rw [h, h1]

/-- Junk events leave the current state of `a.AND(b)` unchanged over a
whole run. -/
theorem aANDb_junk_run (sem : Sem) (j : List EventData)
    (hj : ∀ e ∈ j, sem 0 e = false ∧ sem 1 e = false) (s : Nat) :
    runFlow sem aANDb_built.1 s j = s := by
  induction j with
  | nil => rfl
  | cons e rest ih =>
    rw [runFlow_cons,
      aANDb_junk_noop sem e (hj e (List.mem_cons_self e rest)).1
        (hj e (List.mem_cons_self e rest)).2 s]
    exact ih fun e2 he2 => hj e2 (List.mem_cons_of_mem e he2)

/-- C6: for predicates a, b matching distinct tokens A, B, the built flow
`a.AND(b)` reaches a Finished state under both event orders — with any
number of events matching neither pending predicate inserted anywhere
(such events leave the current state unchanged, as stated by
`aANDb_junk_noop` used in the proof). -/
theorem and_commutative_order_independent (sem : Sem) (A B : EventData)
    (hA0 : sem 0 A = true) (hA1 : sem 1 A = false)
    (hB0 : sem 0 B = false) (hB1 : sem 1 B = true)
    (j1 j2 j3 : List EventData)
    (hj : ∀ e ∈ j1 ++ j2 ++ j3, sem 0 e = false ∧ sem 1 e = false) :
    accepts sem aANDb_built.1 aANDb_built.2
      (j1 ++ [A] ++ j2 ++ [B] ++ j3) = true ∧
    accepts sem aANDb_built.1 aANDb_built.2
      (j1 ++ [B] ++ j2 ++ [A] ++ j3) = true := by
  have hj1 : ∀ e ∈ j1, sem 0 e = false ∧ sem 1 e = false :=
    fun e he => hj e (by simp [he])
  have hj2 : ∀ e ∈ j2, sem 0 e = false ∧ sem 1 e = false :=
    fun e he => hj e (by simp [he])
  have hj3 : ∀ e ∈ j3, sem 0 e = false ∧ sem 1 e = false :=
    fun e he => hj e (by simp [he])
  have hroot : aANDb_built.2 = 4 := by decide
  have s4 : ∀ e, (Advance sem aANDb_built.1 4 e).1 =
      if sem 0 e then 6 else if sem 1 e then 8 else 4 := by
    intro e
    rw [advance_double sem aANDb_built.1 4 e 2 4 (by decide)]
    rw [show getTr aANDb_built.1 2 = ⟨0, 4, 6⟩ by decide]
    rw [show getTr aANDb_built.1 4 = ⟨1, 4, 8⟩ by decide]
  have s6 : ∀ e, (Advance sem aANDb_built.1 6 e).1 =
      if sem 1 e then 5 else 6 := by
    intro e
    rw [advance_single sem aANDb_built.1 6 e 3 (by decide)]
    rw [show getTr aANDb_built.1 3 = ⟨1, 6, 5⟩ by decide]
  have s8 : ∀ e, (Advance sem aANDb_built.1 8 e).1 =
      if sem 0 e then 5 else 8 := by
    intro e
    rw [advance_single sem aANDb_built.1 8 e 5 (by decide)]
    rw [show getTr aANDb_built.1 5 = ⟨0, 8, 5⟩ by decide]
  constructor
  · rw [accepts, hroot, runFlow_append, runFlow_append, runFlow_append,
      runFlow_append, aANDb_junk_run sem j1 hj1 4]
    have h1 : runFlow sem aANDb_built.1 4 [A] = 6 := by
      rw [runFlow_cons, s4 A, hA0, runFlow_nil]
      simp
    rw [h1, aANDb_junk_run sem j2 hj2 6]
    have h2 : runFlow sem aANDb_built.1 6 [B] = 5 := by
      rw [runFlow_cons, s6 B, hB1, runFlow_nil]
      simp
    rw [h2, aANDb_junk_run sem j3 hj3 5]
    decide
  · rw [accepts, hroot, runFlow_append, runFlow_append, runFlow_append,
      runFlow_append, aANDb_junk_run sem j1 hj1 4]
    have h1 : runFlow sem aANDb_built.1 4 [B] = 8 := by
      rw [runFlow_cons, s4 B, hB0, hB1, runFlow_nil]
      simp
    rw [h1, aANDb_junk_run sem j2 hj2 8]
    have h2 : runFlow sem aANDb_built.1 8 [A] = 5 := by
      rw [runFlow_cons, s8 A, hA0, runFlow_nil]
      simp
    rw [h2, aANDb_junk_run sem j3 hj3 5]
    decide

/-- Witness for C6 at concrete tokens A = 0, B = 1 with junk events 7, 8,
9 interleaved. -/
theorem and_commutative_order_independent_witness :
    accepts (fun t e => t == e) aANDb_built.1 aANDb_built.2
      [7, 0, 8, 1, 9] = true ∧
    accepts (fun t e => t == e) aANDb_built.1 aANDb_built.2
      [7, 1, 8, 0, 9] = true :=
  and_commutative_order_independent (fun t e => t == e) 0 1
    (by decide) (by decide) (by decide) (by decide)
    [7] [8] [9] (by decide)

/-! ## Master access lemmas for compound operations -/

theorem getSt_modSt_cases (g : Graph) (x : Nat) (f : FlowState → FlowState)
    (s : Nat) : getSt (modSt g x f) s =
      if x = s ∧ x < g.states.length then f (getSt g s) else getSt g s := by
  by_cases hxs : x = s
  · by_cases hx : x < g.states.length
    · rw [if_pos ⟨hxs, hx⟩]
      subst hxs
      exact getSt_modSt_self g x f hx
    · rw [if_neg (fun h => hx h.2), modSt_of_ge g x f (Nat.le_of_not_lt hx)]
  · rw [if_neg (fun h => hxs h.1), getSt_modSt_ne g x f s hxs]

/-- `modTr` past the end of the transition arena is the identity. -/
theorem modTr_of_ge (g : Graph) (t : Nat) (f : Transition → Transition)
    (h : g.trans.length ≤ t) : modTr g t f = g := by
  unfold modTr
  rw [set_of_ge _ _ _ h]

theorem getTr_modTr_cases (g : Graph) (x : Nat) (f : Transition → Transition)
    (t : Nat) : getTr (modTr g x f) t =
      if x = t ∧ x < g.trans.length then f (getTr g t) else getTr g t := by
  by_cases hxt : x = t
  · by_cases hx : x < g.trans.length
    · rw [if_pos ⟨hxt, hx⟩]
      subst hxt
      exact getTr_modTr_self g x f hx
    · rw [if_neg (fun h => hx h.2), modTr_of_ge g x f (Nat.le_of_not_lt hx)]
  · rw [if_neg (fun h => hxt h.1), getTr_modTr_ne g x f t hxt]

theorem getSt_addOut (g : Graph) (c nt s : Nat) :
    getSt (addOut g c nt) s =
      if c = s ∧ c < g.states.length then
        { getSt g s with out := (getSt g s).out ++ [nt] }
      else getSt g s := by
  show getSt (modSt (modTr g nt _) c _) s = _
  rw [getSt_modSt_cases]
  rw [getSt_modTr]
  show (if c = s ∧ c < (modTr g nt _).states.length then _ else _) = _
  rw [show (modTr g nt fun t => { t with src := c }).states.length
      = g.states.length from rfl]

theorem getTr_addOut (g : Graph) (c nt t : Nat) :
    getTr (addOut g c nt) t =
      if nt = t ∧ nt < g.trans.length then { getTr g t with src := c }
      else getTr g t := by
  show getTr (modSt (modTr g nt _) c _) t = _
  rw [getTr_modSt, getTr_modTr_cases]

theorem getSt_addIn (g : Graph) (c nt s : Nat) :
    getSt (addIn g c nt) s =
      if c = s ∧ c < g.states.length then
        { getSt g s with ins := (getSt g s).ins ++ [nt] }
      else getSt g s := by
  show getSt (modSt (modTr g nt _) c _) s = _
  rw [getSt_modSt_cases]
  rw [getSt_modTr]
  show (if c = s ∧ c < (modTr g nt _).states.length then _ else _) = _
  rw [show (modTr g nt fun t => { t with dst := c }).states.length
      = g.states.length from rfl]

theorem getTr_addIn (g : Graph) (c nt t : Nat) :
    getTr (addIn g c nt) t =
      if nt = t ∧ nt < g.trans.length then { getTr g t with dst := c }
      else getTr g t := by
  show getTr (modSt (modTr g nt _) c _) t = _
  rw [getTr_modSt, getTr_modTr_cases]

theorem length_addOut_states (g : Graph) (c nt : Nat) :
    (addOut g c nt).states.length = g.states.length := by
  show (modSt (modTr g nt _) c _).states.length = _
  rw [length_modSt]
  rfl

theorem length_addOut_trans (g : Graph) (c nt : Nat) :
    (addOut g c nt).trans.length = g.trans.length := by
  show (modSt (modTr g nt _) c _).trans.length = _
  rw [trans_modSt]
  exact length_trans_modTr g nt _

theorem length_addIn_states (g : Graph) (c nt : Nat) :
    (addIn g c nt).states.length = g.states.length := by
  show (modSt (modTr g nt _) c _).states.length = _
  rw [length_modSt]
  rfl

theorem length_addIn_trans (g : Graph) (c nt : Nat) :
    (addIn g c nt).trans.length = g.trans.length := by
  show (modSt (modTr g nt _) c _).trans.length = _
  rw [trans_modSt]
  exact length_trans_modTr g nt _

theorem length_modSt_trans (g : Graph) (x : Nat) (f : FlowState → FlowState) :
    (modSt g x f).trans.length = g.trans.length := rfl

/-! ## Copy engine invariants

The fresh region `[L, ∞)` of the state arena (and `[T, ∞)` of the
transition arena) is self-contained: transitions hanging off fresh states
are fresh, valid, and connect only fresh states. -/

/-- All edges touching states at index `≥ L` use transitions at index
`≥ T` and stay within the `≥ L` region. -/
def RegionOk (L T : Nat) (g : Graph) : Prop :=
  ∀ i, L ≤ i →
    (∀ tr ∈ (getSt g i).out,
      T ≤ tr ∧ tr < g.trans.length ∧ L ≤ (getTr g tr).dst) ∧
    (∀ tr ∈ (getSt g i).ins,
      T ≤ tr ∧ tr < g.trans.length ∧ L ≤ (getTr g tr).src)

theorem regionOk_newState {L T : Nat} {g : Graph} (h : RegionOk L T g) :
    RegionOk L T (newState g).1 := by
  intro i hi
  constructor
  · intro tr htr
    by_cases hlen : i < g.states.length
    · rw [getSt_newState_old g i hlen] at htr
      obtain ⟨h1, h2, h3⟩ := (h i hi).1 tr htr
      rw [getTr_newState]
      exact ⟨h1, h2, h3⟩
    · have : getSt (newState g).1 i = default := by
        by_cases heq : i = g.states.length
        · subst heq; exact getSt_newState_new g
        · show ((newState g).1.states).getD i default = default
          refine getD_ge_length _ _ _ ?_
          rw [length_newState]
          omega
      rw [this] at htr
      exact absurd htr (by simp [default])
  · intro tr htr
    by_cases hlen : i < g.states.length
    · rw [getSt_newState_old g i hlen] at htr
      obtain ⟨h1, h2, h3⟩ := (h i hi).2 tr htr
      rw [getTr_newState]
      exact ⟨h1, h2, h3⟩
    · have : getSt (newState g).1 i = default := by
        by_cases heq : i = g.states.length
        · subst heq; exact getSt_newState_new g
        · show ((newState g).1.states).getD i default = default
          refine getD_ge_length _ _ _ ?_
          rw [length_newState]
          omega
      rw [this] at htr
      exact absurd htr (by simp [default])

theorem regionOk_newTransition {L T : Nat} {g : Graph} (h : RegionOk L T g)
    (test : TestId) (a b : Nat) :
    RegionOk L T (newTransition g test a b).1 := by
  intro i hi
  rw [show getSt (newTransition g test a b).1 i = getSt g i from rfl]
  constructor
  · intro tr htr
    obtain ⟨h1, h2, h3⟩ := (h i hi).1 tr htr
    rw [getTr_newTransition_old g test a b tr h2]
    refine ⟨h1, ?_, h3⟩
    rw [length_trans_newTransition]
    omega
  · intro tr htr
    obtain ⟨h1, h2, h3⟩ := (h i hi).2 tr htr
    rw [getTr_newTransition_old g test a b tr h2]
    refine ⟨h1, ?_, h3⟩
    rw [length_trans_newTransition]
    omega

theorem regionOk_addOut {L T : Nat} {g : Graph} (h : RegionOk L T g)
    {c nt : Nat} (hc : L ≤ c) (hT : T ≤ nt) (hlen : nt < g.trans.length)
    (hdst : L ≤ (getTr g nt).dst) : RegionOk L T (addOut g c nt) := by
  intro i hi
  rw [getSt_addOut]
  constructor
  · intro tr htr
    have htr' : tr ∈ (getSt g i).out ∨ tr = nt := by
      by_cases hcs : c = i ∧ c < g.states.length
      · rw [if_pos hcs] at htr
        rcases List.mem_append.mp htr with hm | hm
        · exact Or.inl hm
        · exact Or.inr (by simpa using hm)
      · rw [if_neg hcs] at htr
        exact Or.inl htr
    rw [getTr_addOut, length_addOut_trans]
    rcases htr' with hm | hm
    · obtain ⟨h1, h2, h3⟩ := (h i hi).1 tr hm
      by_cases hnt : nt = tr ∧ nt < g.trans.length
      · rw [if_pos hnt]
        obtain ⟨he, -⟩ := hnt
        subst he
        exact ⟨hT, h2, hdst⟩
      · rw [if_neg hnt]
        exact ⟨h1, h2, h3⟩
    · subst hm
      rw [if_pos ⟨rfl, hlen⟩]
      exact ⟨hT, hlen, hdst⟩
  · intro tr htr
    have htr' : tr ∈ (getSt g i).ins := by
      by_cases hcs : c = i ∧ c < g.states.length
      · rw [if_pos hcs] at htr
        exact htr
      · rw [if_neg hcs] at htr
        exact htr
    obtain ⟨h1, h2, h3⟩ := (h i hi).2 tr htr'
    rw [getTr_addOut, length_addOut_trans]
    by_cases hnt : nt = tr ∧ nt < g.trans.length
    · rw [if_pos hnt]
      exact ⟨h1, h2, hc⟩
    · rw [if_neg hnt]
      exact ⟨h1, h2, h3⟩

theorem regionOk_addIn {L T : Nat} {g : Graph} (h : RegionOk L T g)
    {c nt : Nat} (hc : L ≤ c) (hT : T ≤ nt) (hlen : nt < g.trans.length)
    (hsrc : L ≤ (getTr g nt).src) : RegionOk L T (addIn g c nt) := by
  intro i hi
  rw [getSt_addIn]
  constructor
  · intro tr htr
    have htr' : tr ∈ (getSt g i).out := by
      by_cases hcs : c = i ∧ c < g.states.length
      · rw [if_pos hcs] at htr
        exact htr
      · rw [if_neg hcs] at htr
        exact htr
    obtain ⟨h1, h2, h3⟩ := (h i hi).1 tr htr'
    rw [getTr_addIn, length_addIn_trans]
    by_cases hnt : nt = tr ∧ nt < g.trans.length
    · rw [if_pos hnt]
      exact ⟨h1, h2, hc⟩
    · rw [if_neg hnt]
      exact ⟨h1, h2, h3⟩
  · intro tr htr
    have htr' : tr ∈ (getSt g i).ins ∨ tr = nt := by
      by_cases hcs : c = i ∧ c < g.states.length
      · rw [if_pos hcs] at htr
        rcases List.mem_append.mp htr with hm | hm
        · exact Or.inl hm
        · exact Or.inr (by simpa using hm)
      · rw [if_neg hcs] at htr
        exact Or.inl htr
    rw [getTr_addIn, length_addIn_trans]
    rcases htr' with hm | hm
    · obtain ⟨h1, h2, h3⟩ := (h i hi).2 tr hm
      by_cases hnt : nt = tr ∧ nt < g.trans.length
      · rw [if_pos hnt]
        obtain ⟨he, -⟩ := hnt
        subst he
        exact ⟨hT, h2, hsrc⟩
      · rw [if_neg hnt]
        exact ⟨h1, h2, h3⟩
    · subst hm
      rw [if_pos ⟨rfl, hlen⟩]
      exact ⟨hT, hlen, hsrc⟩

/-- `modSt` with an edge-list-preserving update keeps the region sound. -/
theorem regionOk_modSt {L T : Nat} {g : Graph} (h : RegionOk L T g)
    (x : Nat) (f : FlowState → FlowState)
    (hout : ∀ st, (f st).out = st.out) (hins : ∀ st, (f st).ins = st.ins) :
    RegionOk L T (modSt g x f) := by
  intro i hi
  rw [getSt_modSt_cases]
  by_cases hcs : x = i ∧ x < g.states.length
  · rw [if_pos hcs, hout, hins]
    exact h i hi
  · rw [if_neg hcs]
    exact h i hi

/-- `g'` extends `g` without touching states below `L` or transitions
below `T`. -/
def CopyFrame (L T : Nat) (g g2 : Graph) : Prop :=
  g.states.length ≤ g2.states.length ∧
  g.trans.length ≤ g2.trans.length ∧
  (∀ i, i < L → getSt g2 i = getSt g i) ∧
  (∀ j, j < T → getTr g2 j = getTr g j)

theorem copyFrame_rfl (L T : Nat) (g : Graph) : CopyFrame L T g g :=
  ⟨Nat.le_refl _, Nat.le_refl _, fun _ _ => rfl, fun _ _ => rfl⟩

theorem copyFrame_trans {L T : Nat} {g g1 g2 : Graph}
    (h1 : CopyFrame L T g g1) (h2 : CopyFrame L T g1 g2) :
    CopyFrame L T g g2 :=
  ⟨Nat.le_trans h1.1 h2.1, Nat.le_trans h1.2.1 h2.2.1,
   fun i hi => (h2.2.2.1 i hi).trans (h1.2.2.1 i hi),
   fun j hj => (h2.2.2.2 j hj).trans (h1.2.2.2 j hj)⟩

theorem copyFrame_newState {L T : Nat} {g : Graph}
    (hL : L ≤ g.states.length) : CopyFrame L T g (newState g).1 := by
  refine ⟨by rw [length_newState]; omega, Nat.le_of_eq (by rfl), ?_, ?_⟩
  · intro i hi
    exact getSt_newState_old g i (by omega)
  · intro j _
    exact getTr_newState g j

theorem copyFrame_newTransition {L T : Nat} {g : Graph}
    (hT : T ≤ g.trans.length) (test : TestId) (a b : Nat) :
    CopyFrame L T g (newTransition g test a b).1 := by
  refine ⟨Nat.le_of_eq rfl, by rw [length_trans_newTransition]; omega, ?_, ?_⟩
  · intro i _
    exact getSt_newTransition g test a b i
  · intro j hj
    exact getTr_newTransition_old g test a b j (by omega)

theorem copyFrame_addOut {L T : Nat} {g : Graph} {c nt : Nat}
    (hc : L ≤ c) (hnt : T ≤ nt) : CopyFrame L T g (addOut g c nt) := by
  refine ⟨Nat.le_of_eq (length_addOut_states g c nt).symm,
    Nat.le_of_eq (length_addOut_trans g c nt).symm, ?_, ?_⟩
  · intro i hi
    rw [getSt_addOut, if_neg]
    intro h
    omega
  · intro j hj
    rw [getTr_addOut, if_neg]
    intro h
    omega

theorem copyFrame_addIn {L T : Nat} {g : Graph} {c nt : Nat}
    (hc : L ≤ c) (hnt : T ≤ nt) : CopyFrame L T g (addIn g c nt) := by
  refine ⟨Nat.le_of_eq (length_addIn_states g c nt).symm,
    Nat.le_of_eq (length_addIn_trans g c nt).symm, ?_, ?_⟩
  · intro i hi
    rw [getSt_addIn, if_neg]
    intro h
    omega
  · intro j hj
    rw [getTr_addIn, if_neg]
    intro h
    omega

theorem copyFrame_modSt {L T : Nat} {g : Graph} {x : Nat}
    (hx : L ≤ x) (f : FlowState → FlowState) :
    CopyFrame L T g (modSt g x f) := by
  refine ⟨Nat.le_of_eq (length_modSt g x f).symm,
    Nat.le_of_eq (length_modSt_trans g x f).symm, ?_, fun j _ => rfl⟩
  intro i hi
  rw [getSt_modSt_cases, if_neg]
  intro h
  omega

/-- The frame/region specification of one recursive copy call. -/
def CopySpecA (L T : Nat)
    (rec : Graph → List (Nat × Nat) → Nat → Graph × List (Nat × Nat) × Nat) :
    Prop :=
  ∀ g mp s, L ≤ g.states.length → T ≤ g.trans.length →
    (∀ p ∈ mp, L ≤ p.2 ∧ p.2 < g.states.length) → RegionOk L T g →
    CopyFrame L T g (rec g mp s).1 ∧ RegionOk L T (rec g mp s).1 ∧
    (∀ p ∈ (rec g mp s).2.1, L ≤ p.2 ∧ p.2 < (rec g mp s).1.states.length) ∧
    L ≤ (rec g mp s).2.2

/-- The out-copy loop preserves the frame/region invariants. -/
theorem doCopyOuts_frame (L T : Nat)
    (rec : Graph → List (Nat × Nat) → Nat → Graph × List (Nat × Nat) × Nat)
    (hrec : CopySpecA L T rec) :
    ∀ (outs : List Nat) (g : Graph) (mp : List (Nat × Nat)) (c : Nat),
      L ≤ g.states.length → T ≤ g.trans.length →
      (∀ p ∈ mp, L ≤ p.2 ∧ p.2 < g.states.length) → RegionOk L T g →
      L ≤ c →
      CopyFrame L T g (doCopyOuts rec g mp c outs).1 ∧
      RegionOk L T (doCopyOuts rec g mp c outs).1 ∧
      (∀ p ∈ (doCopyOuts rec g mp c outs).2, L ≤ p.2 ∧
        p.2 < (doCopyOuts rec g mp c outs).1.states.length)
  | [], g, mp, c, _, _, hmp, hreg, _ => ⟨copyFrame_rfl L T g, hreg, hmp⟩
  | tr :: rest, g, mp, c, hL, hT, hmp, hreg, hc => by
    rw [doCopyOuts]
    obtain ⟨hfr1, hreg1, hmp1, hcc⟩ := hrec g mp ((getTr g tr).dst) hL hT hmp hreg
    set r := rec g mp ((getTr g tr).dst) with hr
    set nt := r.1.trans.length with hnt
    have hTnt : T ≤ nt := Nat.le_trans hT hfr1.2.1
    have hLr : L ≤ r.1.states.length := Nat.le_trans hL hfr1.1
    have hTr : T ≤ r.1.trans.length := Nat.le_trans hT hfr1.2.1
    -- the new transition
    have hfr2 : CopyFrame L T r.1 (newTransition r.1 (getTr r.1 tr).test c r.2.2).1 :=
      copyFrame_newTransition hTr _ _ _
    have hreg2 : RegionOk L T (newTransition r.1 (getTr r.1 tr).test c r.2.2).1 :=
      regionOk_newTransition hreg1 _ _ _
    set g1 := (newTransition r.1 (getTr r.1 tr).test c r.2.2).1 with hg1
    have hnew : getTr g1 nt = ⟨(getTr r.1 tr).test, c, r.2.2⟩ :=
      getTr_newTransition_new r.1 _ c r.2.2
    have hntlen : nt < g1.trans.length := by
      rw [hg1, length_trans_newTransition]
      omega
    -- addOut c nt
    have hfr3 : CopyFrame L T g1 (addOut g1 c nt) := copyFrame_addOut hc hTnt
    have hreg3 : RegionOk L T (addOut g1 c nt) := by
      refine regionOk_addOut hreg2 hc hTnt hntlen ?_
      rw [hnew]
      exact hcc
    set g2 := addOut g1 c nt with hg2
    -- addIn r.2.2 nt
    have hsrc : (getTr g2 nt).src = c := by
      rw [hg2, getTr_addOut, if_pos ⟨rfl, hntlen⟩]
    have hntlen2 : nt < g2.trans.length := by
      rw [hg2, length_addOut_trans]
      exact hntlen
    have hfr4 : CopyFrame L T g2 (addIn g2 r.2.2 nt) := copyFrame_addIn hcc hTnt
    have hreg4 : RegionOk L T (addIn g2 r.2.2 nt) := by
      refine regionOk_addIn hreg3 hcc hTnt hntlen2 ?_
      rw [hsrc]
      exact hc
    set g3 := addIn g2 r.2.2 nt with hg3
    have hfrAll : CopyFrame L T g g3 :=
      copyFrame_trans hfr1 (copyFrame_trans hfr2 (copyFrame_trans hfr3 hfr4))
    have hmp3 : ∀ p ∈ r.2.1, L ≤ p.2 ∧ p.2 < g3.states.length := by
      intro p hp
      obtain ⟨h1, h2⟩ := hmp1 p hp
      refine ⟨h1, ?_⟩
      have := (copyFrame_trans hfr2 (copyFrame_trans hfr3 hfr4)).1
      omega
    obtain ⟨hfr5, hreg5, hmp5⟩ := doCopyOuts_frame L T rec hrec rest g3 r.2.1 c
      (Nat.le_trans hL hfrAll.1) (Nat.le_trans hT hfrAll.2.1) hmp3 hreg4 hc
    exact ⟨copyFrame_trans hfrAll hfr5, hreg5, hmp5⟩

/-- The co-branch-copy loop preserves the frame/region invariants. -/
theorem doCopyAnded_frame (L T : Nat)
    (rec : Graph → List (Nat × Nat) → Nat → Graph × List (Nat × Nat) × Nat)
    (hrec : CopySpecA L T rec) :
    ∀ (anded : List Nat) (g : Graph) (mp : List (Nat × Nat)) (c : Nat),
      L ≤ g.states.length → T ≤ g.trans.length →
      (∀ p ∈ mp, L ≤ p.2 ∧ p.2 < g.states.length) → RegionOk L T g →
      L ≤ c →
      CopyFrame L T g (doCopyAnded rec g mp c anded).1 ∧
      RegionOk L T (doCopyAnded rec g mp c anded).1 ∧
      (∀ p ∈ (doCopyAnded rec g mp c anded).2, L ≤ p.2 ∧
        p.2 < (doCopyAnded rec g mp c anded).1.states.length)
  | [], g, mp, c, _, _, hmp, hreg, _ => ⟨copyFrame_rfl L T g, hreg, hmp⟩
  | a :: rest, g, mp, c, hL, hT, hmp, hreg, hc => by
    rw [doCopyAnded]
    obtain ⟨hfr1, hreg1, hmp1, hcc⟩ := hrec g mp a hL hT hmp hreg
    set r := rec g mp a with hr
    set g2 := modSt r.1 c (fun st =>
      { st with andedStates := st.andedStates ++ [r.2.2] }) with hg2
    have hfr2 : CopyFrame L T r.1 g2 := copyFrame_modSt hc _
    have hreg2 : RegionOk L T g2 :=
      regionOk_modSt hreg1 c _ (fun st => rfl) (fun st => rfl)
    have hfrAll : CopyFrame L T g g2 := copyFrame_trans hfr1 hfr2
    have hmp2 : ∀ p ∈ r.2.1, L ≤ p.2 ∧ p.2 < g2.states.length := by
      intro p hp
      obtain ⟨h1, h2⟩ := hmp1 p hp
      refine ⟨h1, ?_⟩
      have := hfr2.1
      omega
    obtain ⟨hfr5, hreg5, hmp5⟩ := doCopyAnded_frame L T rec hrec rest g2 r.2.1 c
      (Nat.le_trans hL hfrAll.1) (Nat.le_trans hT hfrAll.2.1) hmp2 hreg2 hc
    exact ⟨copyFrame_trans hfrAll hfr5, hreg5, hmp5⟩

/-- `lookup` only returns bindings present in the list. -/
theorem lookup_mem : ∀ (mp : List (Nat × Nat)) (s c : Nat),
    mp.lookup s = some c → (s, c) ∈ mp
  | [], _, _, h => absurd h (by simp)
  | (a, b) :: rest, s, c, h => by
    by_cases hsa : s = a
    · subst hsa
      have : some b = some c := by simpa [List.lookup] using h
      cases this
      exact List.mem_cons_self _ _
    · have h' : rest.lookup s = some c := by
        simpa [List.lookup, beq_false_of_ne hsa] using h
      exact List.mem_cons_of_mem _ (lookup_mem rest s c h')

/-- The unfolding of `doCopy` in the fresh (not-yet-copied) case. -/
theorem doCopy_fresh_eq (g : Graph) (mp : List (Nat × Nat)) (s fuel : Nat)
    (hlk : mp.lookup s = none) :
    doCopy g mp s (fuel + 1) =
      (modSt (doCopyAnded (fun g2 m t => doCopy g2 m t fuel)
          (doCopyOuts (fun g2 m t => doCopy g2 m t fuel) (newState g).1
            ((s, (newState g).2) :: mp) (newState g).2
            ((getSt (newState g).1 s).out)).1
          (doCopyOuts (fun g2 m t => doCopy g2 m t fuel) (newState g).1
            ((s, (newState g).2) :: mp) (newState g).2
            ((getSt (newState g).1 s).out)).2
          (newState g).2
          ((getSt (doCopyOuts (fun g2 m t => doCopy g2 m t fuel) (newState g).1
            ((s, (newState g).2) :: mp) (newState g).2
            ((getSt (newState g).1 s).out)).1 s).andedStates)).1
        (newState g).2
        (fun st => { st with action :=
          (getSt (doCopyAnded (fun g2 m t => doCopy g2 m t fuel)
            (doCopyOuts (fun g2 m t => doCopy g2 m t fuel) (newState g).1
              ((s, (newState g).2) :: mp) (newState g).2
              ((getSt (newState g).1 s).out)).1
            (doCopyOuts (fun g2 m t => doCopy g2 m t fuel) (newState g).1
              ((s, (newState g).2) :: mp) (newState g).2
              ((getSt (newState g).1 s).out)).2
            (newState g).2
            ((getSt (doCopyOuts (fun g2 m t => doCopy g2 m t fuel)
              (newState g).1 ((s, (newState g).2) :: mp) (newState g).2
              ((getSt (newState g).1 s).out)).1 s).andedStates)).1 s).action }),
       (doCopyAnded (fun g2 m t => doCopy g2 m t fuel)
          (doCopyOuts (fun g2 m t => doCopy g2 m t fuel) (newState g).1
            ((s, (newState g).2) :: mp) (newState g).2
            ((getSt (newState g).1 s).out)).1
          (doCopyOuts (fun g2 m t => doCopy g2 m t fuel) (newState g).1
            ((s, (newState g).2) :: mp) (newState g).2
            ((getSt (newState g).1 s).out)).2
          (newState g).2
          ((getSt (doCopyOuts (fun g2 m t => doCopy g2 m t fuel) (newState g).1
            ((s, (newState g).2) :: mp) (newState g).2
            ((getSt (newState g).1 s).out)).1 s).andedStates)).2,
       (newState g).2) := by
  rw [doCopy, hlk]

/-- The unfolding of `doCopy` in the already-copied case. -/
theorem doCopy_found_eq (g : Graph) (mp : List (Nat × Nat)) (s c fuel : Nat)
    (hlk : mp.lookup s = some c) :
    doCopy g mp s (fuel + 1) = (g, mp, c) := by
  rw [doCopy, hlk]

/-- Lemma A: one `doCopy` call extends the arena without touching the
protected prefix, keeps the fresh region self-contained, keeps all copies
fresh, and returns a fresh index. This holds for any fuel. -/
theorem doCopy_frame : ∀ (fuel : Nat) (L T : Nat) (g : Graph)
    (mp : List (Nat × Nat)) (s : Nat),
    L ≤ g.states.length → T ≤ g.trans.length →
    (∀ p ∈ mp, L ≤ p.2 ∧ p.2 < g.states.length) → RegionOk L T g →
    CopyFrame L T g (doCopy g mp s fuel).1 ∧
    RegionOk L T (doCopy g mp s fuel).1 ∧
    (∀ p ∈ (doCopy g mp s fuel).2.1, L ≤ p.2 ∧
      p.2 < (doCopy g mp s fuel).1.states.length) ∧
    L ≤ (doCopy g mp s fuel).2.2
  | 0, L, T, g, mp, s, hL, hT, hmp, hreg =>
    ⟨copyFrame_rfl L T g, hreg, hmp, hL⟩
  | fuel + 1, L, T, g, mp, s, hL, hT, hmp, hreg => by
    cases hlk : mp.lookup s with
    | some c =>
      rw [doCopy_found_eq g mp s c fuel hlk]
      exact ⟨copyFrame_rfl L T g, hreg, hmp, (hmp (s, c) (lookup_mem mp s c hlk)).1⟩
    | none =>
      rw [doCopy_fresh_eq g mp s fuel hlk]
      dsimp only
      have hfr1 : CopyFrame L T g (newState g).1 := copyFrame_newState hL
      have hreg1 : RegionOk L T (newState g).1 := regionOk_newState hreg
      have hmp1 : ∀ p ∈ (s, (newState g).2) :: mp,
          L ≤ p.2 ∧ p.2 < (newState g).1.states.length := by
        intro p hp
        rcases List.mem_cons.mp hp with h | h
        · subst h
          show L ≤ g.states.length ∧ g.states.length < _
          rw [length_newState]
          exact ⟨hL, by omega⟩
        · obtain ⟨h1, h2⟩ := hmp p h
          rw [length_newState]
          exact ⟨h1, by omega⟩
      have hrecA : CopySpecA L T (fun g2 m t => doCopy g2 m t fuel) :=
        fun g2 m t h1 h2 h3 h4 => doCopy_frame fuel L T g2 m t h1 h2 h3 h4
      obtain ⟨hfr2, hreg2, hmp2⟩ := doCopyOuts_frame L T _
        hrecA ((getSt (newState g).1 s).out)
        (newState g).1 ((s, (newState g).2) :: mp) (newState g).2
        (Nat.le_trans hL hfr1.1) (Nat.le_trans hT hfr1.2.1) hmp1 hreg1
        (by show L ≤ g.states.length; exact hL)
      set r1 := doCopyOuts (fun g2 m t => doCopy g2 m t fuel) (newState g).1
        ((s, (newState g).2) :: mp) (newState g).2
        ((getSt (newState g).1 s).out) with hr1
      obtain ⟨hfr3, hreg3, hmp3⟩ := doCopyAnded_frame L T _
        hrecA ((getSt r1.1 s).andedStates)
        r1.1 r1.2 (newState g).2
        (Nat.le_trans (Nat.le_trans hL hfr1.1) hfr2.1)
        (Nat.le_trans (Nat.le_trans hT hfr1.2.1) hfr2.2.1) hmp2 hreg2
        (by show L ≤ g.states.length; exact hL)
      set r2 := doCopyAnded (fun g2 m t => doCopy g2 m t fuel) r1.1 r1.2
        (newState g).2 ((getSt r1.1 s).andedStates) with hr2
      have hfr4 : CopyFrame L T r2.1 (modSt r2.1 (newState g).2
          (fun st => { st with action := (getSt r2.1 s).action })) :=
        copyFrame_modSt (by show L ≤ g.states.length; exact hL) _
      have hreg4 : RegionOk L T (modSt r2.1 (newState g).2
          (fun st => { st with action := (getSt r2.1 s).action })) :=
        regionOk_modSt hreg3 _ _ (fun st => rfl) (fun st => rfl)
      refine ⟨copyFrame_trans hfr1 (copyFrame_trans hfr2
        (copyFrame_trans hfr3 hfr4)), hreg4, ?_, ?_⟩
      · intro p hp
        obtain ⟨h1, h2⟩ := hmp3 p hp
        refine ⟨h1, ?_⟩
        have := hfr4.1
        omega
      · show L ≤ g.states.length
        exact hL

/-- The region beyond the current arena is trivially self-contained. -/
theorem regionOk_trivial (g : Graph) (T : Nat) :
    RegionOk g.states.length T g := by
  intro i hi
  have : getSt g i = default := getD_ge_length _ _ _ hi
  rw [this]
  exact ⟨fun tr htr => absurd htr (by simp [default]),
    fun tr htr => absurd htr (by simp [default])⟩

/-- The backward root walk stays inside the fresh region. -/
theorem rootFuel_region {L T : Nat} {g : Graph} (hreg : RegionOk L T g) :
    ∀ (fuel s : Nat), L ≤ s → L ≤ rootFuel g fuel s
  | 0, s, hs => hs
  | fuel + 1, s, hs => by
    rw [rootFuel]
    cases hins : (getSt g s).ins with
    | nil => exact hs
    | cons tr rest =>
      refine rootFuel_region hreg fuel _ ?_
      exact ((hreg s hs).2 tr (hins ▸ List.mem_cons_self tr rest)).2.2

/-- Forward reachability stays inside the fresh region. -/
theorem reaches_region {L T : Nat} {g : Graph} (hreg : RegionOk L T g) :
    ∀ {n s x : Nat}, ReachN g n s x → L ≤ s → L ≤ x := by
  intro n s x hr
  induction hr with
  | refl s => exact id
  | step tr htr h ih =>
    intro hs
    exact ih ((hreg _ hs).1 tr htr).2.2

/-- `copyState` unfolded. -/
theorem copyState_eq (g : Graph) (s : Nat) :
    copyState g s =
      ((doCopy g [] (rootOf g s) (g.states.length + 1)).1,
       ((doCopy g [] (rootOf g s) (g.states.length + 1)).2.1.lookup s).getD
         (doCopy g [] (rootOf g s) (g.states.length + 1)).1.states.length) :=
  rfl

/-- `copy()` extends the arena, leaves the protected prefix untouched,
keeps the region invariant, and hands back a fresh state. -/
theorem copyState_frame (L T : Nat) (g : Graph) (s : Nat)
    (hL : L ≤ g.states.length) (hT : T ≤ g.trans.length)
    (hreg : RegionOk L T g) :
    CopyFrame L T g (copyState g s).1 ∧ RegionOk L T (copyState g s).1 ∧
    L ≤ (copyState g s).2 := by
  obtain ⟨hfr, hreg2, hmp, -⟩ := doCopy_frame (g.states.length + 1) L T g []
    (rootOf g s) hL hT (by simp) hreg
  rw [copyState_eq]
  refine ⟨hfr, hreg2, ?_⟩
  cases hlk : ((doCopy g [] (rootOf g s) (g.states.length + 1)).2.1.lookup s) with
  | none =>
    show L ≤ (doCopy g [] (rootOf g s) (g.states.length + 1)).1.states.length
    have := hfr.1
    omega
  | some c =>
    show L ≤ c
    exact (hmp (s, c) (lookup_mem _ s c hlk)).1

/-- The splice loop of `THEN` (re-homing the clone root's outbound
transitions onto the clone of `from`) stays inside the fresh region. -/
theorem spliceLoop_frame (L T : Nat) (c : Nat) (hc : L ≤ c) :
    ∀ (outs : List Nat) (g : Graph),
      RegionOk L T g →
      (∀ tr ∈ outs, T ≤ tr ∧ tr < g.trans.length ∧ L ≤ (getTr g tr).dst) →
      CopyFrame L T g (outs.foldl (fun g2 tr => addOut g2 c tr) g) ∧
      RegionOk L T (outs.foldl (fun g2 tr => addOut g2 c tr) g)
  | [], g, hreg, _ => ⟨copyFrame_rfl L T g, hreg⟩
  | tr :: rest, g, hreg, houts => by
    rw [List.foldl_cons]
    obtain ⟨hT1, hlen1, hdst1⟩ := houts tr (List.mem_cons_self tr rest)
    have hfr1 : CopyFrame L T g (addOut g c tr) := copyFrame_addOut hc hT1
    have hreg1 : RegionOk L T (addOut g c tr) :=
      regionOk_addOut hreg hc hT1 hlen1 hdst1
    have houts1 : ∀ tr2 ∈ rest, T ≤ tr2 ∧ tr2 < (addOut g c tr).trans.length ∧
        L ≤ (getTr (addOut g c tr) tr2).dst := by
      intro tr2 htr2
      obtain ⟨k1, k2, k3⟩ := houts tr2 (List.mem_cons_of_mem tr htr2)
      rw [length_addOut_trans, getTr_addOut]
      by_cases hcase : tr = tr2 ∧ tr < g.trans.length
      · rw [if_pos hcase]
        exact ⟨k1, k2, k3⟩
      · rw [if_neg hcase]
        exact ⟨k1, k2, k3⟩
    obtain ⟨hfr2, hreg2⟩ := spliceLoop_frame L T c hc rest (addOut g c tr)
      hreg1 houts1
    exact ⟨copyFrame_trans hfr1 hfr2, hreg2⟩

/-- `THEN` unfolded. -/
theorem THEN_eq (g : Graph) (fromS toS : Nat) :
    THEN g fromS toS =
      (((getSt (copyState (copyState g fromS).1 toS).1
          (rootOf (copyState (copyState g fromS).1 toS).1
            (copyState (copyState g fromS).1 toS).2)).out).foldl
        (fun g2 tr => addOut g2 (copyState g fromS).2 tr)
        (copyState (copyState g fromS).1 toS).1,
       (copyState (copyState g fromS).1 toS).2) :=
  rfl

/-- C7: `THEN(from, to)` deep-clones both operands before splicing: every
state and transition of the original arena (in particular everything
reachable from either operand — inbound/outbound lists, destinations,
predicates and actions) is left completely unchanged, and no original
state is aliased into the resulting flow: the returned handle is fresh,
and the entire composed flow — the root the handle resolves to and every
state forward-reachable from that root, as well as everything reachable
from the handle itself — lies in the freshly allocated region, so the
original operands can be reused without interference. -/
theorem then_frame_no_alias (g : Graph) (fromS toS : Nat) :
    (∀ i, i < g.states.length → getSt (THEN g fromS toS).1 i = getSt g i) ∧
    (∀ j, j < g.trans.length → getTr (THEN g fromS toS).1 j = getTr g j) ∧
    g.states.length ≤ (THEN g fromS toS).2 ∧
    (∀ x, Reaches (THEN g fromS toS).1
        (rootOf (THEN g fromS toS).1 (THEN g fromS toS).2) x →
      g.states.length ≤ x) ∧
    (∀ x, Reaches (THEN g fromS toS).1 (THEN g fromS toS).2 x →
      g.states.length ≤ x) := by
  obtain ⟨hfr1, hreg1, hc1⟩ := copyState_frame g.states.length g.trans.length
    g fromS (Nat.le_refl _) (Nat.le_refl _) (regionOk_trivial g _)
  obtain ⟨hfr2, hreg2, hc2⟩ := copyState_frame g.states.length g.trans.length
    (copyState g fromS).1 toS (Nat.le_trans (Nat.le_refl _) hfr1.1)
    (Nat.le_trans (Nat.le_refl _) hfr1.2.1) hreg1
  have hrt : g.states.length ≤ rootOf (copyState (copyState g fromS).1 toS).1
      (copyState (copyState g fromS).1 toS).2 :=
    rootFuel_region hreg2 _ _ hc2
  have houts : ∀ tr ∈ (getSt (copyState (copyState g fromS).1 toS).1
      (rootOf (copyState (copyState g fromS).1 toS).1
        (copyState (copyState g fromS).1 toS).2)).out,
      g.trans.length ≤ tr ∧
      tr < (copyState (copyState g fromS).1 toS).1.trans.length ∧
      g.states.length ≤
        (getTr (copyState (copyState g fromS).1 toS).1 tr).dst := by
    intro tr htr
    exact (hreg2 _ hrt).1 tr htr
  obtain ⟨hfr3, hreg3⟩ := spliceLoop_frame g.states.length g.trans.length
    (copyState g fromS).2 hc1 _ (copyState (copyState g fromS).1 toS).1
    hreg2 houts
  rw [THEN_eq]
  dsimp only
  have hfrAll := copyFrame_trans hfr1 (copyFrame_trans hfr2 hfr3)
  refine ⟨fun i hi => hfrAll.2.2.1 i hi, fun j hj => hfrAll.2.2.2 j hj,
    hc2, ?_, ?_⟩
  · intro x hx
    obtain ⟨n, hr⟩ := hx
    exact reaches_region hreg3 hr (rootFuel_region hreg3 _ _ hc2)
  · intro x hx
    obtain ⟨n, hr⟩ := hx
    exact reaches_region hreg3 hr hc2

/-! ## C9: the copy engine clones exactly once, isomorphically -/

/-- The copied outbound list mirrors the original's, transition by
transition and in order: same tests, and each destination is exactly the
registered copy of the original destination. -/
def ClonedOuts (g : Graph) (mp : List (Nat × Nat)) :
    List Nat → List Nat → Prop
  | [], [] => True
  | tro :: ro, trc :: rc =>
    (getTr g trc).test = (getTr g tro).test ∧
    mp.lookup ((getTr g tro).dst) = some ((getTr g trc).dst) ∧
    ClonedOuts g mp ro rc
  | _ :: _, [] => False
  | [], _ :: _ => False

theorem clonedOuts_mono {g g2 : Graph} {mp mp2 : List (Nat × Nat)}
    (htr : ∀ j, j < g.trans.length → getTr g2 j = getTr g j)
    (hlk : ∀ k v, mp.lookup k = some v → mp2.lookup k = some v) :
    ∀ (lo lc : List Nat), (∀ t ∈ lo, t < g.trans.length) →
      (∀ t ∈ lc, t < g.trans.length) →
      ClonedOuts g mp lo lc → ClonedOuts g2 mp2 lo lc
  | [], [], _, _, _ => trivial
  | tro :: ro, trc :: rc, hbo, hbc, h => by
    obtain ⟨h1, h2, h3⟩ := h
    have hto := hbo tro (List.mem_cons_self tro ro)
    have htc := hbc trc (List.mem_cons_self trc rc)
    refine ⟨?_, ?_, ?_⟩
    · rw [htr trc htc, htr tro hto]
      exact h1
    · rw [htr trc htc, htr tro hto]
      exact hlk _ _ h2
    · exact clonedOuts_mono htr hlk ro rc
        (fun t ht => hbo t (List.mem_cons_of_mem tro ht))
        (fun t ht => hbc t (List.mem_cons_of_mem trc ht)) h3
  | _ :: _, [], _, _, h => absurd h id
  | [], _ :: _, _, _, h => absurd h id

/-- From a cloned outbound list, every original destination has a
registered copy. -/
theorem clonedOuts_lookup {g : Graph} {mp : List (Nat × Nat)} :
    ∀ {lo lc : List Nat}, ClonedOuts g mp lo lc → ∀ tro ∈ lo,
      ∃ d, mp.lookup ((getTr g tro).dst) = some d
  | [], [], _, tro, htro => absurd htro (by simp)
  | tro2 :: ro, trc :: rc, h, tro, htro => by
    obtain ⟨-, h2, h3⟩ := h
    rcases List.mem_cons.mp htro with he | he
    · subst he
      exact ⟨_, h2⟩
    · exact clonedOuts_lookup h3 tro he
  | _ :: _, [], h, _, _ => absurd h id
  | [], _ :: _, h, _, _ => absurd h id

/-- A list of distinct naturals below `L` has at most `L` elements. -/
theorem length_le_of_nodup_lt (l : List Nat) (L : Nat) (hn : l.Nodup)
    (hlt : ∀ x ∈ l, x < L) : l.length ≤ L := by
  classical
  have hsub : l.toFinset ⊆ Finset.range L := fun x hx =>
    Finset.mem_range.mpr (hlt x (List.mem_toFinset.mp hx))
  have hcard := Finset.card_le_card hsub
  rw [Finset.card_range, List.toFinset_card_of_nodup hn] at hcard
  exact hcard

/-- In an association list with distinct keys, membership determines
`lookup`. -/
theorem lookup_of_mem_nodup :
    ∀ (mp : List (Nat × Nat)) (k v : Nat), (mp.map Prod.fst).Nodup →
      (k, v) ∈ mp → mp.lookup k = some v
  | [], _, _, _, hm => absurd hm (by simp)
  | (a, b) :: rest, k, v, hn, hm => by
    rcases List.mem_cons.mp hm with he | he
    · cases he
      simp [List.lookup]
    · have hka : k ≠ a := by
        intro hka
        subst hka
        have : k ∈ rest.map Prod.fst :=
          List.mem_map.mpr ⟨(k, v), he, rfl⟩
        exact (List.nodup_cons.mp hn).1 this
      have := lookup_of_mem_nodup rest k v (List.nodup_cons.mp hn).2 he
      simpa [List.lookup, beq_false_of_ne hka] using this

/-- A failed lookup means the key is absent. -/
theorem not_mem_keys_of_lookup_none :
    ∀ (mp : List (Nat × Nat)) (s : Nat), mp.lookup s = none →
      s ∉ mp.map Prod.fst
  | [], _, _ => by simp
  | (a, b) :: rest, s, h => by
    by_cases hsa : s = a
    · subst hsa
      simp [List.lookup] at h
    · have h' : rest.lookup s = none := by
        simpa [List.lookup, beq_false_of_ne hsa] using h
      have := not_mem_keys_of_lookup_none rest s h'
      simp only [List.map_cons, List.mem_cons]
      rintro (he | he)
      · exact hsa he
      · exact this he

/-- A lookup in a sub-map survives growing the map at the front, as long
as the grown map still has distinct keys. -/
theorem lookup_stable {m m1 : List (Nat × Nat)} {pre : List (Nat × Nat)}
    (hm1 : m1 = pre ++ m) (hnd : (m1.map Prod.fst).Nodup) {k v : Nat}
    (h : m.lookup k = some v) : m1.lookup k = some v := by
  refine lookup_of_mem_nodup m1 k v hnd ?_
  rw [hm1]
  exact List.mem_append_right pre (lookup_mem m k v h)

/-- With distinct values, a value determines its key. -/
theorem eq_of_mem_nodup_values :
    ∀ (l : List (Nat × Nat)) (a b a2 : Nat), (l.map Prod.snd).Nodup →
      (a, b) ∈ l → (a2, b) ∈ l → a = a2
  | [], _, _, _, _, hm, _ => absurd hm (by simp)
  | (x, y) :: rest, a, b, a2, hn, hm1, hm2 => by
    have hny : y ∉ rest.map Prod.snd := (List.nodup_cons.mp hn).1
    have hnr := (List.nodup_cons.mp hn).2
    rcases List.mem_cons.mp hm1 with h1 | h1 <;>
      rcases List.mem_cons.mp hm2 with h2 | h2
    · injection h1 with ha hb
      injection h2 with ha2 hb2
      rw [ha, ha2]
    · injection h1 with ha hb
      refine absurd (List.mem_map.mpr ⟨(a2, b), h2, ?_⟩) hny
      rw [hb]
    · injection h2 with ha hb
      refine absurd (List.mem_map.mpr ⟨(a, b), h1, ?_⟩) hny
      rw [hb]
    · exact eq_of_mem_nodup_values rest a b a2 hnr h1 h2

theorem out_addOut_ne (g : Graph) {c i : Nat} (nt : Nat) (h : c ≠ i) :
    (getSt (addOut g c nt) i).out = (getSt g i).out := by
  rw [getSt_addOut, if_neg]
  rintro ⟨h1, -⟩
  exact h h1

theorem out_addIn (g : Graph) (c nt i : Nat) :
    (getSt (addIn g c nt) i).out = (getSt g i).out := by
  rw [getSt_addIn]
  split <;> rfl

theorem out_modSt_of_preserve (g : Graph) (x : Nat) (f : FlowState → FlowState)
    (hf : ∀ st, (f st).out = st.out) (i : Nat) :
    (getSt (modSt g x f) i).out = (getSt g i).out := by
  rw [getSt_modSt_cases]
  split
  · exact hf _
  · rfl

theorem getTr_addOut_ne (g : Graph) {nt t : Nat} (c : Nat) (h : nt ≠ t) :
    getTr (addOut g c nt) t = getTr g t := by
  rw [getTr_addOut, if_neg]
  rintro ⟨h1, -⟩
  exact h h1

theorem getTr_addIn_ne (g : Graph) {nt t : Nat} (c : Nat) (h : nt ≠ t) :
    getTr (addIn g c nt) t = getTr g t := by
  rw [getTr_addIn, if_neg]
  rintro ⟨h1, -⟩
  exact h h1

/-- Preconditions of a recursive copy call within a copy of `base`. -/
@[reducible]
def CopyPre (base g : Graph) (mp : List (Nat × Nat)) : Prop :=
  CopyFrame base.states.length base.trans.length base g ∧
  RegionOk base.states.length base.trans.length g ∧
  (mp.map Prod.fst).Nodup ∧ (mp.map Prod.snd).Nodup ∧
  (∀ p ∈ mp, p.1 < base.states.length ∧ base.states.length ≤ p.2 ∧
    p.2 < g.states.length)

/-- Postconditions of a recursive copy call: the arena grows in a frame-
and region-respecting way; the map grows by fresh, distinct bindings; out
lists of pre-existing states and pre-existing transitions are untouched;
the copied state has a registered clone; and every binding is either fully
mirrored or pre-existing. -/
@[reducible]
def CopyPost (base g : Graph) (mp : List (Nat × Nat)) (s : Nat)
    (r : Graph × List (Nat × Nat) × Nat) : Prop :=
  CopyFrame base.states.length base.trans.length g r.1 ∧
  RegionOk base.states.length base.trans.length r.1 ∧
  (∃ pre, r.2.1 = pre ++ mp) ∧
  (r.2.1.map Prod.fst).Nodup ∧ (r.2.1.map Prod.snd).Nodup ∧
  (∀ p ∈ r.2.1, p.1 < base.states.length ∧ base.states.length ≤ p.2 ∧
    p.2 < r.1.states.length) ∧
  (∀ i, i < g.states.length → (getSt r.1 i).out = (getSt g i).out) ∧
  (∀ j, j < g.trans.length → getTr r.1 j = getTr g j) ∧
  r.2.1.lookup s = some r.2.2 ∧
  (∀ p ∈ r.2.1,
    ClonedOuts r.1 r.2.1 (getSt base p.1).out (getSt r.1 p.2).out ∨ p ∈ mp)

/-- Postconditions of the out-copying loop at clone index `c`. -/
@[reducible]
def LoopPost (base g : Graph) (mp : List (Nat × Nat)) (c : Nat)
    (outs : List Nat) (r : Graph × List (Nat × Nat)) : Prop :=
  CopyFrame base.states.length base.trans.length g r.1 ∧
  RegionOk base.states.length base.trans.length r.1 ∧
  (∃ pre, r.2 = pre ++ mp) ∧
  (r.2.map Prod.fst).Nodup ∧ (r.2.map Prod.snd).Nodup ∧
  (∀ p ∈ r.2, p.1 < base.states.length ∧ base.states.length ≤ p.2 ∧
    p.2 < r.1.states.length) ∧
  (∀ i, i < g.states.length → i ≠ c →
    (getSt r.1 i).out = (getSt g i).out) ∧
  (∀ j, j < g.trans.length → getTr r.1 j = getTr g j) ∧
  (∃ news, (getSt r.1 c).out = (getSt g c).out ++ news ∧
    ClonedOuts r.1 r.2 outs news) ∧
  (∀ p ∈ r.2,
    ClonedOuts r.1 r.2 (getSt base p.1).out (getSt r.1 p.2).out ∨ p ∈ mp)

/-- Postconditions of the co-branch copying loop. -/
@[reducible]
def LoopAndPost (base g : Graph) (mp : List (Nat × Nat))
    (r : Graph × List (Nat × Nat)) : Prop :=
  CopyFrame base.states.length base.trans.length g r.1 ∧
  RegionOk base.states.length base.trans.length r.1 ∧
  (∃ pre, r.2 = pre ++ mp) ∧
  (r.2.map Prod.fst).Nodup ∧ (r.2.map Prod.snd).Nodup ∧
  (∀ p ∈ r.2, p.1 < base.states.length ∧ base.states.length ≤ p.2 ∧
    p.2 < r.1.states.length) ∧
  (∀ i, i < g.states.length → (getSt r.1 i).out = (getSt g i).out) ∧
  (∀ j, j < g.trans.length → getTr r.1 j = getTr g j) ∧
  (∀ p ∈ r.2,
    ClonedOuts r.1 r.2 (getSt base p.1).out (getSt r.1 p.2).out ∨ p ∈ mp)

/-- Lemma B for the out-copying loop: each original outbound transition
yields exactly one copied transition, appended in order at the clone, with
destinations resolved through the identity map. -/
theorem doCopyOutsB (g₀ : Graph) (rks : List Nat) (hwf : wfB g₀ rks = true)
    (fuel : Nat)
    (rec : Graph → List (Nat × Nat) → Nat → Graph × List (Nat × Nat) × Nat)
    (hrecB : ∀ (g : Graph) (m : List (Nat × Nat)) (t : Nat),
      CopyPre g₀ g m → t < g₀.states.length →
      g₀.states.length < fuel + m.length → CopyPost g₀ g m t (rec g m t)) :
    ∀ (outs : List Nat) (g : Graph) (m : List (Nat × Nat)) (c : Nat),
      CopyPre g₀ g m →
      (∀ t ∈ outs, t < g₀.trans.length ∧
        (getTr g₀ t).dst < g₀.states.length) →
      g₀.states.length ≤ c → c < g.states.length →
      (∃ k, (k, c) ∈ m) →
      g₀.states.length < fuel + m.length →
      LoopPost g₀ g m c outs (doCopyOuts rec g m c outs)
  | [], g, m, c, hpre, _, _, _, _, _ =>
    ⟨copyFrame_rfl _ _ _, hpre.2.1, ⟨[], rfl⟩, hpre.2.2.1, hpre.2.2.2.1,
     hpre.2.2.2.2, fun _ _ _ => rfl, fun _ _ => rfl,
     ⟨[], (List.append_nil _).symm, trivial⟩, fun _ hp => Or.inr hp⟩
  | tr :: rest, g, m, c, hpre, houts, hc, hclen, hcin, hfu => by
    obtain ⟨hfr0, hreg0, hkn0, hvn0, hbd0⟩ := hpre
    have htrT := (houts tr (List.mem_cons_self tr rest)).1
    have hdstL := (houts tr (List.mem_cons_self tr rest)).2
    have hLg : g₀.states.length ≤ g.states.length := hfr0.1
    have hTg : g₀.trans.length ≤ g.trans.length := hfr0.2.1
    have htrg : getTr g tr = getTr g₀ tr := hfr0.2.2.2 tr htrT
    rw [doCopyOuts]
    obtain ⟨hfr1, hreg1, ⟨pre1, hpre1⟩, hkn1, hvn1, hbd1, host1, htst1,
        hlk1, hmir1⟩ :=
      hrecB g m ((getTr g tr).dst) ⟨hfr0, hreg0, hkn0, hvn0, hbd0⟩
        (by rw [htrg]; exact hdstL) hfu
    set r := rec g m ((getTr g tr).dst) with hrEq
    set nt := (newTransition r.1 (getTr r.1 tr).test c r.2.2).2 with hntEq
    set g1 := (newTransition r.1 (getTr r.1 tr).test c r.2.2).1 with hg1Eq
    set g2 := addOut g1 c nt with hg2Eq
    set g3 := addIn g2 r.2.2 nt with hg3Eq
    have hntval : nt = r.1.trans.length := rfl
    have hmem_d : ((getTr g tr).dst, r.2.2) ∈ r.2.1 := lookup_mem _ _ _ hlk1
    have hbd_d := hbd1 _ hmem_d
    have hc2L : g₀.states.length ≤ r.2.2 := hbd_d.2.1
    have hc2len : r.2.2 < r.1.states.length := hbd_d.2.2
    have hglen : g.states.length ≤ r.1.states.length := hfr1.1
    have hgtlen : g.trans.length ≤ r.1.trans.length := hfr1.2.1
    have hg1slen : g1.states.length = r.1.states.length := rfl
    have hg1tlen : g1.trans.length = r.1.trans.length + 1 :=
      length_trans_newTransition r.1 _ c r.2.2
    have hg2slen : g2.states.length = g1.states.length :=
      length_addOut_states g1 c nt
    have hg2tlen : g2.trans.length = g1.trans.length :=
      length_addOut_trans g1 c nt
    have hg3slen : g3.states.length = g2.states.length :=
      length_addIn_states g2 r.2.2 nt
    have hg3tlen : g3.trans.length = g2.trans.length :=
      length_addIn_trans g2 r.2.2 nt
    have hTr1 : g₀.trans.length ≤ r.1.trans.length := by omega
    have hTnt : g₀.trans.length ≤ nt := by omega
    have hntlt : nt < g1.trans.length := by omega
    have hclen1 : c < g1.states.length := by omega
    have hnew : getTr g1 nt = ⟨(getTr r.1 tr).test, c, r.2.2⟩ :=
      getTr_newTransition_new r.1 _ c r.2.2
    have hnew2 : getTr g2 nt = ⟨(getTr r.1 tr).test, c, r.2.2⟩ := by
      rw [hg2Eq, getTr_addOut, if_pos ⟨rfl, hntlt⟩, hnew]
    have hnew3 : getTr g3 nt = ⟨(getTr r.1 tr).test, c, r.2.2⟩ := by
      rw [hg3Eq, getTr_addIn, if_pos ⟨rfl, by omega⟩, hnew2]
    have htst3 : ∀ j, j < r.1.trans.length → getTr g3 j = getTr r.1 j := by
      intro j hj
      have hjnt : nt ≠ j := by omega
      rw [hg3Eq, getTr_addIn_ne g2 r.2.2 hjnt, hg2Eq,
        getTr_addOut_ne g1 c hjnt, hg1Eq,
        getTr_newTransition_old _ _ _ _ _ hj]
    have host3 : ∀ i, i ≠ c → (getSt g3 i).out = (getSt r.1 i).out := by
      intro i hic
      rw [hg3Eq, out_addIn, hg2Eq, out_addOut_ne g1 nt (Ne.symm hic), hg1Eq,
        getSt_newTransition]
    have hostc : (getSt g3 c).out = (getSt r.1 c).out ++ [nt] := by
      rw [hg3Eq, out_addIn, hg2Eq, getSt_addOut, if_pos ⟨rfl, hclen1⟩]
      rfl
    have hfrB : CopyFrame g₀.states.length g₀.trans.length r.1 g3 :=
      copyFrame_trans (copyFrame_newTransition hTr1 _ _ _)
        (copyFrame_trans (copyFrame_addOut hc hTnt)
          (copyFrame_addIn hc2L hTnt))
    have hregB : RegionOk g₀.states.length g₀.trans.length g3 := by
      have hreg2 : RegionOk g₀.states.length g₀.trans.length g1 :=
        regionOk_newTransition hreg1 _ _ _
      have hreg3 : RegionOk g₀.states.length g₀.trans.length g2 := by
        refine regionOk_addOut hreg2 hc hTnt hntlt ?_
        rw [hnew]
        exact hc2L
      refine regionOk_addIn hreg3 hc2L hTnt (by omega) ?_
      rw [hnew2]
      exact hc
    have hpre3 : CopyPre g₀ g3 r.2.1 := by
      refine ⟨copyFrame_trans hfr0 (copyFrame_trans hfr1 hfrB), hregB,
        hkn1, hvn1, ?_⟩
      intro p hp
      obtain ⟨h1, h2, h3⟩ := hbd1 p hp
      exact ⟨h1, h2, by omega⟩
    obtain ⟨k0, hk0⟩ := hcin
    have hk0' : (k0, c) ∈ r.2.1 := by
      rw [hpre1]
      exact List.mem_append_right _ hk0
    have hlenm : r.2.1.length = pre1.length + m.length := by
      rw [hpre1]
      exact List.length_append _ _
    obtain ⟨hfr5, hreg5, ⟨pre5, hpre5⟩, hkn5, hvn5, hbd5, host5, htst5,
        ⟨news5, hnews5, hcl5⟩, hmir5⟩ :=
      doCopyOutsB g₀ rks hwf fuel rec hrecB rest g3 r.2.1 c hpre3
        (fun t ht => houts t (List.mem_cons_of_mem tr ht)) hc (by omega)
        ⟨k0, hk0'⟩ (by omega)
    refine ⟨copyFrame_trans hfr1 (copyFrame_trans hfrB hfr5), hreg5,
      ⟨pre5 ++ pre1, by rw [hpre5, hpre1, List.append_assoc]⟩,
      hkn5, hvn5, hbd5, ?_, ?_, ?_, ?_⟩
    · intro i hi hic
      rw [host5 i (by omega) hic, host3 i hic, host1 i hi]
    · intro j hj
      rw [htst5 j (by omega), htst3 j (by omega), htst1 j hj]
    · refine ⟨nt :: news5, ?_, ?_, ?_, hcl5⟩
      · rw [hnews5, hostc, host1 c hclen, List.append_assoc]
        rfl
      · rw [htst5 nt (by omega), htst5 tr (by omega), hnew3,
          htst3 tr (by omega)]
      · rw [htst5 tr (by omega), htst3 tr (by omega), htst1 tr (by omega),
          htst5 nt (by omega), hnew3]
        exact lookup_stable hpre5 hkn5 hlk1
    · intro p hp
      obtain ⟨pa, pb⟩ := p
      rcases hmir5 (pa, pb) hp with hcl | hin1
      · exact Or.inl hcl
      · rcases hmir1 (pa, pb) hin1 with hcl | hin0
        · by_cases hpc : pb = c
          · right
            have hkey : pa = k0 :=
              eq_of_mem_nodup_values r.2.1 pa c k0 hvn1
                (by rw [← hpc]; exact hin1) hk0'
            rw [hkey, hpc]
            exact hk0
          · left
            have hbdp := hbd1 (pa, pb) hin1
            have hout_pb : (getSt (doCopyOuts rec g3 r.2.1 c rest).1 pb).out =
                (getSt r.1 pb).out := by
              rw [host5 pb (by omega) hpc, host3 pb hpc]
            rw [hout_pb]
            refine clonedOuts_mono ?_ ?_ _ _ ?_ ?_ hcl
            · intro j hj
              rw [htst5 j (by omega), htst3 j hj]
            · intro k v hkv
              exact lookup_stable hpre5 hkn5 hkv
            · intro t ht
              have := (wf_out hwf hbdp.1 ht).1
              omega
            · intro t ht
              exact ((hreg1 pb hbdp.2.1).1 t ht).2.1
        · exact Or.inr hin0

/-- Lemma B for the co-branch copying loop: it copies the co-branch
states, touching no pre-existing out list or transition. -/
theorem doCopyAndedB (g₀ : Graph) (rks : List Nat) (hwf : wfB g₀ rks = true)
    (fuel : Nat)
    (rec : Graph → List (Nat × Nat) → Nat → Graph × List (Nat × Nat) × Nat)
    (hrecB : ∀ (g : Graph) (m : List (Nat × Nat)) (t : Nat),
      CopyPre g₀ g m → t < g₀.states.length →
      g₀.states.length < fuel + m.length → CopyPost g₀ g m t (rec g m t)) :
    ∀ (anded : List Nat) (g : Graph) (m : List (Nat × Nat)) (c : Nat),
      CopyPre g₀ g m →
      (∀ a ∈ anded, a < g₀.states.length) →
      g₀.states.length ≤ c →
      g₀.states.length < fuel + m.length →
      LoopAndPost g₀ g m (doCopyAnded rec g m c anded)
  | [], g, m, c, hpre, _, _, _ =>
    ⟨copyFrame_rfl _ _ _, hpre.2.1, ⟨[], rfl⟩, hpre.2.2.1, hpre.2.2.2.1,
     hpre.2.2.2.2, fun _ _ => rfl, fun _ _ => rfl, fun _ hp => Or.inr hp⟩
  | a :: rest, g, m, c, hpre, handed, hc, hfu => by
    obtain ⟨hfr0, hreg0, hkn0, hvn0, hbd0⟩ := hpre
    have hLg : g₀.states.length ≤ g.states.length := hfr0.1
    have hTg : g₀.trans.length ≤ g.trans.length := hfr0.2.1
    rw [doCopyAnded]
    obtain ⟨hfr1, hreg1, ⟨pre1, hpre1⟩, hkn1, hvn1, hbd1, host1, htst1,
        hlk1, hmir1⟩ :=
      hrecB g m a ⟨hfr0, hreg0, hkn0, hvn0, hbd0⟩
        (handed a (List.mem_cons_self a rest)) hfu
    set r := rec g m a with hrEq
    set g2 := modSt r.1 c (fun st =>
      { st with andedStates := st.andedStates ++ [r.2.2] }) with hg2Eq
    have hglen : g.states.length ≤ r.1.states.length := hfr1.1
    have hgtlen : g.trans.length ≤ r.1.trans.length := hfr1.2.1
    have hg2slen : g2.states.length = r.1.states.length := length_modSt _ _ _
    have hg2tlen : g2.trans.length = r.1.trans.length :=
      length_modSt_trans _ _ _
    have host2 : ∀ i, (getSt g2 i).out = (getSt r.1 i).out := fun i =>
      out_modSt_of_preserve r.1 c
        (fun st => { st with andedStates := st.andedStates ++ [r.2.2] })
        (fun _ => rfl) i
    have htst2 : ∀ j, getTr g2 j = getTr r.1 j := fun j => rfl
    have hfrM : CopyFrame g₀.states.length g₀.trans.length r.1 g2 :=
      copyFrame_modSt hc _
    have hregM : RegionOk g₀.states.length g₀.trans.length g2 :=
      regionOk_modSt hreg1 c _ (fun _ => rfl) (fun _ => rfl)
    have hpre2 : CopyPre g₀ g2 r.2.1 := by
      refine ⟨copyFrame_trans hfr0 (copyFrame_trans hfr1 hfrM), hregM,
        hkn1, hvn1, ?_⟩
      intro p hp
      obtain ⟨h1, h2, h3⟩ := hbd1 p hp
      exact ⟨h1, h2, by omega⟩
    have hlenm : r.2.1.length = pre1.length + m.length := by
      rw [hpre1]
      exact List.length_append _ _
    obtain ⟨hfr5, hreg5, ⟨pre5, hpre5⟩, hkn5, hvn5, hbd5, host5, htst5,
        hmir5⟩ :=
      doCopyAndedB g₀ rks hwf fuel rec hrecB rest g2 r.2.1 c hpre2
        (fun x hx => handed x (List.mem_cons_of_mem a hx)) hc (by omega)
    refine ⟨copyFrame_trans hfr1 (copyFrame_trans hfrM hfr5), hreg5,
      ⟨pre5 ++ pre1, by rw [hpre5, hpre1, List.append_assoc]⟩,
      hkn5, hvn5, hbd5, ?_, ?_, ?_⟩
    · intro i hi
      rw [host5 i (by omega), host2 i, host1 i hi]
    · intro j hj
      rw [htst5 j (by omega), htst2 j, htst1 j hj]
    · intro p hp
      obtain ⟨pa, pb⟩ := p
      rcases hmir5 (pa, pb) hp with hcl | hin1
      · exact Or.inl hcl
      · rcases hmir1 (pa, pb) hin1 with hcl | hin0
        · left
          have hbdp := hbd1 (pa, pb) hin1
          have hout_pb :
              (getSt (doCopyAnded rec g2 r.2.1 c rest).1 pb).out =
                (getSt r.1 pb).out := by
            rw [host5 pb (by omega), host2 pb]
          rw [hout_pb]
          have htrM : ∀ j, j < r.1.trans.length →
              getTr (doCopyAnded rec g2 r.2.1 c rest).1 j = getTr r.1 j := by
            intro j hj
            rw [htst5 j (by omega), htst2 j]
          refine clonedOuts_mono htrM
            (fun k v hkv => lookup_stable hpre5 hkn5 hkv) _ _ ?_ ?_ hcl
          · intro t ht
            have := (wf_out hwf hbdp.1 ht).1
            omega
          · intro t ht
            exact ((hreg1 pb hbdp.2.1).1 t ht).2.1
        · exact Or.inr hin0

/-- Lemma B: a `doCopy` call with adequate fuel satisfies the full copy
specification. Fuel is adequate as soon as
`|states| < fuel + |map|`: each fresh clone grows the map by one binding,
and a map with distinct keys below `|states|` cannot outgrow `|states|`,
so the fuel-exhausted branch is unreachable. -/
theorem doCopyB (g₀ : Graph) (rks : List Nat) (hwf : wfB g₀ rks = true) :
    ∀ (fuel : Nat) (g : Graph) (mp : List (Nat × Nat)) (s : Nat),
      CopyPre g₀ g mp → s < g₀.states.length →
      g₀.states.length < fuel + mp.length →
      CopyPost g₀ g mp s (doCopy g mp s fuel)
  | 0, g, mp, s, hpre, hs, hfu => by
    exfalso
    have hkeys : ∀ x ∈ mp.map Prod.fst, x < g₀.states.length := by
      intro x hx
      obtain ⟨p, hp, he⟩ := List.mem_map.mp hx
      rw [← he]
      exact (hpre.2.2.2.2 p hp).1
    have hlen := length_le_of_nodup_lt (mp.map Prod.fst) g₀.states.length
      hpre.2.2.1 hkeys
    rw [List.length_map] at hlen
    omega
  | fuel + 1, g, mp, s, hpre, hs, hfu => by
    obtain ⟨hfr0, hreg0, hkn0, hvn0, hbd0⟩ := hpre
    have hLg : g₀.states.length ≤ g.states.length := hfr0.1
    have hTg : g₀.trans.length ≤ g.trans.length := hfr0.2.1
    have hrecB : ∀ (g2 : Graph) (m : List (Nat × Nat)) (t : Nat),
        CopyPre g₀ g2 m → t < g₀.states.length →
        g₀.states.length < fuel + m.length →
        CopyPost g₀ g2 m t (doCopy g2 m t fuel) :=
      fun g2 m t h1 h2 h3 => doCopyB g₀ rks hwf fuel g2 m t h1 h2 h3
    cases hlk : mp.lookup s with
    | some c =>
      rw [doCopy_found_eq g mp s c fuel hlk]
      exact ⟨copyFrame_rfl _ _ _, hreg0, ⟨[], rfl⟩, hkn0, hvn0,
        fun p hp => hbd0 p hp, fun _ _ => rfl, fun _ _ => rfl, hlk,
        fun _ hp => Or.inr hp⟩
    | none =>
      rw [doCopy_fresh_eq g mp s fuel hlk]
      set c := (newState g).2 with hcEq
      set gc := (newState g).1 with hgcEq
      set m1 := (s, c) :: mp with hm1Eq
      set r1 := doCopyOuts (fun g2 m t => doCopy g2 m t fuel) gc m1 c
        ((getSt gc s).out) with hr1Eq
      set r2 := doCopyAnded (fun g2 m t => doCopy g2 m t fuel) r1.1 r1.2 c
        ((getSt r1.1 s).andedStates) with hr2Eq
      set g4 := modSt r2.1 c
        (fun st => { st with action := (getSt r2.1 s).action }) with hg4Eq
      have hcval : c = g.states.length := rfl
      have hgclen : gc.states.length = g.states.length + 1 :=
        length_newState g
      have hgctlen : gc.trans.length = g.trans.length := rfl
      have hfrN : CopyFrame g₀.states.length g₀.trans.length g gc :=
        copyFrame_newState hLg
      have hregN : RegionOk g₀.states.length g₀.trans.length gc :=
        regionOk_newState hreg0
      have hknN : (m1.map Prod.fst).Nodup := by
        rw [hm1Eq, List.map_cons]
        exact List.nodup_cons.mpr ⟨not_mem_keys_of_lookup_none mp s hlk, hkn0⟩
      have hvnN : (m1.map Prod.snd).Nodup := by
        rw [hm1Eq, List.map_cons]
        refine List.nodup_cons.mpr ⟨?_, hvn0⟩
        intro hmem
        obtain ⟨p, hp, he⟩ := List.mem_map.mp hmem
        have := (hbd0 p hp).2.2
        omega
      have hbdN : ∀ p ∈ m1, p.1 < g₀.states.length ∧
          g₀.states.length ≤ p.2 ∧ p.2 < gc.states.length := by
        intro p hp
        rw [hm1Eq] at hp
        rcases List.mem_cons.mp hp with he | hpm
        · rw [he]
          exact ⟨hs, by omega, by omega⟩
        · obtain ⟨h1, h2, h3⟩ := hbd0 p hpm
          exact ⟨h1, h2, by omega⟩
      have hpreN : CopyPre g₀ gc m1 :=
        ⟨copyFrame_trans hfr0 hfrN, hregN, hknN, hvnN, hbdN⟩
      have hgs : getSt gc s = getSt g₀ s := by
        rw [hgcEq, getSt_newState_old g s (by omega)]
        exact hfr0.2.2.1 s hs
      have houts : ∀ t ∈ (getSt gc s).out,
          t < g₀.trans.length ∧ (getTr g₀ t).dst < g₀.states.length := by
        intro t ht
        rw [hgs] at ht
        exact ⟨(wf_out hwf hs ht).1, (wf_out hwf hs ht).2.1⟩
      obtain ⟨hfrO, hregO, ⟨preO, hpreO⟩, hknO, hvnO, hbdO, hostO, htstO,
          ⟨news, hnews, hclnews⟩, hmirO⟩ :=
        doCopyOutsB g₀ rks hwf fuel _ hrecB ((getSt gc s).out) gc m1 c
          hpreN houts (by omega) (by omega)
          ⟨s, by rw [hm1Eq]; exact List.mem_cons_self _ _⟩
          (by rw [hm1Eq]; simp only [List.length_cons]; omega)
      have hfrAll1 : CopyFrame g₀.states.length g₀.trans.length g₀ r1.1 :=
        copyFrame_trans (copyFrame_trans hfr0 hfrN) hfrO
      have hr1slen : gc.states.length ≤ r1.1.states.length := hfrO.1
      have hr1tlen : gc.trans.length ≤ r1.1.trans.length := hfrO.2.1
      have handed : ∀ a ∈ (getSt r1.1 s).andedStates,
          a < g₀.states.length := by
        intro a ha
        rw [hfrAll1.2.2.1 s hs] at ha
        exact wf_anded hwf hs ha
      have hpreR1 : CopyPre g₀ r1.1 r1.2 :=
        ⟨hfrAll1, hregO, hknO, hvnO, hbdO⟩
      have hlenO : r1.2.length = preO.length + m1.length := by
        rw [hpreO]
        exact List.length_append _ _
      have hm1len : m1.length = mp.length + 1 := rfl
      obtain ⟨hfrA, hregA, ⟨preA, hpreA⟩, hknA, hvnA, hbdA, hostA, htstA,
          hmirA⟩ :=
        doCopyAndedB g₀ rks hwf fuel _ hrecB ((getSt r1.1 s).andedStates)
          r1.1 r1.2 c hpreR1 handed (by omega) (by omega)
      have hr2slen : r1.1.states.length ≤ r2.1.states.length := hfrA.1
      have hr2tlen : r1.1.trans.length ≤ r2.1.trans.length := hfrA.2.1
      have host4 : ∀ i, (getSt g4 i).out = (getSt r2.1 i).out := fun i =>
        out_modSt_of_preserve r2.1 c
          (fun st => { st with action := (getSt r2.1 s).action })
          (fun _ => rfl) i
      have htst4 : ∀ j, getTr g4 j = getTr r2.1 j := fun _ => rfl
      have hfr4 : CopyFrame g₀.states.length g₀.trans.length r2.1 g4 :=
        copyFrame_modSt (by omega) _
      have hreg4 : RegionOk g₀.states.length g₀.trans.length g4 :=
        regionOk_modSt hregA c _ (fun _ => rfl) (fun _ => rfl)
      have hg4slen : g4.states.length = r2.1.states.length :=
        length_modSt _ _ _
      have hg4tlen : g4.trans.length = r2.1.trans.length :=
        length_modSt_trans _ _ _
      have hscmem : (s, c) ∈ r2.2 := by
        rw [hpreA, hpreO, hm1Eq]
        exact List.mem_append_right _
          (List.mem_append_right _ (List.mem_cons_self _ _))
      have hgcc : getSt gc c = default := getSt_newState_new g
      show
        CopyFrame g₀.states.length g₀.trans.length g g4 ∧
        RegionOk g₀.states.length g₀.trans.length g4 ∧
        (∃ pre, r2.2 = pre ++ mp) ∧
        (r2.2.map Prod.fst).Nodup ∧ (r2.2.map Prod.snd).Nodup ∧
        (∀ p ∈ r2.2, p.1 < g₀.states.length ∧ g₀.states.length ≤ p.2 ∧
          p.2 < g4.states.length) ∧
        (∀ i, i < g.states.length → (getSt g4 i).out = (getSt g i).out) ∧
        (∀ j, j < g.trans.length → getTr g4 j = getTr g j) ∧
        r2.2.lookup s = some c ∧
        (∀ p ∈ r2.2,
          ClonedOuts g4 r2.2 (getSt g₀ p.1).out (getSt g4 p.2).out ∨ p ∈ mp)
      refine ⟨?_, hreg4, ⟨preA ++ preO ++ [(s, c)], ?_⟩, hknA, hvnA, ?_,
        ?_, ?_, ?_, ?_⟩
      · exact copyFrame_trans hfrN (copyFrame_trans hfrO
          (copyFrame_trans hfrA hfr4))
      · rw [hpreA, hpreO, hm1Eq]
        simp [List.append_assoc]
      · intro p hp
        obtain ⟨h1, h2, h3⟩ := hbdA p hp
        refine ⟨h1, h2, ?_⟩
        rw [hg4slen]
        exact h3
      · intro i hi
        rw [host4 i, hostA i (by omega), hostO i (by omega) (by omega),
          hgcEq, getSt_newState_old g i hi]
      · intro j hj
        rw [htst4 j, htstA j (by omega), htstO j (by omega), hgcEq,
          getTr_newState]
      · exact lookup_of_mem_nodup r2.2 s c hknA hscmem
      · have htrM2 : ∀ j, j < r2.1.trans.length →
            getTr g4 j = getTr r2.1 j := fun j _ => htst4 j
        have htrM1 : ∀ j, j < r1.1.trans.length →
            getTr g4 j = getTr r1.1 j := by
          intro j hj
          rw [htst4 j, htstA j (by omega)]
        intro p hp
        obtain ⟨pa, pb⟩ := p
        rcases hmirA (pa, pb) hp with hcl | hinR1
        · left
          have hbdp := hbdA (pa, pb) hp
          have hout_pb : (getSt g4 pb).out = (getSt r2.1 pb).out :=
            host4 pb
          rw [hout_pb]
          refine clonedOuts_mono htrM2 (fun k v hkv => hkv) _ _ ?_ ?_ hcl
          · intro t ht
            have := (wf_out hwf hbdp.1 ht).1
            omega
          · intro t ht
            exact ((hregA pb hbdp.2.1).1 t ht).2.1
        · rcases hmirO (pa, pb) hinR1 with hclO | hinM1
          · left
            have hbdp := hbdO (pa, pb) hinR1
            have hpbr1 : pb < r1.1.states.length := hbdp.2.2
            have hout_pb : (getSt g4 pb).out = (getSt r1.1 pb).out := by
              rw [host4 pb, hostA pb hpbr1]
            rw [hout_pb]
            refine clonedOuts_mono htrM1
              (fun k v hkv => lookup_stable hpreA hknA hkv) _ _ ?_ ?_ hclO
            · intro t ht
              have := (wf_out hwf hbdp.1 ht).1
              omega
            · intro t ht
              exact ((hregO pb hbdp.2.1).1 t ht).2.1
          · rw [hm1Eq] at hinM1
            rcases List.mem_cons.mp hinM1 with he | hmp2
            · injection he with he1 he2
              subst he1
              subst he2
              left
              have hout_c : (getSt g4 c).out = news := by
                rw [host4 c, hostA c (by omega), hnews, hgcc]
                exact List.nil_append news
              rw [hout_c]
              have hlonews : ∀ t ∈ news, t ∈ (getSt r1.1 c).out := by
                intro t ht
                rw [hnews]
                exact List.mem_append_right _ ht
              have hclnews2 : ClonedOuts r1.1 r1.2 (getSt g₀ pa).out
                  news := by
                rw [← hgs]
                exact hclnews
              refine clonedOuts_mono htrM1
                (fun k v hkv => lookup_stable hpreA hknA hkv) _ _ ?_ ?_
                hclnews2
              · intro t ht
                have := (wf_out hwf hs ht).1
                omega
              · intro t ht
                exact ((hregO c (by omega)).1 t (hlonews t ht)).2.1
            · exact Or.inr hmp2

/-- C9: the copy engine used by THEN performs an identity-keyed deep clone
of the graph reachable from `s`'s root: the clone map binds every original
state at most once to a distinct fresh clone (so a state reachable via
several paths — a diamond — is cloned exactly once), every state reachable
from the root is bound, each clone carries exactly one copied outbound
transition, in order, per outbound transition of its original (with
destinations resolved through the same map, so the cloned graph is
isomorphic to the original on outbound structure, with no duplicated
edges), and the original states and transitions are left unchanged. -/
theorem doCopy_exact_clone (g : Graph) (rks : List Nat) (s : Nat)
    (hwf : wfB g rks = true) (hs : s < g.states.length) :
    (((doCopy g [] (rootOf g s) (g.states.length + 1)).2.1.map
      Prod.fst).Nodup) ∧
    (((doCopy g [] (rootOf g s) (g.states.length + 1)).2.1.map
      Prod.snd).Nodup) ∧
    (∀ p ∈ (doCopy g [] (rootOf g s) (g.states.length + 1)).2.1,
      p.1 < g.states.length ∧ g.states.length ≤ p.2) ∧
    (∀ x, Reaches g (rootOf g s) x →
      ∃ cx, ((doCopy g [] (rootOf g s) (g.states.length + 1)).2.1).lookup x
        = some cx) ∧
    (∀ a b, ((doCopy g [] (rootOf g s) (g.states.length + 1)).2.1).lookup a
        = some b →
      ClonedOuts (doCopy g [] (rootOf g s) (g.states.length + 1)).1
        (doCopy g [] (rootOf g s) (g.states.length + 1)).2.1
        (getSt g a).out
        (getSt (doCopy g [] (rootOf g s) (g.states.length + 1)).1 b).out) ∧
    (∀ i, i < g.states.length →
      getSt (doCopy g [] (rootOf g s) (g.states.length + 1)).1 i
        = getSt g i) ∧
    (∀ j, j < g.trans.length →
      getTr (doCopy g [] (rootOf g s) (g.states.length + 1)).1 j
        = getTr g j) := by
  have hroot : rootOf g s < g.states.length := (rootOf_spec hwf hs).2
  have hpre0 : CopyPre g g [] :=
    ⟨copyFrame_rfl _ _ _, regionOk_trivial g g.trans.length,
     by simp, by simp, fun p hp => absurd hp (by simp)⟩
  obtain ⟨hfr, hreg, ⟨pre, hpreE⟩, hkn, hvn, hbd, host, htst, hlkR, hmir⟩ :=
    doCopyB g rks hwf (g.states.length + 1) g [] (rootOf g s) hpre0 hroot
      (by simp)
  refine ⟨hkn, hvn, fun p hp => ⟨(hbd p hp).1, (hbd p hp).2.1⟩, ?_, ?_,
    fun i hi => hfr.2.2.1 i hi, fun j hj => hfr.2.2.2 j hj⟩
  · have hcover : ∀ (n x y : Nat), ReachN g n x y →
        (∃ cx, ((doCopy g [] (rootOf g s)
          (g.states.length + 1)).2.1).lookup x = some cx) →
        ∃ cy, ((doCopy g [] (rootOf g s)
          (g.states.length + 1)).2.1).lookup y = some cy := by
      intro n x y hr
      induction hr with
      | refl => exact id
      | step tr htr hnext ih =>
        rintro ⟨cx, hcx⟩
        have hmem := lookup_mem _ _ _ hcx
        have hxlt := (hbd _ hmem).1
        rcases hmir _ hmem with hcl | habs
        · have htrlt : tr < g.trans.length := (wf_out hwf hxlt htr).1
          obtain ⟨d, hd⟩ := clonedOuts_lookup hcl tr htr
          rw [htst tr htrlt] at hd
          exact ih ⟨d, hd⟩
        · exact absurd habs (by simp)
    intro x hx
    obtain ⟨n, hn⟩ := hx
    exact hcover n (rootOf g s) x hn ⟨_, hlkR⟩
  · intro a b hab
    have hmem := lookup_mem _ _ _ hab
    rcases hmir _ hmem with hcl | habs
    · exact hcl
    · exact absurd habs (by simp)

/-! ## The OR automaton: shape of the merged construction

`addOrStates` builds, under a fresh state, the merge of the two operand
positions: one edge per left outbound transition (tests shared with the
right operand continue with the *pair* of continuations rather than
forking), plus one edge per right outbound transition whose test the left
does not share; continuations that are terminal are routed straight to the
shared synthetic end state. -/

/-- `find?` only looks at the predicate's values on the list. -/
theorem find?_congr {α : Type} (p q : α → Bool) :
    ∀ (l : List α), (∀ a ∈ l, p a = q a) → l.find? p = l.find? q
  | [], _ => rfl
  | a :: l, h => by
    rw [List.find?_cons, List.find?_cons, h a (List.mem_cons_self a l)]
    cases hqa : q a
    · exact find?_congr p q l (fun x hx => h x (List.mem_cons_of_mem a hx))
    · rfl

/-- A `Forall₂` can be transported along an implication that may use
membership of the related elements. -/
theorem forall₂_imp_mem {α β : Type} {R S : α → β → Prop} :
    ∀ {l1 : List α} {l2 : List β}, List.Forall₂ R l1 l2 →
      (∀ a b, a ∈ l1 → b ∈ l2 → R a b → S a b) → List.Forall₂ S l1 l2
  | [], [], _, _ => List.Forall₂.nil
  | a :: l1, b :: l2, h, himp => by
    rcases h with - | ⟨hab, htail⟩
    exact List.Forall₂.cons
      (himp a b (List.mem_cons_self a l1) (List.mem_cons_self b l2) hab)
      (forall₂_imp_mem htail (fun x y hx hy => himp x y
        (List.mem_cons_of_mem a hx) (List.mem_cons_of_mem b hy)))

/-- The fate of the edge copied from one left outbound transition `tro`:
same test; if the right operand shares the test, the merged pair of
continuations is followed (or the edge routes to `end` when either
continuation is terminal); otherwise the left continuation alone (or `end`
when terminal).  `K` is the property of the recursively built
continuation state. -/
def LeftEdgeOk (G : Graph) (endS r : Nat) (K : Nat → Nat → Nat → Prop)
    (e tro : Nat) : Prop :=
  (getTr G e).test = (getTr G tro).test ∧
  (transitionWithTest G r ((getTr G tro).test) = none →
    ((getSt G ((getTr G tro).dst)).out = [] → (getTr G e).dst = endS) ∧
    ((getSt G ((getTr G tro).dst)).out ≠ [] →
      K ((getTr G e).dst) ((getTr G tro).dst) r)) ∧
  (∀ rtr, transitionWithTest G r ((getTr G tro).test) = some rtr →
    ((getSt G ((getTr G rtr).dst)).out = [] → (getTr G e).dst = endS) ∧
    ((getSt G ((getTr G rtr).dst)).out ≠ [] →
      ((getSt G ((getTr G tro).dst)).out = [] → (getTr G e).dst = endS) ∧
      ((getSt G ((getTr G tro).dst)).out ≠ [] →
        K ((getTr G e).dst) ((getTr G tro).dst) ((getTr G rtr).dst))))

/-- The fate of the edge copied from one right outbound transition whose
test the left does not share. -/
def RightEdgeOk (G : Graph) (endS l : Nat) (K : Nat → Nat → Nat → Prop)
    (e tro : Nat) : Prop :=
  (getTr G e).test = (getTr G tro).test ∧
  ((getSt G ((getTr G tro).dst)).out = [] → (getTr G e).dst = endS) ∧
  ((getSt G ((getTr G tro).dst)).out ≠ [] →
    K ((getTr G e).dst) l ((getTr G tro).dst))

/-- The OR-automaton shape, to recursion depth `d`: state `st` (inside the
fresh interval `[sa, sb)`) implements the OR of the operand positions `l`
and `r` (both inside the protected original region `[0, L)` and both
non-terminal): its outbound list is exactly one edge per left transition
followed by one edge per non-shared right transition. -/
def OrBuiltN (G : Graph) (endS L sa sb : Nat) :
    Nat → Nat → Nat → Nat → Prop
  | 0, _, _, _ => False
  | d + 1, st, l, r =>
    sa ≤ st ∧ st < sb ∧ l < L ∧ r < L ∧
    (getSt G l).out ≠ [] ∧ (getSt G r).out ≠ [] ∧
    (∀ e ∈ (getSt G st).out, e < G.trans.length) ∧
    ∃ lp rp, (getSt G st).out = lp ++ rp ∧
      List.Forall₂ (LeftEdgeOk G endS r (OrBuiltN G endS L sa sb d)) lp
        ((getSt G l).out) ∧
      List.Forall₂ (RightEdgeOk G endS l (OrBuiltN G endS L sa sb d)) rp
        (((getSt G r).out).filter
          (fun tro => !(hasTest G l ((getTr G tro).test))))

/-- `transitionWithTest` only depends on the state's record and the
records of its outbound transitions. -/
theorem twt_congr {G1 G2 : Graph} {x : Nat}
    (hst : getSt G2 x = getSt G1 x)
    (htr : ∀ tr ∈ (getSt G1 x).out, getTr G2 tr = getTr G1 tr) (p : TestId) :
    transitionWithTest G2 x p = transitionWithTest G1 x p := by
  show ((getSt G2 x).out).find? _ = ((getSt G1 x).out).find? _
  rw [hst]
  exact find?_congr _ _ _ (fun tr htrm => by rw [htr tr htrm])

theorem hasTest_congr {G1 G2 : Graph} {x : Nat}
    (hst : getSt G2 x = getSt G1 x)
    (htr : ∀ tr ∈ (getSt G1 x).out, getTr G2 tr = getTr G1 tr) (p : TestId) :
    hasTest G2 x p = hasTest G1 x p := by
  unfold hasTest
  rw [twt_congr hst htr p]

/-- The support interval of the OR shape can be widened. -/
theorem orBuiltN_widen (G : Graph) (endS L : Nat) {sa sb sa2 sb2 : Nat}
    (h1 : sa2 ≤ sa) (h2 : sb ≤ sb2) :
    ∀ (d st l r : Nat), OrBuiltN G endS L sa sb d st l r →
      OrBuiltN G endS L sa2 sb2 d st l r
  | 0, _, _, _, h => h.elim
  | d + 1, st, l, r, h => by
    rw [OrBuiltN] at h ⊢
    obtain ⟨ha, hb, hl, hr, hnl, hnr, hval, lp, rp, hsplit, hlf, hrf⟩ := h
    refine ⟨by omega, by omega, hl, hr, hnl, hnr, hval, lp, rp, hsplit,
      ?_, ?_⟩
    · refine forall₂_imp_mem hlf ?_
      intro e tro _ _ hE
      obtain ⟨ht, hnone, hsome⟩ := hE
      refine ⟨ht, ?_, ?_⟩
      · intro hn
        obtain ⟨hterm, hcont⟩ := hnone hn
        exact ⟨hterm, fun hne =>
          orBuiltN_widen G endS L h1 h2 d _ _ _ (hcont hne)⟩
      · intro rtr hs
        obtain ⟨hterm, hcont⟩ := hsome rtr hs
        refine ⟨hterm, fun hne => ?_⟩
        obtain ⟨hterm2, hcont2⟩ := hcont hne
        exact ⟨hterm2, fun hne2 =>
          orBuiltN_widen G endS L h1 h2 d _ _ _ (hcont2 hne2)⟩
    · refine forall₂_imp_mem hrf ?_
      intro e tro _ _ hE
      obtain ⟨ht, hterm, hcont⟩ := hE
      exact ⟨ht, hterm, fun hne =>
        orBuiltN_widen G endS L h1 h2 d _ _ _ (hcont hne)⟩

/-- A found transition is on the state's outbound list. -/
theorem twt_mem {G : Graph} {x : Nat} {p : TestId} {tr : Nat}
    (h : transitionWithTest G x p = some tr) : tr ∈ (getSt G x).out :=
  List.mem_of_find?_eq_some h

/-- A found transition carries the requested test. -/
theorem twt_test {G : Graph} {x : Nat} {p : TestId} {tr : Nat}
    (h : transitionWithTest G x p = some tr) : (getTr G tr).test = p := by
  have := List.find?_some h
  simpa using this

/-- The OR shape is preserved by graph extensions that leave the original
region, the support interval's out lists, and the existing transitions
unchanged. -/
theorem orBuiltN_mono (g₀ : Graph) (rks : List Nat)
    (hwf : wfB g₀ rks = true) (G1 G2 : Graph) (endS sa sb : Nat)
    (hfr1 : CopyFrame g₀.states.length g₀.trans.length g₀ G1)
    (hL : ∀ i, i < g₀.states.length → getSt G2 i = getSt G1 i)
    (hS : ∀ i, sa ≤ i → i < sb → (getSt G2 i).out = (getSt G1 i).out)
    (hT : ∀ j, j < G1.trans.length → getTr G2 j = getTr G1 j)
    (hlen : G1.trans.length ≤ G2.trans.length) :
    ∀ (d st l r : Nat),
      OrBuiltN G1 endS g₀.states.length sa sb d st l r →
      OrBuiltN G2 endS g₀.states.length sa sb d st l r
  | 0, _, _, _, h => h.elim
  | d + 1, st, l, r, h => by
    rw [OrBuiltN] at h ⊢
    obtain ⟨ha, hb, hl, hr, hnl, hnr, hval, lp, rp, hsplit, hlf, hrf⟩ := h
    have hT0 : g₀.trans.length ≤ G1.trans.length := hfr1.2.1
    have hstL : ∀ x, x < g₀.states.length → getSt G1 x = getSt g₀ x :=
      fun x hx => hfr1.2.2.1 x hx
    have htrsL : ∀ x, x < g₀.states.length → ∀ tr ∈ (getSt G1 x).out,
        getTr G2 tr = getTr G1 tr := by
      intro x hx tr htr
      rw [hstL x hx] at htr
      have := (wf_out hwf hx htr).1
      exact hT tr (by omega)
    have hdstL : ∀ x, x < g₀.states.length → ∀ tr ∈ (getSt G1 x).out,
        (getTr G1 tr).dst < g₀.states.length := by
      intro x hx tr htr
      rw [hstL x hx] at htr
      have h2 := (wf_out hwf hx htr).2.1
      have h3 := hfr1.2.2.2 tr (wf_out hwf hx htr).1
      rw [h3]
      exact h2
    have hlrec : getSt G2 l = getSt G1 l := hL l hl
    have hrrec : getSt G2 r = getSt G1 r := hL r hr
    have hstout : (getSt G2 st).out = (getSt G1 st).out := hS st ha hb
    have htwt : ∀ p, transitionWithTest G2 r p = transitionWithTest G1 r p :=
      fun p => twt_congr hrrec (htrsL r hr) p
    have hht : ∀ p, hasTest G2 l p = hasTest G1 l p :=
      fun p => hasTest_congr hlrec (htrsL l hl) p
    have hvalE : ∀ e ∈ (getSt G1 st).out, getTr G2 e = getTr G1 e :=
      fun e he => hT _ (hval e he)
    have hlpmem : ∀ e ∈ lp, e ∈ (getSt G1 st).out := by
      intro e he
      rw [hsplit]
      exact List.mem_append_left _ he
    have hrpmem : ∀ e ∈ rp, e ∈ (getSt G1 st).out := by
      intro e he
      rw [hsplit]
      exact List.mem_append_right _ he
    refine ⟨ha, hb, hl, hr, ?_, ?_, ?_, lp, rp, ?_, ?_, ?_⟩
    · rw [hlrec]
      exact hnl
    · rw [hrrec]
      exact hnr
    · intro e he
      rw [hstout] at he
      have := hval e he
      omega
    · rw [hstout]
      exact hsplit
    · rw [hlrec]
      refine forall₂_imp_mem hlf ?_
      intro e tro he htro hE
      obtain ⟨ht, hnone, hsome⟩ := hE
      have hetr : getTr G2 e = getTr G1 e := hvalE e (hlpmem e he)
      have htro2 : getTr G2 tro = getTr G1 tro := htrsL l hl tro htro
      have hdsto : getSt G2 ((getTr G1 tro).dst) =
          getSt G1 ((getTr G1 tro).dst) := hL _ (hdstL l hl tro htro)
      refine ⟨by rw [hetr, htro2, ht], ?_, ?_⟩
      · intro hn2
        rw [htro2, htwt] at hn2
        obtain ⟨hterm, hcont⟩ := hnone hn2
        refine ⟨?_, ?_⟩
        · intro hterm2
          rw [htro2, hdsto] at hterm2
          rw [hetr]
          exact hterm hterm2
        · intro hne2
          rw [htro2, hdsto] at hne2
          rw [hetr, htro2]
          exact orBuiltN_mono g₀ rks hwf G1 G2 endS sa sb hfr1 hL hS hT hlen d
            _ _ _ (hcont hne2)
      · intro rtr hs2
        rw [htro2, htwt] at hs2
        obtain ⟨hterm, hcont⟩ := hsome rtr hs2
        have hrtro : getTr G2 rtr = getTr G1 rtr :=
          htrsL r hr rtr (twt_mem hs2)
        have hdstr : getSt G2 ((getTr G1 rtr).dst) =
            getSt G1 ((getTr G1 rtr).dst) := hL _ (hdstL r hr rtr (twt_mem hs2))
        refine ⟨?_, ?_⟩
        · intro hterm2
          rw [hrtro, hdstr] at hterm2
          rw [hetr]
          exact hterm hterm2
        · intro hne2
          rw [hrtro, hdstr] at hne2
          obtain ⟨hterm3, hcont3⟩ := hcont hne2
          refine ⟨?_, ?_⟩
          · intro hterm4
            rw [htro2, hdsto] at hterm4
            rw [hetr]
            exact hterm3 hterm4
          · intro hne4
            rw [htro2, hdsto] at hne4
            rw [hetr, htro2, hrtro]
            exact orBuiltN_mono g₀ rks hwf G1 G2 endS sa sb hfr1 hL hS hT hlen d
              _ _ _ (hcont3 hne4)
    · have hfilter :
          ((getSt G2 r).out).filter
            (fun tro => !(hasTest G2 l ((getTr G2 tro).test))) =
          ((getSt G1 r).out).filter
            (fun tro => !(hasTest G1 l ((getTr G1 tro).test))) := by
        rw [hrrec]
        refine List.filter_congr ?_
        intro tro htro
        rw [htrsL r hr tro htro, hht]
      rw [hfilter]
      refine forall₂_imp_mem hrf ?_
      intro e tro he htro hE
      have htromem : tro ∈ (getSt G1 r).out := List.mem_of_mem_filter htro
      obtain ⟨ht, hterm, hcont⟩ := hE
      have hetr : getTr G2 e = getTr G1 e := hvalE e (hrpmem e he)
      have htro2 : getTr G2 tro = getTr G1 tro := htrsL r hr tro htromem
      have hdsto : getSt G2 ((getTr G1 tro).dst) =
          getSt G1 ((getTr G1 tro).dst) := hL _ (hdstL r hr tro htromem)
      refine ⟨by rw [hetr, htro2, ht], ?_, ?_⟩
      · intro hterm2
        rw [htro2, hdsto] at hterm2
        rw [hetr]
        exact hterm hterm2
      · intro hne2
        rw [htro2, hdsto] at hne2
        rw [hetr, htro2]
        exact orBuiltN_mono g₀ rks hwf G1 G2 endS sa sb hfr1 hL hS hT hlen d
          _ _ _ (hcont hne2)

/-- `LeftEdgeOk` only depends on the records of the edge, the left
transition, the right operand's probe, and the continuation property. -/
theorem leftEdgeOk_transfer {G1 G2 : Graph} {endS r : Nat}
    {K1 K2 : Nat → Nat → Nat → Prop} {e tro : Nat}
    (hetr : getTr G2 e = getTr G1 e)
    (htro : getTr G2 tro = getTr G1 tro)
    (hdsto : getSt G2 ((getTr G1 tro).dst) = getSt G1 ((getTr G1 tro).dst))
    (htwt : transitionWithTest G2 r ((getTr G1 tro).test) =
      transitionWithTest G1 r ((getTr G1 tro).test))
    (hrtr : ∀ rtr, transitionWithTest G1 r ((getTr G1 tro).test) = some rtr →
      getTr G2 rtr = getTr G1 rtr ∧
      getSt G2 ((getTr G1 rtr).dst) = getSt G1 ((getTr G1 rtr).dst))
    (hK : ∀ c nl nr, K1 c nl nr → K2 c nl nr) :
    LeftEdgeOk G1 endS r K1 e tro → LeftEdgeOk G2 endS r K2 e tro := by
  rintro ⟨ht, hnone, hsome⟩
  refine ⟨by rw [hetr, htro, ht], ?_, ?_⟩
  · intro hn2
    rw [htro, htwt] at hn2
    obtain ⟨hterm, hcont⟩ := hnone hn2
    refine ⟨?_, ?_⟩
    · intro hterm2
      rw [htro, hdsto] at hterm2
      rw [hetr]
      exact hterm hterm2
    · intro hne2
      rw [htro, hdsto] at hne2
      rw [hetr, htro]
      exact hK _ _ _ (hcont hne2)
  · intro rtr hs2
    rw [htro, htwt] at hs2
    obtain ⟨hterm, hcont⟩ := hsome rtr hs2
    obtain ⟨hrtr2, hdstr⟩ := hrtr rtr hs2
    refine ⟨?_, ?_⟩
    · intro hterm2
      rw [hrtr2, hdstr] at hterm2
      rw [hetr]
      exact hterm hterm2
    · intro hne2
      rw [hrtr2, hdstr] at hne2
      obtain ⟨hterm3, hcont3⟩ := hcont hne2
      refine ⟨?_, ?_⟩
      · intro hterm4
        rw [htro, hdsto] at hterm4
        rw [hetr]
        exact hterm3 hterm4
      · intro hne4
        rw [htro, hdsto] at hne4
        rw [hetr, htro, hrtr2]
        exact hK _ _ _ (hcont3 hne4)

/-- `RightEdgeOk` analogue of `leftEdgeOk_transfer`. -/
theorem rightEdgeOk_transfer {G1 G2 : Graph} {endS l : Nat}
    {K1 K2 : Nat → Nat → Nat → Prop} {e tro : Nat}
    (hetr : getTr G2 e = getTr G1 e)
    (htro : getTr G2 tro = getTr G1 tro)
    (hdsto : getSt G2 ((getTr G1 tro).dst) = getSt G1 ((getTr G1 tro).dst))
    (hK : ∀ c nl nr, K1 c nl nr → K2 c nl nr) :
    RightEdgeOk G1 endS l K1 e tro → RightEdgeOk G2 endS l K2 e tro := by
  rintro ⟨ht, hterm, hcont⟩
  refine ⟨by rw [hetr, htro, ht], ?_, ?_⟩
  · intro hterm2
    rw [htro, hdsto] at hterm2
    rw [hetr]
    exact hterm hterm2
  · intro hne2
    rw [htro, hdsto] at hne2
    rw [hetr, htro]
    exact hK _ _ _ (hcont hne2)

/-- Frame and bookkeeping invariants of every step of the OR
construction: only the build target's out list, the end state's inbound
list, and freshly allocated material change; fresh states carry exactly
one inbound transition pointing back at an earlier non-end builder. -/
@[reducible]
def OrLoopCore (g₀ g : Graph) (st endS : Nat) (G2 : Graph) : Prop :=
  (g.states.length ≤ G2.states.length ∧
    g.trans.length ≤ G2.trans.length) ∧
  (∀ i, i < g₀.states.length → getSt G2 i = getSt g i) ∧
  (∀ i, i < g.states.length → i ≠ st → (getSt G2 i).out = (getSt g i).out) ∧
  (∀ j, j < g.trans.length → getTr G2 j = getTr g j) ∧
  (∀ i, i < g.states.length → i ≠ endS →
    (getSt G2 i).ins = (getSt g i).ins) ∧
  (∃ extra, (getSt G2 endS).ins = (getSt g endS).ins ++ extra ∧
    ∀ tr ∈ extra, tr < G2.trans.length ∧
      g₀.states.length ≤ (getTr G2 tr).src ∧
      (getTr G2 tr).src < G2.states.length ∧ (getTr G2 tr).src ≠ endS) ∧
  (∀ x, g.states.length ≤ x → x < G2.states.length →
    ∃ tr, (getSt G2 x).ins = [tr] ∧ tr < G2.trans.length ∧
      g₀.states.length ≤ (getTr G2 tr).src ∧ (getTr G2 tr).src < x ∧
      (getTr G2 tr).src ≠ endS)

theorem orLoopCore_rfl (g₀ g : Graph) (st endS : Nat) :
    OrLoopCore g₀ g st endS g :=
  ⟨⟨Nat.le_refl _, Nat.le_refl _⟩, fun _ _ => rfl, fun _ _ _ => rfl,
   fun _ _ => rfl, fun _ _ _ => rfl,
   ⟨[], (List.append_nil _).symm, fun _ h => absurd h (by simp)⟩,
   fun x hx hx2 => absurd hx2 (by omega)⟩

theorem orLoopCore_trans {g₀ g1 g2 g3 : Graph} {st endS : Nat}
    (hL0 : g₀.states.length ≤ g1.states.length)
    (hstlt : st < g1.states.length) (hendlt : endS < g1.states.length)
    (h12 : OrLoopCore g₀ g1 st endS g2)
    (h23 : OrLoopCore g₀ g2 st endS g3) :
    OrLoopCore g₀ g1 st endS g3 := by
  obtain ⟨⟨ha1, hb1⟩, hO1, hout1, htr1, hins1, ⟨ex1, hex1, hexs1⟩, hfr1⟩ := h12
  obtain ⟨⟨ha2, hb2⟩, hO2, hout2, htr2, hins2, ⟨ex2, hex2, hexs2⟩, hfr2⟩ := h23
  refine ⟨⟨by omega, by omega⟩, ?_, ?_, ?_, ?_, ?_, ?_⟩
  · intro i hi
    rw [hO2 i hi, hO1 i hi]
  · intro i hi hne
    rw [hout2 i (by omega) hne, hout1 i hi hne]
  · intro j hj
    rw [htr2 j (by omega), htr1 j hj]
  · intro i hi hne
    rw [hins2 i (by omega) hne, hins1 i hi hne]
  · refine ⟨ex1 ++ ex2, ?_, ?_⟩
    · rw [hex2, hex1, List.append_assoc]
    · intro tr htr
      rcases List.mem_append.mp htr with h | h
      · obtain ⟨hh1, hh2, hh3, hh4⟩ := hexs1 tr h
        have := htr2 tr hh1
        rw [this]
        exact ⟨by omega, hh2, by omega, hh4⟩
      · exact hexs2 tr h
  · intro x hx hx2
    by_cases hcase : x < g2.states.length
    · obtain ⟨tr, hh0, hh1, hh2, hh3, hh4⟩ := hfr1 x hx hcase
      have hne : x ≠ endS := by omega
      have hins := hins2 x hcase hne
      have htre := htr2 tr hh1
      refine ⟨tr, ?_, by omega, ?_, ?_, ?_⟩
      · rw [hins, hh0]
      · rw [htre]
        exact hh2
      · rw [htre]
        exact hh3
      · rw [htre]
        exact hh4
    · exact hfr2 x (by omega) hx2

/-- More field-targeted access lemmas for `addOut`/`addIn`. -/
theorem out_addOut_self (g : Graph) (c nt : Nat) (h : c < g.states.length) :
    (getSt (addOut g c nt) c).out = (getSt g c).out ++ [nt] := by
  rw [getSt_addOut, if_pos ⟨rfl, h⟩]

theorem ins_addOut (g : Graph) (c nt i : Nat) :
    (getSt (addOut g c nt) i).ins = (getSt g i).ins := by
  rw [getSt_addOut]
  split <;> rfl

theorem ins_addIn_self (g : Graph) (c nt : Nat) (h : c < g.states.length) :
    (getSt (addIn g c nt) c).ins = (getSt g c).ins ++ [nt] := by
  rw [getSt_addIn, if_pos ⟨rfl, h⟩]

theorem ins_addIn_ne (g : Graph) {c i : Nat} (nt : Nat) (h : c ≠ i) :
    (getSt (addIn g c nt) i).ins = (getSt g i).ins := by
  rw [getSt_addIn, if_neg (by rintro ⟨he, -⟩; exact h he)]

def orEndStep (g : Graph) (st endS : Nat) (p : TestId) : Graph :=
  addIn (addOut (newTransition g p st endS).1 st g.trans.length) endS
    g.trans.length

def orFreshStep (g : Graph) (st : Nat) (p : TestId) : Graph :=
  addIn (addOut (newTransition (newState g).1 p st (newState g).2).1 st
      (newTransition (newState g).1 p st (newState g).2).2)
    (newState g).2 (newTransition (newState g).1 p st (newState g).2).2

/-- Creating one edge from the build target to the shared end state. -/
theorem orStepEnd (g₀ g : Graph) (st endS : Nat) (p : TestId)
    (hst : st < g.states.length) (hstL : g₀.states.length ≤ st)
    (hend : endS < g.states.length) (hendL : g₀.states.length ≤ endS)
    (hne : st ≠ endS) :
    OrLoopCore g₀ g st endS (orEndStep g st endS p) ∧
    (getSt (orEndStep g st endS p) st).out =
      (getSt g st).out ++ [g.trans.length] ∧
    getTr (orEndStep g st endS p) g.trans.length = ⟨p, st, endS⟩ ∧
    (orEndStep g st endS p).states.length = g.states.length ∧
    (orEndStep g st endS p).trans.length = g.trans.length + 1 ∧
    (getSt (orEndStep g st endS p) endS).ins =
      (getSt g endS).ins ++ [g.trans.length] := by
  show OrLoopCore g₀ g st endS
      (addIn (addOut (newTransition g p st endS).1 st g.trans.length)
        endS g.trans.length) ∧
    (getSt (addIn (addOut (newTransition g p st endS).1 st g.trans.length)
        endS g.trans.length) st).out =
      (getSt g st).out ++ [g.trans.length] ∧
    getTr (addIn (addOut (newTransition g p st endS).1 st g.trans.length)
        endS g.trans.length) g.trans.length = ⟨p, st, endS⟩ ∧
    (addIn (addOut (newTransition g p st endS).1 st g.trans.length)
        endS g.trans.length).states.length = g.states.length ∧
    (addIn (addOut (newTransition g p st endS).1 st g.trans.length)
        endS g.trans.length).trans.length = g.trans.length + 1 ∧
    (getSt (addIn (addOut (newTransition g p st endS).1 st g.trans.length)
        endS g.trans.length) endS).ins = (getSt g endS).ins ++ [g.trans.length]
  set nt := g.trans.length with hntEq
  set g1 := (newTransition g p st endS).1 with hg1Eq
  set g2 := addOut g1 st nt with hg2Eq
  set g3 := addIn g2 endS nt with hg3Eq
  have hg1s : g1.states.length = g.states.length := rfl
  have hg1t : g1.trans.length = g.trans.length + 1 :=
    length_trans_newTransition g p st endS
  have hg2s : g2.states.length = g1.states.length := length_addOut_states _ _ _
  have hg2t : g2.trans.length = g1.trans.length := length_addOut_trans _ _ _
  have hg3s : g3.states.length = g2.states.length := length_addIn_states _ _ _
  have hg3t : g3.trans.length = g2.trans.length := length_addIn_trans _ _ _
  have hnew : getTr g1 nt = ⟨p, st, endS⟩ := getTr_newTransition_new g p st endS
  have hntlt : nt < g1.trans.length := by omega
  have hnew2 : getTr g2 nt = ⟨p, st, endS⟩ := by
    rw [hg2Eq, getTr_addOut, if_pos ⟨rfl, hntlt⟩, hnew]
  have hnew3 : getTr g3 nt = ⟨p, st, endS⟩ := by
    rw [hg3Eq, getTr_addIn, if_pos ⟨rfl, by omega⟩, hnew2]
  have htst : ∀ j, j < g.trans.length → getTr g3 j = getTr g j := by
    intro j hj
    have hjnt : nt ≠ j := by omega
    rw [hg3Eq, getTr_addIn_ne g2 endS hjnt, hg2Eq, getTr_addOut_ne g1 st hjnt,
      hg1Eq, getTr_newTransition_old _ _ _ _ _ hj]
  have houtst : (getSt g3 st).out = (getSt g st).out ++ [nt] := by
    rw [hg3Eq, out_addIn, hg2Eq, out_addOut_self g1 st nt (by omega), hg1Eq,
      getSt_newTransition]
  have hout_other : ∀ i, i ≠ st → (getSt g3 i).out = (getSt g i).out := by
    intro i h1
    rw [hg3Eq, out_addIn, hg2Eq, out_addOut_ne g1 nt (Ne.symm h1), hg1Eq,
      getSt_newTransition]
  have hins_end : (getSt g3 endS).ins = (getSt g endS).ins ++ [nt] := by
    rw [hg3Eq, ins_addIn_self g2 endS nt (by omega), hg2Eq, ins_addOut, hg1Eq,
      getSt_newTransition]
  have hins_other : ∀ i, i ≠ endS → (getSt g3 i).ins = (getSt g i).ins := by
    intro i h2
    rw [hg3Eq, ins_addIn_ne g2 nt (fun he => h2 he.symm), hg2Eq, ins_addOut,
      hg1Eq, getSt_newTransition]
  have hgets : ∀ i, i ≠ st → i ≠ endS → getSt g3 i = getSt g i := by
    intro i h1 h2
    rw [hg3Eq, getSt_addIn, if_neg (by rintro ⟨he, -⟩; exact h2 he.symm),
      hg2Eq, getSt_addOut, if_neg (by rintro ⟨he, -⟩; exact h1 he.symm),
      hg1Eq, getSt_newTransition]
  refine ⟨⟨⟨by omega, by omega⟩, ?_, fun i _ h => hout_other i h, htst,
    fun i _ h => hins_other i h, ⟨[nt], hins_end, ?_⟩, ?_⟩,
    houtst, hnew3, by omega, by omega, hins_end⟩
  · intro i hi
    exact hgets i (by omega) (by omega)
  · intro tr htr
    have he : tr = nt := List.mem_singleton.mp htr
    subst he
    rw [hnew3]
    show nt < g3.trans.length ∧ g₀.states.length ≤ st ∧
      st < g3.states.length ∧ st ≠ endS
    exact ⟨by omega, hstL, by omega, hne⟩
  · intro x hx hx2
    exfalso
    omega

/-- Creating one edge from the build target to a freshly allocated
continuation state. -/
theorem orStepFresh (g₀ g : Graph) (st endS : Nat) (p : TestId)
    (hst : st < g.states.length) (hstL : g₀.states.length ≤ st)
    (hend : endS < g.states.length) (hne : st ≠ endS) :
    OrLoopCore g₀ g st endS (orFreshStep g st p) ∧
    (getSt (orFreshStep g st p) st).out =
      (getSt g st).out ++ [g.trans.length] ∧
    getTr (orFreshStep g st p) g.trans.length = ⟨p, st, g.states.length⟩ ∧
    (getSt (orFreshStep g st p) g.states.length).out = [] ∧
    (orFreshStep g st p).states.length = g.states.length + 1 ∧
    (orFreshStep g st p).trans.length = g.trans.length + 1 := by
  unfold orFreshStep
  set c := (newState g).2 with hcEq
  set gA := (newState g).1 with hgAEq
  set nt := (newTransition gA p st c).2 with hntEq
  set g1 := (newTransition gA p st c).1 with hg1Eq
  set g2 := addOut g1 st nt with hg2Eq
  set g3 := addIn g2 c nt with hg3Eq
  have hcval : c = g.states.length := rfl
  have hntval : nt = g.trans.length := rfl
  have hgAs : gA.states.length = g.states.length + 1 := length_newState g
  have hgAt : gA.trans.length = g.trans.length := rfl
  have hg1s : g1.states.length = gA.states.length := rfl
  have hg1t : g1.trans.length = gA.trans.length + 1 :=
    length_trans_newTransition gA p st c
  have hg2s : g2.states.length = g1.states.length := length_addOut_states _ _ _
  have hg2t : g2.trans.length = g1.trans.length := length_addOut_trans _ _ _
  have hg3s : g3.states.length = g2.states.length := length_addIn_states _ _ _
  have hg3t : g3.trans.length = g2.trans.length := length_addIn_trans _ _ _
  have hnew : getTr g1 nt = ⟨p, st, c⟩ := getTr_newTransition_new gA p st c
  have hntlt : nt < g1.trans.length := by omega
  have hnew2 : getTr g2 nt = ⟨p, st, c⟩ := by
    rw [hg2Eq, getTr_addOut, if_pos ⟨rfl, hntlt⟩, hnew]
  have hnew3 : getTr g3 nt = ⟨p, st, c⟩ := by
    rw [hg3Eq, getTr_addIn, if_pos ⟨rfl, by omega⟩, hnew2]
  have htst : ∀ j, j < g.trans.length → getTr g3 j = getTr g j := by
    intro j hj
    have hjnt : nt ≠ j := by omega
    rw [hg3Eq, getTr_addIn_ne g2 c hjnt, hg2Eq, getTr_addOut_ne g1 st hjnt,
      hg1Eq, getTr_newTransition_old _ _ _ _ _ (by omega), hgAEq,
      getTr_newState]
  have hgetA : ∀ i, i < g.states.length → getSt gA i = getSt g i := by
    intro i hi
    rw [hgAEq]
    exact getSt_newState_old g i hi
  have houtst : (getSt g3 st).out = (getSt g st).out ++ [nt] := by
    rw [hg3Eq, out_addIn, hg2Eq, out_addOut_self g1 st nt (by omega), hg1Eq,
      getSt_newTransition, hgetA st hst]
  have hout_other : ∀ i, i < g.states.length → i ≠ st →
      (getSt g3 i).out = (getSt g i).out := by
    intro i hi h1
    rw [hg3Eq, out_addIn, hg2Eq, out_addOut_ne g1 nt (Ne.symm h1), hg1Eq,
      getSt_newTransition, hgetA i hi]
  have houtc : (getSt g3 c).out = [] := by
    rw [hg3Eq, out_addIn, hg2Eq, out_addOut_ne g1 nt (by omega), hg1Eq,
      getSt_newTransition, show getSt gA c = default from getSt_newState_new g]
    rfl
  have hins_other : ∀ i, i < g.states.length →
      (getSt g3 i).ins = (getSt g i).ins := by
    intro i hi
    rw [hg3Eq, ins_addIn_ne g2 nt (by omega), hg2Eq, ins_addOut, hg1Eq,
      getSt_newTransition, hgetA i hi]
  have hinsc : (getSt g3 c).ins = [nt] := by
    rw [hg3Eq, ins_addIn_self g2 c nt (by omega), hg2Eq, ins_addOut, hg1Eq,
      getSt_newTransition, show getSt gA c = default from getSt_newState_new g]
    rfl
  have hgets : ∀ i, i < g.states.length → i ≠ st → getSt g3 i = getSt g i := by
    intro i hi h1
    rw [hg3Eq, getSt_addIn, if_neg (by rintro ⟨he, -⟩; omega),
      hg2Eq, getSt_addOut, if_neg (by rintro ⟨he, -⟩; exact h1 he.symm),
      hg1Eq, getSt_newTransition, hgetA i hi]
  refine ⟨⟨⟨by omega, by omega⟩, ?_, hout_other, htst,
    fun i hi _ => hins_other i hi, ?_, ?_⟩,
    houtst, hnew3, houtc, by omega, by omega⟩
  · intro i hi
    exact hgets i (by omega) (by omega)
  · refine ⟨[], ?_, fun _ h => absurd h (by simp)⟩
    rw [List.append_nil]
    exact hins_other endS hend
  · intro x hx hx2
    have hxc : x = c := by omega
    subst hxc
    refine ⟨nt, hinsc, by omega, ?_, ?_, ?_⟩
    · rw [hnew3]
      exact hstL
    · rw [hnew3]
      exact hst
    · rw [hnew3]
      exact hne

theorem orLeftLoop_eqA (rec : Graph → Nat → Nat → Nat → Nat → Graph)
    (g : Graph) (st r endS tr : Nat) (rest : List Nat) (rtr : Nat)
    (hm : transitionWithTest g r ((getTr g tr).test) = some rtr)
    (hre : ((getSt g ((getTr g rtr).dst)).out).isEmpty = true) :
    orLeftLoop rec g st r endS (tr :: rest) =
      orLeftLoop rec (orEndStep g st endS ((getTr g tr).test)) st r endS
        rest := by
  rw [orLeftLoop, hm]
  dsimp only
  rw [hre]
  simp only [if_true]
  rfl

theorem orLeftLoop_eqB (rec : Graph → Nat → Nat → Nat → Nat → Graph)
    (g : Graph) (st r endS tr : Nat) (rest : List Nat) (rtr : Nat)
    (hm : transitionWithTest g r ((getTr g tr).test) = some rtr)
    (hre : ((getSt g ((getTr g rtr).dst)).out).isEmpty = false)
    (hle : ((getSt g ((getTr g tr).dst)).out).isEmpty = true) :
    orLeftLoop rec g st r endS (tr :: rest) =
      orLeftLoop rec (orEndStep g st endS ((getTr g tr).test)) st r endS
        rest := by
  rw [orLeftLoop, hm]
  dsimp only
  rw [hre, hle]
  simp only [Bool.false_eq_true, if_false, if_true]
  rfl

theorem orLeftLoop_eqC (rec : Graph → Nat → Nat → Nat → Nat → Graph)
    (g : Graph) (st r endS tr : Nat) (rest : List Nat) (rtr : Nat)
    (hm : transitionWithTest g r ((getTr g tr).test) = some rtr)
    (hre : ((getSt g ((getTr g rtr).dst)).out).isEmpty = false)
    (hle : ((getSt g ((getTr g tr).dst)).out).isEmpty = false) :
    orLeftLoop rec g st r endS (tr :: rest) =
      orLeftLoop rec
        (rec (orFreshStep g st ((getTr g tr).test)) (newState g).2
          ((getTr g tr).dst) ((getTr g rtr).dst) endS) st r endS rest := by
  rw [orLeftLoop, hm]
  dsimp only
  rw [hre, hle]
  simp only [Bool.false_eq_true, if_false, getTr_newState]
  rfl

theorem orLeftLoop_eqD (rec : Graph → Nat → Nat → Nat → Nat → Graph)
    (g : Graph) (st r endS tr : Nat) (rest : List Nat)
    (hm : transitionWithTest g r ((getTr g tr).test) = none)
    (hle : ((getSt g ((getTr g tr).dst)).out).isEmpty = true) :
    orLeftLoop rec g st r endS (tr :: rest) =
      orLeftLoop rec (orEndStep g st endS ((getTr g tr).test)) st r endS
        rest := by
  rw [orLeftLoop, hm]
  dsimp only
  rw [hle]
  simp only [if_true]
  rfl

theorem orLeftLoop_eqE (rec : Graph → Nat → Nat → Nat → Nat → Graph)
    (g : Graph) (st r endS tr : Nat) (rest : List Nat)
    (hm : transitionWithTest g r ((getTr g tr).test) = none)
    (hle : ((getSt g ((getTr g tr).dst)).out).isEmpty = false) :
    orLeftLoop rec g st r endS (tr :: rest) =
      orLeftLoop rec
        (rec (orFreshStep g st ((getTr g tr).test)) (newState g).2
          ((getTr g tr).dst) r endS) st r endS rest := by
  rw [orLeftLoop, hm]
  dsimp only
  rw [hle]
  simp only [Bool.false_eq_true, if_false, getTr_newState]
  rfl

theorem orRightLoop_eqSkip (rec : Graph → Nat → Nat → Nat → Nat → Graph)
    (g : Graph) (st l endS tr : Nat) (rest : List Nat)
    (hh : hasTest g l ((getTr g tr).test) = true) :
    orRightLoop rec g st l endS (tr :: rest) =
      orRightLoop rec g st l endS rest := by
  rw [orRightLoop, hh]
  simp only [if_true]

theorem orRightLoop_eqEnd (rec : Graph → Nat → Nat → Nat → Nat → Graph)
    (g : Graph) (st l endS tr : Nat) (rest : List Nat)
    (hh : hasTest g l ((getTr g tr).test) = false)
    (hle : ((getSt g ((getTr g tr).dst)).out).isEmpty = true) :
    orRightLoop rec g st l endS (tr :: rest) =
      orRightLoop rec (orEndStep g st endS ((getTr g tr).test)) st l endS
        rest := by
  rw [orRightLoop, hh]
  simp only [Bool.false_eq_true, if_false]
  rw [hle]
  simp only [if_true]
  rfl

theorem orRightLoop_eqFresh (rec : Graph → Nat → Nat → Nat → Nat → Graph)
    (g : Graph) (st l endS tr : Nat) (rest : List Nat)
    (hh : hasTest g l ((getTr g tr).test) = false)
    (hle : ((getSt g ((getTr g tr).dst)).out).isEmpty = false) :
    orRightLoop rec g st l endS (tr :: rest) =
      orRightLoop rec
        (rec (orFreshStep g st ((getTr g tr).test)) (newState g).2 l
          ((getTr g tr).dst) endS) st l endS rest := by
  rw [orRightLoop, hh]
  simp only [Bool.false_eq_true, if_false]
  rw [hle]
  simp only [Bool.false_eq_true, if_false, getTr_newState]
  rfl

theorem isEmpty_true_iff {α : Type} : ∀ (l : List α),
    l.isEmpty = true ↔ l = []
  | [] => by simp
  | a :: l => by simp [List.isEmpty]

theorem isEmpty_false_iff {α : Type} : ∀ (l : List α),
    l.isEmpty = false ↔ l ≠ []
  | [] => by simp [List.isEmpty]
  | a :: l => by simp [List.isEmpty]

/-- A construction step that satisfies the core invariants extends the
protective frame over the original graph. -/
theorem copyFrame_of_core {g₀ g G2 : Graph} {st endS : Nat}
    (hfr : CopyFrame g₀.states.length g₀.trans.length g₀ g)
    (hcore : OrLoopCore g₀ g st endS G2) :
    CopyFrame g₀.states.length g₀.trans.length g₀ G2 := by
  obtain ⟨⟨ha, hb⟩, hO, -, htr, -⟩ := hcore
  exact ⟨Nat.le_trans hfr.1 ha, Nat.le_trans hfr.2.1 hb,
    fun i hi => (hO i hi).trans (hfr.2.2.1 i hi),
    fun j hj => (htr j (by
      have := hfr.2.1
      omega)).trans (hfr.2.2.2 j hj)⟩

/-- Core composition where the second step builds at a state beyond the
first graph (a freshly allocated continuation). -/
theorem orLoopCore_trans2 {g₀ g1 g2 g3 : Graph} {st st2 endS : Nat}
    (hL0 : g₀.states.length ≤ g1.states.length)
    (hendlt : endS < g1.states.length)
    (hexc : g1.states.length ≤ st2 ∨ st2 = st)
    (h12 : OrLoopCore g₀ g1 st endS g2)
    (h23 : OrLoopCore g₀ g2 st2 endS g3) :
    OrLoopCore g₀ g1 st endS g3 := by
  obtain ⟨⟨ha1, hb1⟩, hO1, hout1, htr1, hins1, ⟨ex1, hex1, hexs1⟩, hfr1⟩ := h12
  obtain ⟨⟨ha2, hb2⟩, hO2, hout2, htr2, hins2, ⟨ex2, hex2, hexs2⟩, hfr2⟩ := h23
  refine ⟨⟨by omega, by omega⟩, ?_, ?_, ?_, ?_, ?_, ?_⟩
  · intro i hi
    rw [hO2 i hi, hO1 i hi]
  · intro i hi hne
    have hne2 : i ≠ st2 := by
      rcases hexc with h | h
      · omega
      · omega
    rw [hout2 i (by omega) hne2, hout1 i hi hne]
  · intro j hj
    rw [htr2 j (by omega), htr1 j hj]
  · intro i hi hne
    rw [hins2 i (by omega) hne, hins1 i hi hne]
  · refine ⟨ex1 ++ ex2, ?_, ?_⟩
    · rw [hex2, hex1, List.append_assoc]
    · intro tr htr
      rcases List.mem_append.mp htr with h | h
      · obtain ⟨hh1, hh2, hh3, hh4⟩ := hexs1 tr h
        have := htr2 tr hh1
        rw [this]
        exact ⟨by omega, hh2, by omega, hh4⟩
      · exact hexs2 tr h
  · intro x hx hx2
    by_cases hcase : x < g2.states.length
    · obtain ⟨tr, hh0, hh1, hh2, hh3, hh4⟩ := hfr1 x hx hcase
      have hne : x ≠ endS := by omega
      have hins := hins2 x hcase hne
      have htre := htr2 tr hh1
      refine ⟨tr, ?_, by omega, ?_, ?_, ?_⟩
      · rw [hins, hh0]
      · rw [htre]
        exact hh2
      · rw [htre]
        exact hh3
      · rw [htre]
        exact hh4
    · exact hfr2 x (by omega) hx2

/-- The left pass of `addOrStates`: one edge is appended at the build
target per left outbound transition, satisfying `LeftEdgeOk` — shared
tests are merged with the right operand's continuation, terminal
continuations are routed to the end state — while the core frame
invariants are maintained. -/
theorem orLeftLoopB (g₀ : Graph) (rks : List Nat) (hwf : wfB g₀ rks = true)
    (fuel : Nat) (rec : Graph → Nat → Nat → Nat → Nat → Graph)
    (hrecB : ∀ (g : Graph) (st l r endS : Nat),
      CopyFrame g₀.states.length g₀.trans.length g₀ g →
      g₀.states.length ≤ st → st < g.states.length →
      (getSt g st).out = [] →
      g₀.states.length ≤ endS → endS < g.states.length → endS ≠ st →
      l < g₀.states.length → r < g₀.states.length →
      (getSt g₀ l).out ≠ [] → (getSt g₀ r).out ≠ [] →
      rkOf rks l + rkOf rks r < fuel →
      OrLoopCore g₀ g st endS (rec g st l r endS) ∧
      (getSt g endS).ins.length <
        (getSt (rec g st l r endS) endS).ins.length ∧
      OrBuiltN (rec g st l r endS) endS g₀.states.length st
        (rec g st l r endS).states.length fuel st l r) :
    ∀ (louts : List Nat) (g : Graph) (st l r endS sa : Nat),
      CopyFrame g₀.states.length g₀.trans.length g₀ g →
      g₀.states.length ≤ st → st < g.states.length →
      g₀.states.length ≤ endS → endS < g.states.length → endS ≠ st →
      l < g₀.states.length → r < g₀.states.length →
      (∀ tro ∈ louts, tro ∈ (getSt g₀ l).out) →
      (getSt g₀ r).out ≠ [] →
      rkOf rks l + rkOf rks r ≤ fuel →
      sa ≤ g.states.length → st < sa →
      OrLoopCore g₀ g st endS (orLeftLoop rec g st r endS louts) ∧
      (louts ≠ [] →
        (getSt g endS).ins.length <
          (getSt (orLeftLoop rec g st r endS louts) endS).ins.length) ∧
      ∃ news,
        (getSt (orLeftLoop rec g st r endS louts) st).out =
          (getSt g st).out ++ news ∧
        (∀ e ∈ news, e < (orLeftLoop rec g st r endS louts).trans.length) ∧
        List.Forall₂ (LeftEdgeOk (orLeftLoop rec g st r endS louts) endS r
          (OrBuiltN (orLeftLoop rec g st r endS louts) endS
            g₀.states.length sa
            (orLeftLoop rec g st r endS louts).states.length fuel))
          news louts
  | [], g, st, l, r, endS, sa, hfr, hstL, hst, hendL, hend, hne, hl, hr,
      hmem, hrnt, hrk, hsa1, hsa2 =>
    ⟨orLoopCore_rfl g₀ g st endS, fun h => absurd rfl h,
     [], (List.append_nil _).symm, fun e he => absurd he (by simp),
     List.Forall₂.nil⟩
  | tr :: rest, g, st, l, r, endS, sa, hfr, hstL, hst, hendL, hend, hne, hl,
      hr, hmem, hrnt, hrk, hsa1, hsa2 => by
    have htro := hmem tr (List.mem_cons_self tr rest)
    obtain ⟨htrT, hdl0, hrkl0⟩ := wf_out hwf hl htro
    have hTg : g₀.trans.length ≤ g.trans.length := hfr.2.1
    have hLg : g₀.states.length ≤ g.states.length := hfr.1
    have htrg : getTr g tr = getTr g₀ tr := hfr.2.2.2 tr htrT
    have hdl : (getTr g tr).dst < g₀.states.length := by
      rw [htrg]
      exact hdl0
    have hrkl : rkOf rks ((getTr g tr).dst) < rkOf rks l := by
      rw [htrg]
      exact hrkl0
    have hgr : getSt g r = getSt g₀ r := hfr.2.2.1 r hr
    have hgnl : getSt g ((getTr g tr).dst) = getSt g₀ ((getTr g tr).dst) :=
      hfr.2.2.1 _ hdl
    have htrlt : tr < g.trans.length := by omega
    have hmemrest : ∀ tro ∈ rest, tro ∈ (getSt g₀ l).out :=
      fun tro h => hmem tro (List.mem_cons_of_mem tr h)
    cases hm : transitionWithTest g r ((getTr g tr).test) with
    | some rtr =>
      have hrtrmem : rtr ∈ (getSt g₀ r).out := by
        have := twt_mem hm
        rw [hgr] at this
        exact this
      obtain ⟨hrtrT, hdr0, hrkr0⟩ := wf_out hwf hr hrtrmem
      have hrtrg : getTr g rtr = getTr g₀ rtr := hfr.2.2.2 rtr hrtrT
      have hdr : (getTr g rtr).dst < g₀.states.length := by
        rw [hrtrg]
        exact hdr0
      have hrkr : rkOf rks ((getTr g rtr).dst) < rkOf rks r := by
        rw [hrtrg]
        exact hrkr0
      have hgnr : getSt g ((getTr g rtr).dst) =
          getSt g₀ ((getTr g rtr).dst) := hfr.2.2.1 _ hdr
      have hrtrlt : rtr < g.trans.length := by omega
      cases hre : ((getSt g ((getTr g rtr).dst)).out).isEmpty with
      | true =>
        rw [orLeftLoop_eqA rec g st r endS tr rest rtr hm hre]
        obtain ⟨core1, houts1, hnew1, hs1, ht1, hins1⟩ :=
          orStepEnd g₀ g st endS ((getTr g tr).test) hst hstL hend hendL
            hne.symm
        set gS := orEndStep g st endS ((getTr g tr).test) with hgSEq
        have hfrS : CopyFrame g₀.states.length g₀.trans.length g₀ gS :=
          copyFrame_of_core hfr core1
        obtain ⟨core2, grow2, news2, houts2, hval2, hfa2⟩ :=
          orLeftLoopB g₀ rks hwf fuel rec hrecB rest gS st l r endS sa
            hfrS hstL (by omega) hendL (by omega) hne hl hr hmemrest hrnt
            hrk (by omega) hsa2
        set F := orLeftLoop rec gS st r endS rest with hFEq
        have hcorefull := orLoopCore_trans hfr.1 hst hend core1 core2
        have hFt : gS.trans.length ≤ F.trans.length := core2.1.2
        have hFs : gS.states.length ≤ F.states.length := core2.1.1
        have htrF : ∀ j, j < g.trans.length → getTr F j = getTr g j := by
          intro j hj
          rw [core2.2.2.2.1 j (by omega), core1.2.2.2.1 j hj]
        have hstF : ∀ i, i < g₀.states.length → getSt F i = getSt g i := by
          intro i hi
          rw [core2.2.1 i hi, core1.2.1 i hi]
        have hntF : getTr F g.trans.length =
            ⟨(getTr g tr).test, st, endS⟩ := by
          rw [core2.2.2.2.1 _ (by omega), hnew1]
        have htrF2 : getTr F tr = getTr g tr := htrF tr htrlt
        have hrtrF : getTr F rtr = getTr g rtr := htrF rtr hrtrlt
        have hgrF : getSt F r = getSt g r := hstF r hr
        have htrsF : ∀ t ∈ (getSt g r).out, getTr F t = getTr g t := by
          intro t ht
          rw [hgr] at ht
          have := (wf_out hwf hr ht).1
          exact htrF t (by omega)
        have htwtF : transitionWithTest F r ((getTr g tr).test) =
            some rtr := by
          rw [twt_congr hgrF htrsF]
          exact hm
        have hdstrF : (getSt F ((getTr F rtr).dst)).out = [] := by
          rw [hrtrF, hstF _ hdr]
          exact (isEmpty_true_iff _).mp hre
        refine ⟨hcorefull, fun _ => ?_, g.trans.length :: news2, ?_, ?_, ?_⟩
        · obtain ⟨ex2, hex2, -⟩ := core2.2.2.2.2.2.1
          have h1 := congrArg List.length hins1
          have h2 := congrArg List.length hex2
          simp only [List.length_append, List.length_singleton] at h1 h2
          omega
        · rw [houts2, houts1, List.append_assoc]
          rfl
        · intro e he
          rcases List.mem_cons.mp he with he1 | he2
          · subst he1
            omega
          · exact hval2 e he2
        · refine List.Forall₂.cons ⟨?_, ?_, ?_⟩ hfa2
          · rw [hntF, htrF2]
          · intro hco
            rw [htrF2, htwtF] at hco
            exact Option.noConfusion hco
          · intro rtr2 hs2
            rw [htrF2, htwtF] at hs2
            injection hs2 with hrr
            subst hrr
            refine ⟨fun _ => ?_, fun hcon => absurd hdstrF hcon⟩
            rw [hntF]
      | false =>
        cases hle : ((getSt g ((getTr g tr).dst)).out).isEmpty with
        | true =>
          rw [orLeftLoop_eqB rec g st r endS tr rest rtr hm hre hle]
          obtain ⟨core1, houts1, hnew1, hs1, ht1, hins1⟩ :=
            orStepEnd g₀ g st endS ((getTr g tr).test) hst hstL hend hendL
              hne.symm
          set gS := orEndStep g st endS ((getTr g tr).test) with hgSEq
          have hfrS : CopyFrame g₀.states.length g₀.trans.length g₀ gS :=
            copyFrame_of_core hfr core1
          obtain ⟨core2, grow2, news2, houts2, hval2, hfa2⟩ :=
            orLeftLoopB g₀ rks hwf fuel rec hrecB rest gS st l r endS sa
              hfrS hstL (by omega) hendL (by omega) hne hl hr hmemrest hrnt
              hrk (by omega) hsa2
          set F := orLeftLoop rec gS st r endS rest with hFEq
          have hcorefull := orLoopCore_trans hfr.1 hst hend core1 core2
          have hFt : gS.trans.length ≤ F.trans.length := core2.1.2
          have htrF : ∀ j, j < g.trans.length → getTr F j = getTr g j := by
            intro j hj
            rw [core2.2.2.2.1 j (by omega), core1.2.2.2.1 j hj]
          have hstF : ∀ i, i < g₀.states.length → getSt F i = getSt g i := by
            intro i hi
            rw [core2.2.1 i hi, core1.2.1 i hi]
          have hntF : getTr F g.trans.length =
              ⟨(getTr g tr).test, st, endS⟩ := by
            rw [core2.2.2.2.1 _ (by omega), hnew1]
          have htrF2 : getTr F tr = getTr g tr := htrF tr htrlt
          have hrtrF : getTr F rtr = getTr g rtr := htrF rtr hrtrlt
          have hgrF : getSt F r = getSt g r := hstF r hr
          have htrsF : ∀ t ∈ (getSt g r).out, getTr F t = getTr g t := by
            intro t ht
            rw [hgr] at ht
            have := (wf_out hwf hr ht).1
            exact htrF t (by omega)
          have htwtF : transitionWithTest F r ((getTr g tr).test) =
              some rtr := by
            rw [twt_congr hgrF htrsF]
            exact hm
          have hdstrF : (getSt F ((getTr F rtr).dst)).out ≠ [] := by
            rw [hrtrF, hstF _ hdr]
            exact (isEmpty_false_iff _).mp hre
          have hdstlF : (getSt F ((getTr F tr).dst)).out = [] := by
            rw [htrF2, hstF _ hdl]
            exact (isEmpty_true_iff _).mp hle
          refine ⟨hcorefull, fun _ => ?_, g.trans.length :: news2, ?_, ?_,
            ?_⟩
          · obtain ⟨ex2, hex2, -⟩ := core2.2.2.2.2.2.1
            have h1 := congrArg List.length hins1
            have h2 := congrArg List.length hex2
            simp only [List.length_append, List.length_singleton] at h1 h2
            omega
          · rw [houts2, houts1, List.append_assoc]
            rfl
          · intro e he
            rcases List.mem_cons.mp he with he1 | he2
            · subst he1
              omega
            · exact hval2 e he2
          · refine List.Forall₂.cons ⟨?_, ?_, ?_⟩ hfa2
            · rw [hntF, htrF2]
            · intro hco
              rw [htrF2, htwtF] at hco
              exact Option.noConfusion hco
            · intro rtr2 hs2
              rw [htrF2, htwtF] at hs2
              injection hs2 with hrr
              subst hrr
              refine ⟨fun hterm => absurd hterm hdstrF, fun _ =>
                ⟨fun _ => ?_, fun hcon => absurd hdstlF hcon⟩⟩
              rw [hntF]
        | false =>
          rw [orLeftLoop_eqC rec g st r endS tr rest rtr hm hre hle]
          obtain ⟨core1, houts1, hnew1, houtc1, hs1, ht1⟩ :=
            orStepFresh g₀ g st endS ((getTr g tr).test) hst hstL hend
            hne.symm
          set gF := orFreshStep g st ((getTr g tr).test) with hgFEq
          have hc2 : (newState g).2 = g.states.length := rfl
          have hfrF : CopyFrame g₀.states.length g₀.trans.length g₀ gF :=
            copyFrame_of_core hfr core1
          have hnlne : (getSt g₀ ((getTr g tr).dst)).out ≠ [] := by
            rw [← hgnl]
            exact (isEmpty_false_iff _).mp hle
          have hnrne : (getSt g₀ ((getTr g rtr).dst)).out ≠ [] := by
            rw [← hgnr]
            exact (isEmpty_false_iff _).mp hre
          obtain ⟨coreR, growR, hOrb⟩ :=
            hrecB gF (newState g).2 ((getTr g tr).dst) ((getTr g rtr).dst)
              endS hfrF (by omega) (by omega) houtc1 hendL (by omega)
              (by omega) hdl hdr hnlne hnrne (by omega)
          set gR := rec gF (newState g).2 ((getTr g tr).dst)
            ((getTr g rtr).dst) endS with hgREq
          have core1R : OrLoopCore g₀ g st endS gR :=
            orLoopCore_trans2 hfr.1 hend (Or.inl (by omega)) core1 coreR
          have hfrR : CopyFrame g₀.states.length g₀.trans.length g₀ gR :=
            copyFrame_of_core hfr core1R
          obtain ⟨core2, grow2, news2, houts2, hval2, hfa2⟩ :=
            orLeftLoopB g₀ rks hwf fuel rec hrecB rest gR st l r endS sa
              hfrR hstL (by
                have := core1R.1.1
                omega) hendL (by
                have := core1R.1.1
                omega) hne hl hr hmemrest hrnt hrk (by
                have := core1R.1.1
                omega) hsa2
          set F := orLeftLoop rec gR st r endS rest with hFEq
          have hcorefull := orLoopCore_trans hfr.1 hst hend core1R core2
          have hgRt : gF.trans.length ≤ gR.trans.length := coreR.1.2
          have hgRs : gF.states.length ≤ gR.states.length := coreR.1.1
          have hFt : gR.trans.length ≤ F.trans.length := core2.1.2
          have hFs : gR.states.length ≤ F.states.length := core2.1.1
          have htrF : ∀ j, j < g.trans.length → getTr F j = getTr g j := by
            intro j hj
            rw [core2.2.2.2.1 j (by omega), core1R.2.2.2.1 j hj]
          have hstF : ∀ i, i < g₀.states.length →
              getSt F i = getSt g i := by
            intro i hi
            rw [core2.2.1 i hi, core1R.2.1 i hi]
          have hntF : getTr F g.trans.length =
              ⟨(getTr g tr).test, st, g.states.length⟩ := by
            rw [core2.2.2.2.1 _ (by omega), coreR.2.2.2.1 _ (by omega),
              hnew1]
          have htrF2 : getTr F tr = getTr g tr := htrF tr htrlt
          have hrtrF : getTr F rtr = getTr g rtr := htrF rtr hrtrlt
          have hgrF : getSt F r = getSt g r := hstF r hr
          have htrsF : ∀ t ∈ (getSt g r).out, getTr F t = getTr g t := by
            intro t ht
            rw [hgr] at ht
            have := (wf_out hwf hr ht).1
            exact htrF t (by omega)
          have htwtF : transitionWithTest F r ((getTr g tr).test) =
              some rtr := by
            rw [twt_congr hgrF htrsF]
            exact hm
          have hdstrF : (getSt F ((getTr F rtr).dst)).out ≠ [] := by
            rw [hrtrF, hstF _ hdr]
            exact (isEmpty_false_iff _).mp hre
          have hdstlF : (getSt F ((getTr F tr).dst)).out ≠ [] := by
            rw [htrF2, hstF _ hdl]
            exact (isEmpty_false_iff _).mp hle
          have hOrbR : OrBuiltN F endS g₀.states.length (newState g).2
              gR.states.length fuel (newState g).2 ((getTr g tr).dst)
              ((getTr g rtr).dst) := by
            refine orBuiltN_mono g₀ rks hwf gR F endS (newState g).2
              gR.states.length hfrR core2.2.1 ?_ core2.2.2.2.1 core2.1.2
              fuel _ _ _ hOrb
            intro i hi1 hi2
            exact core2.2.2.1 i hi2 (by omega)
          have hle1 : sa ≤ (newState g).2 := by omega
          have hOrbF : OrBuiltN F endS g₀.states.length sa F.states.length
              fuel (newState g).2 ((getTr g tr).dst)
              ((getTr g rtr).dst) :=
            orBuiltN_widen F endS g₀.states.length hle1 hFs fuel _ _ _ hOrbR
          refine ⟨hcorefull, fun _ => ?_, g.trans.length :: news2, ?_, ?_,
            ?_⟩
          · obtain ⟨ex1, hex1, -⟩ := core1.2.2.2.2.2.1
            obtain ⟨ex2, hex2, -⟩ := core2.2.2.2.2.2.1
            have h1 := congrArg List.length hex1
            have h2 := congrArg List.length hex2
            simp only [List.length_append] at h1 h2
            omega
          · rw [houts2]
            rw [coreR.2.2.1 st (by omega) (by omega), houts1,
              List.append_assoc]
            rfl
          · intro e he
            rcases List.mem_cons.mp he with he1 | he2
            · subst he1
              omega
            · exact hval2 e he2
          · refine List.Forall₂.cons ⟨?_, ?_, ?_⟩ hfa2
            · rw [hntF, htrF2]
            · intro hco
              rw [htrF2, htwtF] at hco
              exact Option.noConfusion hco
            · intro rtr2 hs2
              rw [htrF2, htwtF] at hs2
              injection hs2 with hrr
              subst hrr
              refine ⟨fun hterm => absurd hterm hdstrF, fun _ =>
                ⟨fun hterm2 => absurd hterm2 hdstlF, fun _ => ?_⟩⟩
              rw [hntF, htrF2, hrtrF]
              exact hOrbF
    | none =>
      cases hle : ((getSt g ((getTr g tr).dst)).out).isEmpty with
      | true =>
        rw [orLeftLoop_eqD rec g st r endS tr rest hm hle]
        obtain ⟨core1, houts1, hnew1, hs1, ht1, hins1⟩ :=
          orStepEnd g₀ g st endS ((getTr g tr).test) hst hstL hend hendL
            hne.symm
        set gS := orEndStep g st endS ((getTr g tr).test) with hgSEq
        have hfrS : CopyFrame g₀.states.length g₀.trans.length g₀ gS :=
          copyFrame_of_core hfr core1
        obtain ⟨core2, grow2, news2, houts2, hval2, hfa2⟩ :=
          orLeftLoopB g₀ rks hwf fuel rec hrecB rest gS st l r endS sa
            hfrS hstL (by omega) hendL (by omega) hne hl hr hmemrest hrnt
            hrk (by omega) hsa2
        set F := orLeftLoop rec gS st r endS rest with hFEq
        have hcorefull := orLoopCore_trans hfr.1 hst hend core1 core2
        have hFt : gS.trans.length ≤ F.trans.length := core2.1.2
        have htrF : ∀ j, j < g.trans.length → getTr F j = getTr g j := by
          intro j hj
          rw [core2.2.2.2.1 j (by omega), core1.2.2.2.1 j hj]
        have hstF : ∀ i, i < g₀.states.length → getSt F i = getSt g i := by
          intro i hi
          rw [core2.2.1 i hi, core1.2.1 i hi]
        have hntF : getTr F g.trans.length =
            ⟨(getTr g tr).test, st, endS⟩ := by
          rw [core2.2.2.2.1 _ (by omega), hnew1]
        have htrF2 : getTr F tr = getTr g tr := htrF tr htrlt
        have hgrF : getSt F r = getSt g r := hstF r hr
        have htrsF : ∀ t ∈ (getSt g r).out, getTr F t = getTr g t := by
          intro t ht
          rw [hgr] at ht
          have := (wf_out hwf hr ht).1
          exact htrF t (by omega)
        have htwtF : transitionWithTest F r ((getTr g tr).test) = none := by
          rw [twt_congr hgrF htrsF]
          exact hm
        have hdstlF : (getSt F ((getTr F tr).dst)).out = [] := by
          rw [htrF2, hstF _ hdl]
          exact (isEmpty_true_iff _).mp hle
        refine ⟨hcorefull, fun _ => ?_, g.trans.length :: news2, ?_, ?_, ?_⟩
        · obtain ⟨ex2, hex2, -⟩ := core2.2.2.2.2.2.1
          have h1 := congrArg List.length hins1
          have h2 := congrArg List.length hex2
          simp only [List.length_append, List.length_singleton] at h1 h2
          omega
        · rw [houts2, houts1, List.append_assoc]
          rfl
        · intro e he
          rcases List.mem_cons.mp he with he1 | he2
          · subst he1
            omega
          · exact hval2 e he2
        · refine List.Forall₂.cons ⟨?_, fun _ =>
            ⟨fun _ => ?_, fun hcon => absurd hdstlF hcon⟩, ?_⟩ hfa2
          · rw [hntF, htrF2]
          · rw [hntF]
          · intro rtr2 hs2
            rw [htrF2, htwtF] at hs2
            exact Option.noConfusion hs2
      | false =>
        rw [orLeftLoop_eqE rec g st r endS tr rest hm hle]
        obtain ⟨core1, houts1, hnew1, houtc1, hs1, ht1⟩ :=
          orStepFresh g₀ g st endS ((getTr g tr).test) hst hstL hend
            hne.symm
        set gF := orFreshStep g st ((getTr g tr).test) with hgFEq
        have hc2 : (newState g).2 = g.states.length := rfl
        have hfrF : CopyFrame g₀.states.length g₀.trans.length g₀ gF :=
          copyFrame_of_core hfr core1
        have hnlne : (getSt g₀ ((getTr g tr).dst)).out ≠ [] := by
          rw [← hgnl]
          exact (isEmpty_false_iff _).mp hle
        obtain ⟨coreR, growR, hOrb⟩ :=
          hrecB gF (newState g).2 ((getTr g tr).dst) r endS hfrF (by omega)
            (by omega) houtc1 hendL (by omega) (by omega) hdl hr hnlne hrnt
            (by omega)
        set gR := rec gF (newState g).2 ((getTr g tr).dst) r endS with hgREq
        have core1R : OrLoopCore g₀ g st endS gR :=
          orLoopCore_trans2 hfr.1 hend (Or.inl (by omega)) core1 coreR
        have hfrR : CopyFrame g₀.states.length g₀.trans.length g₀ gR :=
          copyFrame_of_core hfr core1R
        obtain ⟨core2, grow2, news2, houts2, hval2, hfa2⟩ :=
          orLeftLoopB g₀ rks hwf fuel rec hrecB rest gR st l r endS sa
            hfrR hstL (by
              have := core1R.1.1
              omega) hendL (by
              have := core1R.1.1
              omega) hne hl hr hmemrest hrnt hrk (by
              have := core1R.1.1
              omega) hsa2
        set F := orLeftLoop rec gR st r endS rest with hFEq
        have hcorefull := orLoopCore_trans hfr.1 hst hend core1R core2
        have hgRt : gF.trans.length ≤ gR.trans.length := coreR.1.2
        have hgRs : gF.states.length ≤ gR.states.length := coreR.1.1
        have hFt : gR.trans.length ≤ F.trans.length := core2.1.2
        have hFs : gR.states.length ≤ F.states.length := core2.1.1
        have htrF : ∀ j, j < g.trans.length → getTr F j = getTr g j := by
          intro j hj
          rw [core2.2.2.2.1 j (by omega), core1R.2.2.2.1 j hj]
        have hstF : ∀ i, i < g₀.states.length → getSt F i = getSt g i := by
          intro i hi
          rw [core2.2.1 i hi, core1R.2.1 i hi]
        have hntF : getTr F g.trans.length =
            ⟨(getTr g tr).test, st, g.states.length⟩ := by
          rw [core2.2.2.2.1 _ (by omega), coreR.2.2.2.1 _ (by omega), hnew1]
        have htrF2 : getTr F tr = getTr g tr := htrF tr htrlt
        have hgrF : getSt F r = getSt g r := hstF r hr
        have htrsF : ∀ t ∈ (getSt g r).out, getTr F t = getTr g t := by
          intro t ht
          rw [hgr] at ht
          have := (wf_out hwf hr ht).1
          exact htrF t (by omega)
        have htwtF : transitionWithTest F r ((getTr g tr).test) = none := by
          rw [twt_congr hgrF htrsF]
          exact hm
        have hdstlF : (getSt F ((getTr F tr).dst)).out ≠ [] := by
          rw [htrF2, hstF _ hdl]
          exact (isEmpty_false_iff _).mp hle
        have hOrbR : OrBuiltN F endS g₀.states.length (newState g).2
            gR.states.length fuel (newState g).2 ((getTr g tr).dst) r := by
          refine orBuiltN_mono g₀ rks hwf gR F endS (newState g).2
            gR.states.length hfrR core2.2.1 ?_ core2.2.2.2.1 core2.1.2
            fuel _ _ _ hOrb
          intro i hi1 hi2
          exact core2.2.2.1 i hi2 (by omega)
        have hle1 : sa ≤ (newState g).2 := by omega
        have hOrbF : OrBuiltN F endS g₀.states.length sa F.states.length
            fuel (newState g).2 ((getTr g tr).dst) r :=
          orBuiltN_widen F endS g₀.states.length hle1 hFs fuel _ _ _ hOrbR
        refine ⟨hcorefull, fun _ => ?_, g.trans.length :: news2, ?_, ?_, ?_⟩
        · obtain ⟨ex1, hex1, -⟩ := core1.2.2.2.2.2.1
          obtain ⟨ex2, hex2, -⟩ := core2.2.2.2.2.2.1
          have h1 := congrArg List.length hex1
          have h2 := congrArg List.length hex2
          simp only [List.length_append] at h1 h2
          omega
        · rw [houts2]
          rw [coreR.2.2.1 st (by omega) (by omega), houts1,
            List.append_assoc]
          rfl
        · intro e he
          rcases List.mem_cons.mp he with he1 | he2
          · subst he1
            omega
          · exact hval2 e he2
        · refine List.Forall₂.cons ⟨?_, fun _ =>
            ⟨fun hterm2 => absurd hterm2 hdstlF, fun _ => ?_⟩, ?_⟩ hfa2
          · rw [hntF, htrF2]
          · rw [hntF, htrF2]
            exact hOrbF
          · intro rtr2 hs2
            rw [htrF2, htwtF] at hs2
            exact Option.noConfusion hs2

/-- The right pass of `addOrStates`: tests already handled by the left
pass are skipped; each remaining right outbound transition yields one
edge satisfying `RightEdgeOk`. -/
theorem orRightLoopB (g₀ : Graph) (rks : List Nat) (hwf : wfB g₀ rks = true)
    (fuel : Nat) (rec : Graph → Nat → Nat → Nat → Nat → Graph)
    (hrecB : ∀ (g : Graph) (st l r endS : Nat),
      CopyFrame g₀.states.length g₀.trans.length g₀ g →
      g₀.states.length ≤ st → st < g.states.length →
      (getSt g st).out = [] →
      g₀.states.length ≤ endS → endS < g.states.length → endS ≠ st →
      l < g₀.states.length → r < g₀.states.length →
      (getSt g₀ l).out ≠ [] → (getSt g₀ r).out ≠ [] →
      rkOf rks l + rkOf rks r < fuel →
      OrLoopCore g₀ g st endS (rec g st l r endS) ∧
      (getSt g endS).ins.length <
        (getSt (rec g st l r endS) endS).ins.length ∧
      OrBuiltN (rec g st l r endS) endS g₀.states.length st
        (rec g st l r endS).states.length fuel st l r) :
    ∀ (routs : List Nat) (g : Graph) (st l r endS sa : Nat),
      CopyFrame g₀.states.length g₀.trans.length g₀ g →
      g₀.states.length ≤ st → st < g.states.length →
      g₀.states.length ≤ endS → endS < g.states.length → endS ≠ st →
      l < g₀.states.length → r < g₀.states.length →
      (∀ tro ∈ routs, tro ∈ (getSt g₀ r).out) →
      (getSt g₀ l).out ≠ [] →
      rkOf rks l + rkOf rks r ≤ fuel →
      sa ≤ g.states.length → st < sa →
      OrLoopCore g₀ g st endS (orRightLoop rec g st l endS routs) ∧
      ∃ news,
        (getSt (orRightLoop rec g st l endS routs) st).out =
          (getSt g st).out ++ news ∧
        (∀ e ∈ news, e < (orRightLoop rec g st l endS routs).trans.length) ∧
        List.Forall₂ (RightEdgeOk (orRightLoop rec g st l endS routs) endS l
          (OrBuiltN (orRightLoop rec g st l endS routs) endS
            g₀.states.length sa
            (orRightLoop rec g st l endS routs).states.length fuel))
          news
          (routs.filter (fun tro => !(hasTest
            (orRightLoop rec g st l endS routs) l
            ((getTr (orRightLoop rec g st l endS routs) tro).test))))
  | [], g, st, l, r, endS, sa, hfr, hstL, hst, hendL, hend, hne, hl, hr,
      hmem, hlnt, hrk, hsa1, hsa2 =>
    ⟨orLoopCore_rfl g₀ g st endS,
     [], (List.append_nil _).symm, fun e he => absurd he (by simp),
     by
      rw [List.filter_nil]
      exact List.Forall₂.nil⟩
  | tr :: rest, g, st, l, r, endS, sa, hfr, hstL, hst, hendL, hend, hne, hl,
      hr, hmem, hlnt, hrk, hsa1, hsa2 => by
    have htro := hmem tr (List.mem_cons_self tr rest)
    obtain ⟨htrT, hdl0, hrkl0⟩ := wf_out hwf hr htro
    have hTg : g₀.trans.length ≤ g.trans.length := hfr.2.1
    have hLg : g₀.states.length ≤ g.states.length := hfr.1
    have htrg : getTr g tr = getTr g₀ tr := hfr.2.2.2 tr htrT
    have hdl : (getTr g tr).dst < g₀.states.length := by
      rw [htrg]
      exact hdl0
    have hrkl : rkOf rks ((getTr g tr).dst) < rkOf rks r := by
      rw [htrg]
      exact hrkl0
    have hgl : getSt g l = getSt g₀ l := hfr.2.2.1 l hl
    have hgnl : getSt g ((getTr g tr).dst) = getSt g₀ ((getTr g tr).dst) :=
      hfr.2.2.1 _ hdl
    have htrlt : tr < g.trans.length := by omega
    have hmemrest : ∀ tro ∈ rest, tro ∈ (getSt g₀ r).out :=
      fun tro h => hmem tro (List.mem_cons_of_mem tr h)
    cases hh : hasTest g l ((getTr g tr).test) with
    | true =>
      rw [orRightLoop_eqSkip rec g st l endS tr rest hh]
      obtain ⟨core2, news2, houts2, hval2, hfa2⟩ :=
        orRightLoopB g₀ rks hwf fuel rec hrecB rest g st l r endS sa hfr
          hstL hst hendL hend hne hl hr hmemrest hlnt hrk hsa1 hsa2
      set F := orRightLoop rec g st l endS rest with hFEq
      have htrF : ∀ j, j < g.trans.length → getTr F j = getTr g j :=
        core2.2.2.2.1
      have hstF : ∀ i, i < g₀.states.length → getSt F i = getSt g i :=
        core2.2.1
      have htrF2 : getTr F tr = getTr g tr := htrF tr htrlt
      have hglF : getSt F l = getSt g l := hstF l hl
      have htlsF : ∀ t ∈ (getSt g l).out, getTr F t = getTr g t := by
        intro t ht
        rw [hgl] at ht
        have := (wf_out hwf hl ht).1
        exact htrF t (by omega)
      have hhF : hasTest F l ((getTr F tr).test) = true := by
        rw [htrF2, hasTest_congr hglF htlsF]
        exact hh
      refine ⟨core2, news2, houts2, hval2, ?_⟩
      rw [List.filter_cons]
      simp only [hhF, Bool.not_true, Bool.false_eq_true, if_false]
      exact hfa2
    | false =>
      cases hle : ((getSt g ((getTr g tr).dst)).out).isEmpty with
      | true =>
        rw [orRightLoop_eqEnd rec g st l endS tr rest hh hle]
        obtain ⟨core1, houts1, hnew1, hs1, ht1, hins1⟩ :=
          orStepEnd g₀ g st endS ((getTr g tr).test) hst hstL hend hendL
            hne.symm
        set gS := orEndStep g st endS ((getTr g tr).test) with hgSEq
        have hfrS : CopyFrame g₀.states.length g₀.trans.length g₀ gS :=
          copyFrame_of_core hfr core1
        obtain ⟨core2, news2, houts2, hval2, hfa2⟩ :=
          orRightLoopB g₀ rks hwf fuel rec hrecB rest gS st l r endS sa
            hfrS hstL (by omega) hendL (by omega) hne hl hr hmemrest hlnt
            hrk (by omega) hsa2
        set F := orRightLoop rec gS st l endS rest with hFEq
        have hcorefull := orLoopCore_trans hfr.1 hst hend core1 core2
        have hFt : gS.trans.length ≤ F.trans.length := core2.1.2
        have htrF : ∀ j, j < g.trans.length → getTr F j = getTr g j := by
          intro j hj
          rw [core2.2.2.2.1 j (by omega), core1.2.2.2.1 j hj]
        have hstF : ∀ i, i < g₀.states.length → getSt F i = getSt g i := by
          intro i hi
          rw [core2.2.1 i hi, core1.2.1 i hi]
        have hntF : getTr F g.trans.length =
            ⟨(getTr g tr).test, st, endS⟩ := by
          rw [core2.2.2.2.1 _ (by omega), hnew1]
        have htrF2 : getTr F tr = getTr g tr := htrF tr htrlt
        have hglF : getSt F l = getSt g l := hstF l hl
        have htlsF : ∀ t ∈ (getSt g l).out, getTr F t = getTr g t := by
          intro t ht
          rw [hgl] at ht
          have := (wf_out hwf hl ht).1
          exact htrF t (by omega)
        have hhF : hasTest F l ((getTr F tr).test) = false := by
          rw [htrF2, hasTest_congr hglF htlsF]
          exact hh
        have hdstlF : (getSt F ((getTr F tr).dst)).out = [] := by
          rw [htrF2, hstF _ hdl]
          exact (isEmpty_true_iff _).mp hle
        refine ⟨hcorefull, g.trans.length :: news2, ?_, ?_, ?_⟩
        · rw [houts2, houts1, List.append_assoc]
          rfl
        · intro e he
          rcases List.mem_cons.mp he with he1 | he2
          · subst he1
            omega
          · exact hval2 e he2
        · rw [List.filter_cons]
          simp only [hhF, Bool.not_false, if_true]
          refine List.Forall₂.cons ⟨?_, fun _ => ?_,
            fun hcon => absurd hdstlF hcon⟩ hfa2
          · rw [hntF, htrF2]
          · rw [hntF]
      | false =>
        rw [orRightLoop_eqFresh rec g st l endS tr rest hh hle]
        obtain ⟨core1, houts1, hnew1, houtc1, hs1, ht1⟩ :=
          orStepFresh g₀ g st endS ((getTr g tr).test) hst hstL hend
            hne.symm
        set gF := orFreshStep g st ((getTr g tr).test) with hgFEq
        have hc2 : (newState g).2 = g.states.length := rfl
        have hfrF : CopyFrame g₀.states.length g₀.trans.length g₀ gF :=
          copyFrame_of_core hfr core1
        have hnrne : (getSt g₀ ((getTr g tr).dst)).out ≠ [] := by
          rw [← hgnl]
          exact (isEmpty_false_iff _).mp hle
        obtain ⟨coreR, growR, hOrb⟩ :=
          hrecB gF (newState g).2 l ((getTr g tr).dst) endS hfrF (by omega)
            (by omega) houtc1 hendL (by omega) (by omega) hl hdl hlnt hnrne
            (by omega)
        set gR := rec gF (newState g).2 l ((getTr g tr).dst) endS with hgREq
        have core1R : OrLoopCore g₀ g st endS gR :=
          orLoopCore_trans2 hfr.1 hend (Or.inl (by omega)) core1 coreR
        have hfrR : CopyFrame g₀.states.length g₀.trans.length g₀ gR :=
          copyFrame_of_core hfr core1R
        obtain ⟨core2, news2, houts2, hval2, hfa2⟩ :=
          orRightLoopB g₀ rks hwf fuel rec hrecB rest gR st l r endS sa
            hfrR hstL (by
              have := core1R.1.1
              omega) hendL (by
              have := core1R.1.1
              omega) hne hl hr hmemrest hlnt hrk (by
              have := core1R.1.1
              omega) hsa2
        set F := orRightLoop rec gR st l endS rest with hFEq
        have hcorefull := orLoopCore_trans hfr.1 hst hend core1R core2
        have hgRt : gF.trans.length ≤ gR.trans.length := coreR.1.2
        have hgRs : gF.states.length ≤ gR.states.length := coreR.1.1
        have hFt : gR.trans.length ≤ F.trans.length := core2.1.2
        have hFs : gR.states.length ≤ F.states.length := core2.1.1
        have htrF : ∀ j, j < g.trans.length → getTr F j = getTr g j := by
          intro j hj
          rw [core2.2.2.2.1 j (by omega), core1R.2.2.2.1 j hj]
        have hstF : ∀ i, i < g₀.states.length → getSt F i = getSt g i := by
          intro i hi
          rw [core2.2.1 i hi, core1R.2.1 i hi]
        have hntF : getTr F g.trans.length =
            ⟨(getTr g tr).test, st, g.states.length⟩ := by
          rw [core2.2.2.2.1 _ (by omega), coreR.2.2.2.1 _ (by omega), hnew1]
        have htrF2 : getTr F tr = getTr g tr := htrF tr htrlt
        have hglF : getSt F l = getSt g l := hstF l hl
        have htlsF : ∀ t ∈ (getSt g l).out, getTr F t = getTr g t := by
          intro t ht
          rw [hgl] at ht
          have := (wf_out hwf hl ht).1
          exact htrF t (by omega)
        have hhF : hasTest F l ((getTr F tr).test) = false := by
          rw [htrF2, hasTest_congr hglF htlsF]
          exact hh
        have hdstlF : (getSt F ((getTr F tr).dst)).out ≠ [] := by
          rw [htrF2, hstF _ hdl]
          exact (isEmpty_false_iff _).mp hle
        have hOrbR : OrBuiltN F endS g₀.states.length (newState g).2
            gR.states.length fuel (newState g).2 l ((getTr g tr).dst) := by
          refine orBuiltN_mono g₀ rks hwf gR F endS (newState g).2
            gR.states.length hfrR core2.2.1 ?_ core2.2.2.2.1 core2.1.2
            fuel _ _ _ hOrb
          intro i hi1 hi2
          exact core2.2.2.1 i hi2 (by omega)
        have hle1 : sa ≤ (newState g).2 := by omega
        have hOrbF : OrBuiltN F endS g₀.states.length sa F.states.length
            fuel (newState g).2 l ((getTr g tr).dst) :=
          orBuiltN_widen F endS g₀.states.length hle1 hFs fuel _ _ _ hOrbR
        refine ⟨hcorefull, g.trans.length :: news2, ?_, ?_, ?_⟩
        · rw [houts2]
          rw [coreR.2.2.1 st (by omega) (by omega), houts1,
            List.append_assoc]
          rfl
        · intro e he
          rcases List.mem_cons.mp he with he1 | he2
          · subst he1
            omega
          · exact hval2 e he2
        · rw [List.filter_cons]
          simp only [hhF, Bool.not_false, if_true]
          refine List.Forall₂.cons ⟨?_,
            fun hterm => absurd hterm hdstlF, fun _ => ?_⟩ hfa2
          · rw [hntF, htrF2]
          · rw [hntF, htrF2]
            exact hOrbF

/-- The compiler lemma for the OR construction: with adequate fuel
(anything above the sum of the operands' ranks), `addOrStates` maintains
the core frame invariants, feeds at least one inbound transition to the
end state, and leaves the build target satisfying the OR shape. -/
theorem addOrStatesB (g₀ : Graph) (rks : List Nat)
    (hwf : wfB g₀ rks = true) :
    ∀ (fuel : Nat) (g : Graph) (st l r endS : Nat),
      CopyFrame g₀.states.length g₀.trans.length g₀ g →
      g₀.states.length ≤ st → st < g.states.length →
      (getSt g st).out = [] →
      g₀.states.length ≤ endS → endS < g.states.length → endS ≠ st →
      l < g₀.states.length → r < g₀.states.length →
      (getSt g₀ l).out ≠ [] → (getSt g₀ r).out ≠ [] →
      rkOf rks l + rkOf rks r < fuel →
      OrLoopCore g₀ g st endS (addOrStates g st l r endS fuel) ∧
      (getSt g endS).ins.length <
        (getSt (addOrStates g st l r endS fuel) endS).ins.length ∧
      OrBuiltN (addOrStates g st l r endS fuel) endS g₀.states.length st
        (addOrStates g st l r endS fuel).states.length fuel st l r
  | 0, g, st, l, r, endS, _, _, _, _, _, _, _, _, _, _, _, hrk =>
    absurd hrk (by omega)
  | fuel + 1, g, st, l, r, endS, hfr, hstL, hst, hout0, hendL, hend, hne,
      hl, hr, hlnt, hrnt, hrk => by
    rw [addOrStates]
    have hrecB : ∀ (g2 : Graph) (st2 l2 r2 e2 : Nat),
        CopyFrame g₀.states.length g₀.trans.length g₀ g2 →
        g₀.states.length ≤ st2 → st2 < g2.states.length →
        (getSt g2 st2).out = [] →
        g₀.states.length ≤ e2 → e2 < g2.states.length → e2 ≠ st2 →
        l2 < g₀.states.length → r2 < g₀.states.length →
        (getSt g₀ l2).out ≠ [] → (getSt g₀ r2).out ≠ [] →
        rkOf rks l2 + rkOf rks r2 < fuel →
        OrLoopCore g₀ g2 st2 e2
          (addOrStates g2 st2 l2 r2 e2 fuel) ∧
        (getSt g2 e2).ins.length <
          (getSt (addOrStates g2 st2 l2 r2 e2 fuel) e2).ins.length ∧
        OrBuiltN (addOrStates g2 st2 l2 r2 e2 fuel) e2 g₀.states.length
          st2 (addOrStates g2 st2 l2 r2 e2 fuel).states.length fuel
          st2 l2 r2 :=
      fun g2 st2 l2 r2 e2 h1 h2 h3 h4 h5 h6 h7 h8 h9 h10 h11 h12 =>
        addOrStatesB g₀ rks hwf fuel g2 st2 l2 r2 e2 h1 h2 h3 h4 h5 h6 h7
          h8 h9 h10 h11 h12
    have hgl : getSt g l = getSt g₀ l := hfr.2.2.1 l hl
    have hgr : getSt g r = getSt g₀ r := hfr.2.2.1 r hr
    have hmemL : ∀ tro ∈ (getSt g l).out, tro ∈ (getSt g₀ l).out := by
      intro tro h
      rw [hgl] at h
      exact h
    obtain ⟨coreL, growL0, newsL, houtsL, hvalL, hfaL⟩ :=
      orLeftLoopB g₀ rks hwf fuel _ hrecB ((getSt g l).out) g st l r endS
        (st + 1) hfr hstL hst hendL hend hne hl hr hmemL hrnt (by omega)
        (by omega) (by omega)
    have growL : (getSt g endS).ins.length <
        (getSt (orLeftLoop (fun g2 st a b e => addOrStates g2 st a b e fuel)
          g st r endS ((getSt g l).out)) endS).ins.length := by
      refine growL0 ?_
      rw [hgl]
      exact hlnt
    set g1 := orLeftLoop (fun g2 st a b e => addOrStates g2 st a b e fuel)
      g st r endS ((getSt g l).out) with hg1Eq
    have hfr1 : CopyFrame g₀.states.length g₀.trans.length g₀ g1 :=
      copyFrame_of_core hfr coreL
    have hg1s : g.states.length ≤ g1.states.length := coreL.1.1
    have hg1t : g.trans.length ≤ g1.trans.length := coreL.1.2
    have hg1r : getSt g1 r = getSt g₀ r := by
      rw [coreL.2.1 r hr, hgr]
    have hmemR : ∀ tro ∈ (getSt g1 r).out, tro ∈ (getSt g₀ r).out := by
      intro tro h
      rw [hg1r] at h
      exact h
    obtain ⟨coreR2, newsR, houtsR, hvalR, hfaR⟩ :=
      orRightLoopB g₀ rks hwf fuel _ hrecB ((getSt g1 r).out) g1 st l r
        endS (st + 1) hfr1 hstL (by omega) hendL (by omega) hne hl hr
        hmemR hlnt (by omega) (by omega) (by omega)
    set F := orRightLoop (fun g2 st a b e => addOrStates g2 st a b e fuel)
      g1 st l endS ((getSt g1 r).out) with hFEq
    have hFs : g1.states.length ≤ F.states.length := coreR2.1.1
    have hFt : g1.trans.length ≤ F.trans.length := coreR2.1.2
    have hcorefull := orLoopCore_trans hfr.1 hst hend coreL coreR2
    have hFl : getSt F l = getSt g l := by
      rw [coreR2.2.1 l hl, coreL.2.1 l hl]
    have hFr : getSt F r = getSt g1 r := coreR2.2.1 r hr
    have htrsFr : ∀ t ∈ (getSt g1 r).out, getTr F t = getTr g1 t := by
      intro t ht
      rw [hg1r] at ht
      have := (wf_out hwf hr ht).1
      have := hfr1.2.1
      exact coreR2.2.2.2.1 t (by omega)
    have hKtrans : ∀ c nl nr,
        OrBuiltN g1 endS g₀.states.length (st + 1) g1.states.length fuel
          c nl nr →
        OrBuiltN F endS g₀.states.length st F.states.length fuel
          c nl nr := by
      intro c nl nr h
      have hmono : OrBuiltN F endS g₀.states.length (st + 1)
          g1.states.length fuel c nl nr := by
        refine orBuiltN_mono g₀ rks hwf g1 F endS (st + 1) g1.states.length
          hfr1 coreR2.2.1 ?_ coreR2.2.2.2.1 coreR2.1.2 fuel _ _ _ h
        intro i hi1 hi2
        exact coreR2.2.2.1 i hi2 (by omega)
      exact orBuiltN_widen F endS g₀.states.length (by omega) (by omega)
        fuel _ _ _ hmono
    have hKwiden : ∀ c nl nr,
        OrBuiltN F endS g₀.states.length (st + 1) F.states.length fuel
          c nl nr →
        OrBuiltN F endS g₀.states.length st F.states.length fuel
          c nl nr := by
      intro c nl nr h
      exact orBuiltN_widen F endS g₀.states.length (by omega)
        (Nat.le_refl _) fuel _ _ _ h
    refine ⟨hcorefull, ?_, ?_⟩
    · obtain ⟨ex2, hex2, -⟩ := coreR2.2.2.2.2.2.1
      have h2 := congrArg List.length hex2
      simp only [List.length_append] at h2
      omega
    · rw [OrBuiltN]
      refine ⟨Nat.le_refl st, by omega, hl, hr, ?_, ?_, ?_, newsL, newsR,
        ?_, ?_, ?_⟩
      · rw [hFl, hgl]
        exact hlnt
      · rw [hFr, hg1r]
        exact hrnt
      · intro e he
        have hsplit : (getSt F st).out = newsL ++ newsR := by
          rw [houtsR, houtsL, hout0, List.nil_append]
        rw [hsplit] at he
        rcases List.mem_append.mp he with h | h
        · have := hvalL e h
          omega
        · exact hvalR e h
      · rw [houtsR, houtsL, hout0, List.nil_append]
      · rw [hFl]
        refine forall₂_imp_mem hfaL ?_
        intro e tro he htro hE
        have hetr : getTr F e = getTr g1 e :=
          coreR2.2.2.2.1 e (hvalL e he)
        have htromem : tro ∈ (getSt g₀ l).out := hmemL tro htro
        obtain ⟨htroT, hdll, -⟩ := wf_out hwf hl htromem
        have htro2 : getTr F tro = getTr g1 tro := by
          have := hfr1.2.1
          exact coreR2.2.2.2.1 tro (by omega)
        have hg1tro : getTr g1 tro = getTr g₀ tro := hfr1.2.2.2 tro htroT
        have hdsto : getSt F ((getTr g1 tro).dst) =
            getSt g1 ((getTr g1 tro).dst) := by
          refine coreR2.2.1 _ ?_
          rw [hg1tro]
          exact hdll
        have htwt : transitionWithTest F r ((getTr g1 tro).test) =
            transitionWithTest g1 r ((getTr g1 tro).test) :=
          twt_congr hFr htrsFr _
        have hrtrpack : ∀ rtr,
            transitionWithTest g1 r ((getTr g1 tro).test) = some rtr →
            getTr F rtr = getTr g1 rtr ∧
            getSt F ((getTr g1 rtr).dst) = getSt g1 ((getTr g1 rtr).dst) := by
          intro rtr hfound
          have hmemr : rtr ∈ (getSt g1 r).out := twt_mem hfound
          have hmemr0 : rtr ∈ (getSt g₀ r).out := by
            rw [hg1r] at hmemr
            exact hmemr
          obtain ⟨hrtrT, hdrr, -⟩ := wf_out hwf hr hmemr0
          have hg1rtr : getTr g1 rtr = getTr g₀ rtr := hfr1.2.2.2 rtr hrtrT
          refine ⟨htrsFr rtr hmemr, ?_⟩
          refine coreR2.2.1 _ ?_
          rw [hg1rtr]
          exact hdrr
        exact leftEdgeOk_transfer hetr htro2 hdsto htwt hrtrpack hKtrans hE
      · rw [hFr]
        refine forall₂_imp_mem hfaR ?_
        intro e tro he htro hE
        exact rightEdgeOk_transfer rfl rfl rfl hKwiden hE

/-! ## From the OR shape to acceptance: root resolution and run lemmas -/

/-- A state with no inbound transitions is its own root at any fuel. -/
theorem rootFuel_of_nil (g : Graph) (s : Nat) (h : (getSt g s).ins = []) :
    ∀ fuel, rootFuel g fuel s = s
  | 0 => rfl
  | fuel + 1 => by
    rw [rootFuel, h]

/-- Once the walk has terminated, more fuel does not change the root. -/
theorem rootFuel_stable (g : Graph) :
    ∀ (fuel fuel2 s : Nat), (getSt g (rootFuel g fuel s)).ins = [] →
      fuel ≤ fuel2 → rootFuel g fuel2 s = rootFuel g fuel s
  | 0, fuel2, s, h, _ => by
    have h0 : rootFuel g 0 s = s := rfl
    rw [h0] at h ⊢
    exact rootFuel_of_nil g s h fuel2
  | fuel + 1, fuel2, s, h, hle => by
    cases hins : (getSt g s).ins with
    | nil =>
      rw [rootFuel_of_nil g s hins fuel2, rootFuel_of_nil g s hins (fuel + 1)]
    | cons tr rest =>
      have hstep : rootFuel g (fuel + 1) s
          = rootFuel g fuel ((getTr g tr).src) := by
        rw [rootFuel, hins]
      obtain ⟨f2, rfl⟩ : ∃ f2, fuel2 = f2 + 1 := ⟨fuel2 - 1, by omega⟩
      have hstep2 : rootFuel g (f2 + 1) s
          = rootFuel g f2 ((getTr g tr).src) := by
        rw [rootFuel, hins]
      rw [hstep2, hstep]
      rw [hstep] at h
      exact rootFuel_stable g fuel f2 _ h (by omega)

/-- The backward root walk from an original state is unchanged in any
extension that preserves the original states and transitions. -/
theorem rootFuel_frame (g g2 : Graph) (rks : List Nat)
    (hwf : wfB g rks = true)
    (hL : ∀ i, i < g.states.length → getSt g2 i = getSt g i)
    (hT : ∀ j, j < g.trans.length → getTr g2 j = getTr g j) :
    ∀ (fuel s : Nat), s < g.states.length →
      rootFuel g2 fuel s = rootFuel g fuel s
  | 0, s, _ => rfl
  | fuel + 1, s, hs => by
    cases hins : (getSt g s).ins with
    | nil =>
      rw [rootFuel_of_nil g2 s (by rw [hL s hs]; exact hins) (fuel + 1),
        rootFuel_of_nil g s hins (fuel + 1)]
    | cons tr rest =>
      obtain ⟨htr, hsrc, -⟩ :=
        wf_ins hwf hs (hins ▸ List.mem_cons_self tr rest)
      have h1 : rootFuel g2 (fuel + 1) s
          = rootFuel g2 fuel ((getTr g2 tr).src) := by
        rw [rootFuel, hL s hs, hins]
      have h2 : rootFuel g (fuel + 1) s
          = rootFuel g fuel ((getTr g tr).src) := by
        rw [rootFuel, hins]
      rw [h1, h2, hT tr htr]
      exact rootFuel_frame g g2 rks hwf hL hT fuel _ hsrc

/-- A scan over transitions none of which fires is a no-op. -/
theorem advanceScan_none (sem : Sem) (g : Graph) (s : Nat)
    (data : EventData) :
    ∀ (outs : List Nat), (∀ tr ∈ outs, sem (getTr g tr).test data = false) →
      advanceScan sem g s data outs = (s, [])
  | [], _ => rfl
  | tr :: rest, h => by
    rw [advanceScan, h tr (List.mem_cons_self tr rest)]
    simp only [Bool.false_eq_true, if_false]
    exact advanceScan_none sem g s data rest
      (fun t ht => h t (List.mem_cons_of_mem tr ht))

/-- A scan skips over a non-firing prefix. -/
theorem advanceScan_append_none (sem : Sem) (g : Graph) (s : Nat)
    (data : EventData) :
    ∀ (l1 l2 : List Nat),
      (∀ tr ∈ l1, sem (getTr g tr).test data = false) →
      advanceScan sem g s data (l1 ++ l2) = advanceScan sem g s data l2
  | [], _, _ => rfl
  | tr :: rest, l2, h => by
    rw [List.cons_append, advanceScan, h tr (List.mem_cons_self tr rest)]
    simp only [Bool.false_eq_true, if_false]
    exact advanceScan_append_none sem g s data rest l2
      (fun t ht => h t (List.mem_cons_of_mem tr ht))

/-- A scan whose first list contains a firing transition never reaches the
second list. -/
theorem advanceScan_append_match (sem : Sem) (g : Graph) (s : Nat)
    (data : EventData) :
    ∀ (l1 l2 : List Nat),
      (∃ tr ∈ l1, sem (getTr g tr).test data = true) →
      advanceScan sem g s data (l1 ++ l2) = advanceScan sem g s data l1
  | [], _, h => absurd h (by simp)
  | tr :: rest, l2, h => by
    rw [List.cons_append, advanceScan, advanceScan]
    cases hsem : sem (getTr g tr).test data with
    | true =>
      simp only [if_true]
    | false =>
      simp only [Bool.false_eq_true, if_false]
      obtain ⟨t, ht, hft⟩ := h
      rcases List.mem_cons.mp ht with rfl | ht2
      · rw [hft] at hsem
        cases hsem
      · exact advanceScan_append_match sem g s data rest l2 ⟨t, ht2, hft⟩

/-- Positional alignment of two scans over `Forall₂`-related lists whose
relation forces equal tests: either no transition of either list fires, or
some related pair fires first on both sides simultaneously. -/
theorem scan_align {G : Graph} (sem : Sem) (data : EventData)
    {R : Nat → Nat → Prop}
    (hTest : ∀ x y, R x y → (getTr G x).test = (getTr G y).test) :
    ∀ {lp louts : List Nat}, List.Forall₂ R lp louts →
      ((∀ y ∈ louts, sem (getTr G y).test data = false) ∧
        (∀ x ∈ lp, sem (getTr G x).test data = false)) ∨
      (∃ x y, x ∈ lp ∧ y ∈ louts ∧ R x y ∧
        sem (getTr G y).test data = true ∧
        ∀ (s1 s2 : Nat),
          (advanceScan sem G s1 data lp).1 = (getTr G x).dst ∧
          (advanceScan sem G s2 data louts).1 = (getTr G y).dst) := by
  intro lp louts h
  induction h with
  | nil =>
    exact Or.inl ⟨fun y hy => absurd hy (by simp),
      fun x hx => absurd hx (by simp)⟩
  | cons hxy htail ih =>
    rename_i x y lp' louts'
    cases hsem : sem (getTr G y).test data with
    | true =>
      refine Or.inr ⟨x, y, List.mem_cons_self x lp',
        List.mem_cons_self y louts', hxy, hsem, ?_⟩
      intro s1 s2
      have hx : sem (getTr G x).test data = true := by
        rw [hTest x y hxy]
        exact hsem
      constructor
      · rw [advanceScan, hx]
        simp only [if_true]
      · rw [advanceScan, hsem]
        simp only [if_true]
    | false =>
      have hxf : sem (getTr G x).test data = false := by
        rw [hTest x y hxy]
        exact hsem
      rcases ih with ⟨hn1, hn2⟩ | ⟨a, b, ha, hb, hab, hbsem, hscans⟩
      · refine Or.inl ⟨?_, ?_⟩
        · intro t ht
          rcases List.mem_cons.mp ht with rfl | ht2
          · exact hsem
          · exact hn1 t ht2
        · intro t ht
          rcases List.mem_cons.mp ht with rfl | ht2
          · exact hxf
          · exact hn2 t ht2
      · refine Or.inr ⟨a, b, List.mem_cons_of_mem x ha,
          List.mem_cons_of_mem y hb, hab, hbsem, ?_⟩
        intro s1 s2
        constructor
        · rw [advanceScan, hxf]
          simp only [Bool.false_eq_true, if_false]
          exact (hscans s1 s2).1
        · rw [advanceScan, hsem]
          simp only [Bool.false_eq_true, if_false]
          exact (hscans s1 s2).2

/-- A scan ignores filtered-out transitions that cannot fire. -/
theorem advanceScan_filter (sem : Sem) (g : Graph) (s : Nat)
    (data : EventData) (p : Nat → Bool) :
    ∀ (outs : List Nat),
      (∀ tr ∈ outs, p tr = false → sem (getTr g tr).test data = false) →
      advanceScan sem g s data (outs.filter p) =
        advanceScan sem g s data outs
  | [], _ => rfl
  | tr :: rest, h => by
    rw [List.filter_cons]
    cases hp : p tr with
    | true =>
      simp only [if_true]
      rw [advanceScan, advanceScan]
      cases hsem : sem (getTr g tr).test data with
      | true => simp only [if_true]
      | false =>
        simp only [Bool.false_eq_true, if_false]
        exact advanceScan_filter sem g s data p rest
          (fun t ht hpt => h t (List.mem_cons_of_mem tr ht) hpt)
    | false =>
      simp only [Bool.false_eq_true, if_false]
      have hfail : sem (getTr g tr).test data = false :=
        h tr (List.mem_cons_self tr rest) hp
      rw [advanceScan, hfail]
      simp only [Bool.false_eq_true, if_false]
      exact advanceScan_filter sem g s data p rest
        (fun t ht hpt => h t (List.mem_cons_of_mem tr ht) hpt)

/-- When `transitionWithTest` fails, no outbound transition carries the
test. -/
theorem twt_none_ne {G : Graph} {x : Nat} {p : TestId}
    (h : transitionWithTest G x p = none) :
    ∀ tr ∈ (getSt G x).out, (getTr G tr).test ≠ p := by
  intro tr htr heq
  have := List.find?_eq_none.mp h tr htr
  apply this
  simp [heq]

/-- Under pairwise-exclusive predicates, a scan lands on the destination of
the first transition carrying the unique firing test. -/
theorem scan_first_test {G : Graph} (sem : Sem) (data : EventData)
    (p : TestId) (rtr : Nat) (s : Nat)
    (hp : sem p data = true)
    (hex : ∀ q, sem q data = true → q = p) :
    ∀ (outs : List Nat),
      outs.find? (fun tr => (getTr G tr).test == p) = some rtr →
      (advanceScan sem G s data outs).1 = (getTr G rtr).dst
  | [], h => absurd h (by simp)
  | tr :: rest, h => by
    rw [List.find?_cons] at h
    cases hbeq : ((getTr G tr).test == p) with
    | true =>
      rw [hbeq] at h
      have htr : tr = rtr := by
        simpa using h
      subst htr
      have hteq : (getTr G tr).test = p := by
        simpa using hbeq
      rw [advanceScan, hteq, hp]
      simp only [if_true]
    | false =>
      rw [hbeq] at h
      have hne : (getTr G tr).test ≠ p := by
        simpa using hbeq
      cases hsem : sem (getTr G tr).test data with
      | true => exact absurd (hex _ hsem) hne
      | false =>
        rw [advanceScan, hsem]
        simp only [Bool.false_eq_true, if_false]
        exact scan_first_test sem data p rtr s hp hex rest h

/-- Unfolding one event of `accepts`. -/
theorem accepts_cons (sem : Sem) (g : Graph) (s : Nat) (e : EventData)
    (w : List EventData) :
    accepts sem g s (e :: w) = accepts sem g (Advance sem g s e).1 w := by
  unfold accepts
  rw [runFlow_cons]

/-- A terminal state absorbs every event. -/
theorem runFlow_terminal (sem : Sem) (g : Graph) (s : Nat)
    (h : (getSt g s).out = []) :
    ∀ (w : List EventData), runFlow sem g s w = s
  | [] => rfl
  | e :: w => by
    rw [runFlow_cons]
    have hadv : (Advance sem g s e).1 = s := by
      show (advanceScan sem g s e (getSt g s).out).1 = s
      rw [h]
      rfl
    rw [hadv]
    exact runFlow_terminal sem g s h w

/-- A terminal state accepts every event sequence. -/
theorem accepts_terminal (sem : Sem) (g : Graph) (s : Nat)
    (h : (getSt g s).out = []) (w : List EventData) :
    accepts sem g s w = true := by
  unfold accepts
  rw [runFlow_terminal sem g s h w]
  unfold Finished
  rw [h]
  rfl

/-- Acceptance only depends on the outbound lists and the transitions. -/
theorem accepts_congr (sem : Sem) (g g2 : Graph)
    (houts : ∀ i, (getSt g2 i).out = (getSt g i).out)
    (htr : ∀ j, getTr g2 j = getTr g j) :
    ∀ (w : List EventData) (s : Nat),
      accepts sem g2 s w = accepts sem g s w := by
  have hscan : ∀ (data : EventData) (s : Nat) (outs : List Nat),
      (advanceScan sem g2 s data outs).1 =
        (advanceScan sem g s data outs).1 := by
    intro data s outs
    induction outs with
    | nil => rfl
    | cons tr rest ih =>
      rw [advanceScan, advanceScan, htr tr]
      cases hsem : sem (getTr g tr).test data with
      | true => simp only [if_true]
      | false =>
        simp only [Bool.false_eq_true, if_false]
        exact ih
  intro w
  induction w with
  | nil =>
    intro s
    unfold accepts Finished
    rw [show runFlow sem g2 s [] = s from rfl,
      show runFlow sem g s [] = s from rfl, houts s]
  | cons e w ih =>
    intro s
    rw [accepts_cons, accepts_cons]
    have hadv : (Advance sem g2 s e).1 = (Advance sem g s e).1 := by
      show (advanceScan sem g2 s e (getSt g2 s).out).1 = _
      rw [houts s]
      exact hscan e s _
    rw [hadv]
    exact ih _

/-- Runs started inside the original region of a well-formed graph are
unchanged by any extension preserving that region, and stay inside it. -/
theorem runFlow_frame (g g2 : Graph) (rks : List Nat) (sem : Sem)
    (hwf : wfB g rks = true)
    (hL : ∀ i, i < g.states.length → getSt g2 i = getSt g i)
    (hT : ∀ j, j < g.trans.length → getTr g2 j = getTr g j) :
    ∀ (w : List EventData) (s : Nat), s < g.states.length →
      runFlow sem g2 s w = runFlow sem g s w ∧
        runFlow sem g s w < g.states.length := by
  intro w
  induction w with
  | nil => exact fun s hs => ⟨rfl, hs⟩
  | cons e w ih =>
    intro s hs
    have hscan : ∀ (outs : List Nat), (∀ tr ∈ outs, tr < g.trans.length) →
        (advanceScan sem g2 s e outs).1 = (advanceScan sem g s e outs).1 ∧
        ((advanceScan sem g s e outs).1 = s ∨
          ∃ tr ∈ outs, (advanceScan sem g s e outs).1 = (getTr g tr).dst)
        := by
      intro outs
      induction outs with
      | nil => exact fun _ => ⟨rfl, Or.inl rfl⟩
      | cons tr rest ihs =>
        intro hval
        have htrv : tr < g.trans.length := hval tr (List.mem_cons_self tr rest)
        rw [advanceScan, advanceScan, hT tr htrv]
        cases hsem : sem (getTr g tr).test e with
        | true =>
          simp only [if_true]
          exact ⟨trivial, Or.inr ⟨tr, List.mem_cons_self tr rest, rfl⟩⟩
        | false =>
          simp only [Bool.false_eq_true, if_false]
          obtain ⟨h1, h2⟩ := ihs (fun t ht => hval t (List.mem_cons_of_mem tr ht))
          refine ⟨h1, ?_⟩
          rcases h2 with h2 | ⟨t, ht, hdst⟩
          · exact Or.inl h2
          · exact Or.inr ⟨t, List.mem_cons_of_mem tr ht, hdst⟩
    have hvalid : ∀ tr ∈ (getSt g s).out, tr < g.trans.length :=
      fun tr htr => (wf_out hwf hs htr).1
    obtain ⟨h1, h2⟩ := hscan (getSt g s).out hvalid
    have hadv : (Advance sem g2 s e).1 = (Advance sem g s e).1 := by
      show (advanceScan sem g2 s e (getSt g2 s).out).1 = _
      rw [hL s hs]
      exact h1
    have hnext : (Advance sem g s e).1 < g.states.length := by
      rcases h2 with h2 | ⟨t, ht, hdst⟩
      · show (advanceScan sem g s e (getSt g s).out).1 < _
        rw [h2]
        exact hs
      · show (advanceScan sem g s e (getSt g s).out).1 < _
        rw [hdst]
        exact (wf_out hwf hs ht).2.1
    rw [runFlow_cons, runFlow_cons, hadv]
    exact ih _ hnext

/-- Acceptance from an original state is unchanged by any extension that
preserves the original region. -/
theorem accepts_frame (g g2 : Graph) (rks : List Nat) (sem : Sem)
    (hwf : wfB g rks = true)
    (hL : ∀ i, i < g.states.length → getSt g2 i = getSt g i)
    (hT : ∀ j, j < g.trans.length → getTr g2 j = getTr g j)
    (w : List EventData) (s : Nat) (hs : s < g.states.length) :
    accepts sem g2 s w = accepts sem g s w := by
  obtain ⟨h1, h2⟩ := runFlow_frame g g2 rks sem hwf hL hT w s hs
  unfold accepts Finished
  rw [h1, hL _ h2]

/-- A doubly negated Bool. -/
theorem bnot_false {b : Bool} (h : (!b) = false) : b = true := by
  cases b
  · exact Bool.noConfusion h
  · rfl

/-- Semantic content of the OR shape: under pairwise-exclusive predicates,
a state implementing the OR of two operand positions accepts exactly the
union of the operands' languages. -/
theorem orBuiltN_accepts (G : Graph) (endS L sa sb : Nat) (sem : Sem)
    (hex : ∀ (data : EventData) (p q : TestId),
      sem p data = true → sem q data = true → p = q)
    (hend : (getSt G endS).out = []) :
    ∀ (w : List EventData) (d st l r : Nat),
      OrBuiltN G endS L sa sb d st l r →
      accepts sem G st w = (accepts sem G l w || accepts sem G r w) := by
  intro w
  induction w with
  | nil =>
    intro d st l r h
    cases d with
    | zero => exact h.elim
    | succ d =>
      rw [OrBuiltN] at h
      obtain ⟨hsa, hsb, hlL, hrL, hnl, hnr, hval, lp, rp, hsplit, hlf, hrf⟩
        := h
      have hlpne : lp ≠ [] := by
        intro hnil
        subst hnil
        have hlen := List.Forall₂.length_eq hlf
        exact hnl (List.eq_nil_of_length_eq_zero hlen.symm)
      have h1 : Finished G st = false := by
        unfold Finished
        rw [hsplit]
        cases lp with
        | nil => exact absurd rfl hlpne
        | cons a as => rfl
      have h2 : Finished G l = false := by
        unfold Finished
        cases hcase : (getSt G l).out with
        | nil => exact absurd hcase hnl
        | cons a as => rfl
      have h3 : Finished G r = false := by
        unfold Finished
        cases hcase : (getSt G r).out with
        | nil => exact absurd hcase hnr
        | cons a as => rfl
      show Finished G st = (Finished G l || Finished G r)
      rw [h1, h2, h3]
      rfl
  | cons e w ih =>
    intro d st l r h
    cases d with
    | zero => exact h.elim
    | succ d =>
      have h0 := h
      rw [OrBuiltN] at h0
      obtain ⟨hsa, hsb, hlL, hrL, hnl, hnr, hval, lp, rp, hsplit, hlf, hrf⟩
        := h0
      rw [accepts_cons, accepts_cons, accepts_cons]
      have hTestL : ∀ x y,
          LeftEdgeOk G endS r (OrBuiltN G endS L sa sb d) x y →
          (getTr G x).test = (getTr G y).test := fun x y hE => hE.1
      have hTestR : ∀ x y,
          RightEdgeOk G endS l (OrBuiltN G endS L sa sb d) x y →
          (getTr G x).test = (getTr G y).test := fun x y hE => hE.1
      rcases scan_align sem e hTestL hlf with
        ⟨hnoL, hnoLp⟩ | ⟨x, y, hx, hy, hxy, hsemy, hscans⟩
      · -- no transition of the left operand fires
        rcases scan_align sem e hTestR hrf with
          ⟨hnoR, hnoRp⟩ | ⟨x, y, hx, hy, hxy, hsemy, hscans⟩
        · -- and none of the kept right transitions either: nothing moves
          have hnoRfull : ∀ tr ∈ (getSt G r).out,
              sem (getTr G tr).test e = false := by
            intro tr htr
            cases hht : hasTest G l ((getTr G tr).test) with
            | false =>
              exact hnoR tr (List.mem_filter.mpr ⟨htr, by rw [hht]; rfl⟩)
            | true =>
              unfold hasTest at hht
              cases htwt : transitionWithTest G l ((getTr G tr).test) with
              | none => rw [htwt] at hht; exact Bool.noConfusion hht
              | some ltr =>
                have hf := hnoL ltr (twt_mem htwt)
                rw [twt_test htwt] at hf
                exact hf
          have hAdvSt : (Advance sem G st e).1 = st := by
            show (advanceScan sem G st e (getSt G st).out).1 = st
            rw [hsplit]
            have hall : ∀ tr ∈ lp ++ rp, sem (getTr G tr).test e = false := by
              intro tr htr
              rcases List.mem_append.mp htr with hm | hm
              · exact hnoLp tr hm
              · exact hnoRp tr hm
            rw [advanceScan_none sem G st e _ hall]
          have hAdvL : (Advance sem G l e).1 = l := by
            show (advanceScan sem G l e (getSt G l).out).1 = l
            rw [advanceScan_none sem G l e _ hnoL]
          have hAdvR : (Advance sem G r e).1 = r := by
            show (advanceScan sem G r e (getSt G r).out).1 = r
            rw [advanceScan_none sem G r e _ hnoRfull]
          rw [hAdvSt, hAdvL, hAdvR]
          exact ih (d + 1) st l r h
        · -- a non-shared right transition fires; the left operand stays
          have hAdvL : (Advance sem G l e).1 = l := by
            show (advanceScan sem G l e (getSt G l).out).1 = l
            rw [advanceScan_none sem G l e _ hnoL]
          have hAdvSt : (Advance sem G st e).1 = (getTr G x).dst := by
            show (advanceScan sem G st e (getSt G st).out).1 = _
            rw [hsplit, advanceScan_append_none sem G st e lp rp hnoLp]
            exact (hscans st st).1
          have hAdvR : (Advance sem G r e).1 = (getTr G y).dst := by
            show (advanceScan sem G r e (getSt G r).out).1 = _
            have hdrop : ∀ tr ∈ (getSt G r).out,
                (fun tro => !(hasTest G l ((getTr G tro).test))) tr = false →
                sem (getTr G tr).test e = false := by
              intro tr htr hfail
              have hht := bnot_false hfail
              unfold hasTest at hht
              cases htwt : transitionWithTest G l ((getTr G tr).test) with
              | none => rw [htwt] at hht; exact Bool.noConfusion hht
              | some ltr =>
                have hf := hnoL ltr (twt_mem htwt)
                rw [twt_test htwt] at hf
                exact hf
            rw [← advanceScan_filter sem G r e _ _ hdrop]
            exact (hscans st r).2
          rw [hAdvSt, hAdvL, hAdvR]
          obtain ⟨hteq, hterm, hcont⟩ := hxy
          by_cases hdy : (getSt G ((getTr G y).dst)).out = []
          · rw [hterm hdy, accepts_terminal sem G endS hend w,
              accepts_terminal sem G ((getTr G y).dst) hdy w, Bool.or_true]
          · exact ih d _ _ _ (hcont hdy)
      · -- a left transition fires
        obtain ⟨hteq, hnonefn, hsomefn⟩ := hxy
        have hAdvL : (Advance sem G l e).1 = (getTr G y).dst := by
          show (advanceScan sem G l e (getSt G l).out).1 = _
          exact (hscans l l).2
        have hxfires : sem (getTr G x).test e = true := by
          rw [hteq]
          exact hsemy
        have hAdvSt : (Advance sem G st e).1 = (getTr G x).dst := by
          show (advanceScan sem G st e (getSt G st).out).1 = _
          rw [hsplit,
            advanceScan_append_match sem G st e lp rp ⟨x, hx, hxfires⟩]
          exact (hscans st st).1
        rw [hAdvSt, hAdvL]
        cases htwt : transitionWithTest G r ((getTr G y).test) with
        | none =>
          -- the right operand does not share the test and cannot move
          have hAdvR : (Advance sem G r e).1 = r := by
            show (advanceScan sem G r e (getSt G r).out).1 = r
            have hallf : ∀ tr ∈ (getSt G r).out,
                sem (getTr G tr).test e = false := by
              intro tr htr
              cases hsem2 : sem (getTr G tr).test e with
              | false => rfl
              | true =>
                exact absurd (hex e _ _ hsem2 hsemy) (twt_none_ne htwt tr htr)
            rw [advanceScan_none sem G r e _ hallf]
          rw [hAdvR]
          obtain ⟨htermfn, hcontfn⟩ := hnonefn htwt
          by_cases hdy : (getSt G ((getTr G y).dst)).out = []
          · rw [htermfn hdy, accepts_terminal sem G endS hend w,
              accepts_terminal sem G ((getTr G y).dst) hdy w, Bool.true_or]
          · exact ih d _ _ _ (hcontfn hdy)
        | some rtr =>
          -- shared test: the single merged edge advances both operands
          obtain ⟨htermR, hcontR⟩ := hsomefn rtr htwt
          have hfind : ((getSt G r).out).find?
              (fun tr => (getTr G tr).test == ((getTr G y).test))
              = some rtr := htwt
          have hAdvR : (Advance sem G r e).1 = (getTr G rtr).dst := by
            show (advanceScan sem G r e (getSt G r).out).1 = _
            exact scan_first_test sem e ((getTr G y).test) rtr r hsemy
              (fun q hq => hex e q ((getTr G y).test) hq hsemy) _ hfind
          rw [hAdvR]
          by_cases hdr : (getSt G ((getTr G rtr).dst)).out = []
          · rw [htermR hdr, accepts_terminal sem G endS hend w,
              accepts_terminal sem G ((getTr G rtr).dst) hdr w, Bool.or_true]
          · obtain ⟨hterm2, hcont2⟩ := hcontR hdr
            by_cases hdy : (getSt G ((getTr G y).dst)).out = []
            · rw [hterm2 hdy, accepts_terminal sem G endS hend w,
                accepts_terminal sem G ((getTr G y).dst) hdy w, Bool.true_or]
            · exact ih d _ _ _ (hcont2 hdy)

/-- Instantiating the `addOrStates` invariant at `OR`: the graph returned
by `OR g a b` is a frame extension of the two-fresh-state graph whose
synthetic start implements the OR of the two operands' roots, and the
synthetic end has gained at least one inbound transition. -/
theorem orShapeB (g : Graph) (rks : List Nat) (hwf : wfB g rks = true)
    (a b : Nat) (ha : a < g.states.length) (hb : b < g.states.length)
    (hna : (getSt g (rootOf g a)).out ≠ [])
    (hnb : (getSt g (rootOf g b)).out ≠ []) :
    OrLoopCore g (newState (newState g).1).1 g.states.length
      (g.states.length + 1) (OR g a b).1 ∧
    (getSt (newState (newState g).1).1 (g.states.length + 1)).ins.length <
      (getSt (OR g a b).1 (g.states.length + 1)).ins.length ∧
    OrBuiltN (OR g a b).1 (g.states.length + 1) g.states.length
      g.states.length (OR g a b).1.states.length
      (bigFuel (newState (newState g).1).1)
      g.states.length (rootOf g a) (rootOf g b) := by
  have hG2len : (newState (newState g).1).1.states.length
      = g.states.length + 2 := by
    rw [length_newState, length_newState]
  have hfr : CopyFrame g.states.length g.trans.length g
      (newState (newState g).1).1 :=
    copyFrame_trans (copyFrame_newState (Nat.le_refl _))
      (copyFrame_newState (by rw [length_newState]; omega))
  have hstDefault : getSt (newState (newState g).1).1 g.states.length
      = default := by
    have h1 : getSt (newState (newState g).1).1 g.states.length
        = getSt (newState g).1 g.states.length :=
      getSt_newState_old (newState g).1 g.states.length
        (by rw [length_newState]; omega)
    rw [h1]
    exact getSt_newState_new g
  have hout0 : (getSt (newState (newState g).1).1 g.states.length).out
      = [] := by
    rw [hstDefault]
    rfl
  have hendIdx : (newState (newState g).1).2 = g.states.length + 1 :=
    length_newState g
  have hendDefault : getSt (newState (newState g).1).1 (g.states.length + 1)
      = default := by
    rw [← hendIdx]
    exact getSt_newState_new (newState g).1
  have hrootA : rootOf (newState (newState g).1).1 a = rootOf g a := by
    show rootFuel (newState (newState g).1).1
      ((newState (newState g).1).1.states.length) a
      = rootFuel g g.states.length a
    rw [rootFuel_frame g (newState (newState g).1).1 rks hwf
      hfr.2.2.1 hfr.2.2.2 _ a ha]
    exact rootFuel_stable g g.states.length _ a
      (rootOf_spec hwf ha).1 (by rw [hG2len]; omega)
  have hrootB : rootOf (newState (newState g).1).1 b = rootOf g b := by
    show rootFuel (newState (newState g).1).1
      ((newState (newState g).1).1.states.length) b
      = rootFuel g g.states.length b
    rw [rootFuel_frame g (newState (newState g).1).1 rks hwf
      hfr.2.2.1 hfr.2.2.2 _ b hb]
    exact rootFuel_stable g g.states.length _ b
      (rootOf_spec hwf hb).1 (by rw [hG2len]; omega)
  have hORfst : (OR g a b).1 =
      addOrStates (newState (newState g).1).1 g.states.length (rootOf g a)
        (rootOf g b) (g.states.length + 1)
        (bigFuel (newState (newState g).1).1) := by
    show addOrStates (newState (newState g).1).1 ((newState g).2)
        (rootOf (newState (newState g).1).1 a)
        (rootOf (newState (newState g).1).1 b)
        ((newState (newState g).1).2)
        (bigFuel (newState (newState g).1).1) = _
    rw [hrootA, hrootB, hendIdx]
    rfl
  have hraL : rkOf rks (rootOf g a) < g.states.length :=
    wf_rk hwf (rootOf_spec hwf ha).2
  have hraR : rkOf rks (rootOf g b) < g.states.length :=
    wf_rk hwf (rootOf_spec hwf hb).2
  have hrank : rkOf rks (rootOf g a) + rkOf rks (rootOf g b)
      < bigFuel (newState (newState g).1).1 := by
    unfold bigFuel
    rw [hG2len]
    have hsq : (g.states.length + 2) * (g.states.length + 2)
        = g.states.length * g.states.length + 4 * g.states.length + 4 := by
      ring
    omega
  obtain ⟨hcore, hgrow, horb⟩ :=
    addOrStatesB g rks hwf (bigFuel (newState (newState g).1).1)
      (newState (newState g).1).1 g.states.length (rootOf g a)
      (rootOf g b) (g.states.length + 1) hfr (Nat.le_refl _)
      (by omega) hout0 (by omega) (by omega) (by omega)
      (rootOf_spec hwf ha).2 (rootOf_spec hwf hb).2 hna hnb hrank
  rw [← hORfst] at hcore hgrow horb
  exact ⟨hcore, hgrow, horb⟩

/-- In the graph built by `OR`, the backward root walk from the synthetic
end state resolves to the synthetic start state: every fresh state has a
single inbound transition whose source is an earlier fresh state, and the
start state has none. -/
theorem or_root_walk (g F : Graph)
    (hcore : OrLoopCore g (newState (newState g).1).1 g.states.length
      (g.states.length + 1) F)
    (hgrow : (getSt (newState (newState g).1).1
        (g.states.length + 1)).ins.length <
      (getSt F (g.states.length + 1)).ins.length) :
    rootOf F (g.states.length + 1) = g.states.length := by
  have hG2len : (newState (newState g).1).1.states.length
      = g.states.length + 2 := by
    rw [length_newState, length_newState]
  have hstDefault : getSt (newState (newState g).1).1 g.states.length
      = default := by
    have h1 : getSt (newState (newState g).1).1 g.states.length
        = getSt (newState g).1 g.states.length :=
      getSt_newState_old (newState g).1 g.states.length
        (by rw [length_newState]; omega)
    rw [h1]
    exact getSt_newState_new g
  have hendIdx : (newState (newState g).1).2 = g.states.length + 1 :=
    length_newState g
  have hendDefault : getSt (newState (newState g).1).1 (g.states.length + 1)
      = default := by
    rw [← hendIdx]
    exact getSt_newState_new (newState g).1
  have hFlen : g.states.length + 2 ≤ F.states.length := by
    rw [← hG2len]
    exact hcore.1.1
  have hstart_ins : (getSt F g.states.length).ins = [] := by
    rw [hcore.2.2.2.2.1 g.states.length (by omega) (by omega), hstDefault]
    rfl
  have hwalk : ∀ (fuel x : Nat), g.states.length ≤ x → x < F.states.length →
      x ≠ g.states.length + 1 → x - g.states.length ≤ fuel →
      rootFuel F fuel x = g.states.length := by
    intro fuel
    induction fuel with
    | zero =>
      intro x h1 h2 h3 h4
      have hx : x = g.states.length := by omega
      rw [hx]
      rfl
    | succ n ihn =>
      intro x h1 h2 h3 h4
      by_cases hxL : x = g.states.length
      · rw [hxL, rootFuel_of_nil F _ hstart_ins]
      · have hxG2 : (newState (newState g).1).1.states.length ≤ x := by omega
        obtain ⟨tr, hins1, htrlt, hsrcge, hsrclt, hsrcne⟩ :=
          hcore.2.2.2.2.2.2 x hxG2 h2
        have hstep : rootFuel F (n + 1) x
            = rootFuel F n ((getTr F tr).src) := by
          rw [rootFuel, hins1]
        rw [hstep]
        exact ihn _ hsrcge (by omega) hsrcne (by omega)
  obtain ⟨extra, hex2, hexs⟩ := hcore.2.2.2.2.2.1
  have hG2endnil : (getSt (newState (newState g).1).1
      (g.states.length + 1)).ins = [] := by
    rw [hendDefault]
    rfl
  rw [hG2endnil] at hex2 hgrow
  rw [List.nil_append] at hex2
  cases hextra : extra with
  | nil =>
    rw [hextra] at hex2
    rw [hex2] at hgrow
    simp at hgrow
  | cons tr rest =>
    rw [hextra] at hex2 hexs
    obtain ⟨htrlt, hsrcge, hsrclt, hsrcne⟩ :=
      hexs tr (List.mem_cons_self tr rest)
    show rootFuel F F.states.length (g.states.length + 1) = g.states.length
    obtain ⟨n, hn⟩ : ∃ n, F.states.length = n + 1 :=
      ⟨F.states.length - 1, by omega⟩
    rw [hn, rootFuel, hex2]
    exact hwalk n _ hsrcge hsrclt hsrcne (by omega)

/-- End to end: the flow built from the handle returned by `OR g a b`
accepts exactly the union of the languages the two operands' roots accept
in the original graph. -/
theorem or_built_accepts (g : Graph) (rks : List Nat) (sem : Sem)
    (hwf : wfB g rks = true) (a b : Nat)
    (ha : a < g.states.length) (hb : b < g.states.length)
    (hna : (getSt g (rootOf g a)).out ≠ [])
    (hnb : (getSt g (rootOf g b)).out ≠ [])
    (hex : ∀ (data : EventData) (p q : TestId),
      sem p data = true → sem q data = true → p = q)
    (w : List EventData) :
    accepts sem (Build (OR g a b).1 (OR g a b).2).1
        (Build (OR g a b).1 (OR g a b).2).2 w =
      (accepts sem g (rootOf g a) w || accepts sem g (rootOf g b) w) := by
  obtain ⟨hcore, hgrow, horb⟩ := orShapeB g rks hwf a b ha hb hna hnb
  have hG2len : (newState (newState g).1).1.states.length
      = g.states.length + 2 := by
    rw [length_newState, length_newState]
  have hsnd : (OR g a b).2 = g.states.length + 1 := length_newState g
  rw [hsnd]
  have hroot : (Build (OR g a b).1 (g.states.length + 1)).2
      = g.states.length := by
    show rootOf (OR g a b).1 (g.states.length + 1) = g.states.length
    exact or_root_walk g (OR g a b).1 hcore hgrow
  rw [hroot]
  have hgraph : ∀ (x : Nat) (w2 : List EventData),
      accepts sem (Build (OR g a b).1 (g.states.length + 1)).1 x w2
        = accepts sem (OR g a b).1 x w2 := by
    intro x w2
    rw [build_eq_applyWrites]
    exact accepts_congr sem (OR g a b).1 _
      (fun i => (applyWrites_shape _ _ i).2.1)
      (fun j => getTr_applyWrites _ _ j) w2 x
  rw [hgraph]
  have hendIdx : (newState (newState g).1).2 = g.states.length + 1 :=
    length_newState g
  have hendDefault : getSt (newState (newState g).1).1 (g.states.length + 1)
      = default := by
    rw [← hendIdx]
    exact getSt_newState_new (newState g).1
  have hendOuts : (getSt (OR g a b).1 (g.states.length + 1)).out = [] := by
    rw [hcore.2.2.1 (g.states.length + 1) (by omega) (by omega),
      hendDefault]
    rfl
  have hunion := orBuiltN_accepts (OR g a b).1 (g.states.length + 1)
    g.states.length g.states.length (OR g a b).1.states.length sem hex
    hendOuts w (bigFuel (newState (newState g).1).1) g.states.length
    (rootOf g a) (rootOf g b) horb
  rw [hunion]
  have hfr : CopyFrame g.states.length g.trans.length g
      (newState (newState g).1).1 :=
    copyFrame_trans (copyFrame_newState (Nat.le_refl _))
      (copyFrame_newState (by rw [length_newState]; omega))
  have hL : ∀ i, i < g.states.length →
      getSt (OR g a b).1 i = getSt g i :=
    fun i hi => (hcore.2.1 i hi).trans (hfr.2.2.1 i hi)
  have hG2t : g.trans.length ≤ (newState (newState g).1).1.trans.length :=
    hfr.2.1
  have hT : ∀ j, j < g.trans.length →
      getTr (OR g a b).1 j = getTr g j :=
    fun j hj => (hcore.2.2.2.1 j (by omega)).trans (hfr.2.2.2 j hj)
  rw [accepts_frame g (OR g a b).1 rks sem hwf hL hT w _
      (rootOf_spec hwf ha).2,
    accepts_frame g (OR g a b).1 rks sem hwf hL hT w _
      (rootOf_spec hwf hb).2]

/-- C3: in `OR(left, right)` the synthetic start's outbound list is exactly
one edge per outbound transition of left's root followed by one edge per
non-shared outbound transition of right's root (shared tests are filtered
out of the right pass).  Each left-copied edge satisfies `LeftEdgeOk`: when
right's root has a transition `rtr` with the same predicate identity, the
single merged edge recurses on the pair of continuations
(`OrBuiltN` at the merged edge's destination for `(leftNext, rightNext)`),
and whenever the merged continuation point (either side) is terminal the
edge routes directly to the shared synthetic end state. -/
theorem or_single_merged_edge_for_shared_tests (g : Graph) (rks : List Nat)
    (hwf : wfB g rks = true) (a b : Nat)
    (ha : a < g.states.length) (hb : b < g.states.length)
    (hna : (getSt g (rootOf g a)).out ≠ [])
    (hnb : (getSt g (rootOf g b)).out ≠ []) :
    ∃ d lp rp,
      (getSt (OR g a b).1 g.states.length).out = lp ++ rp ∧
      List.Forall₂
        (LeftEdgeOk (OR g a b).1 (g.states.length + 1) (rootOf g b)
          (OrBuiltN (OR g a b).1 (g.states.length + 1) g.states.length
            g.states.length (OR g a b).1.states.length d))
        lp ((getSt (OR g a b).1 (rootOf g a)).out) ∧
      List.Forall₂
        (RightEdgeOk (OR g a b).1 (g.states.length + 1) (rootOf g a)
          (OrBuiltN (OR g a b).1 (g.states.length + 1) g.states.length
            g.states.length (OR g a b).1.states.length d))
        rp (((getSt (OR g a b).1 (rootOf g b)).out).filter
          (fun tro => !(hasTest (OR g a b).1 (rootOf g a)
            ((getTr (OR g a b).1 tro).test)))) := by
  obtain ⟨-, -, horb⟩ := orShapeB g rks hwf a b ha hb hna hnb
  unfold bigFuel at horb
  rw [OrBuiltN] at horb
  obtain ⟨-, -, -, -, -, -, -, lp, rp, hsplit, hlf, hrf⟩ := horb
  exact ⟨_, lp, rp, hsplit, hlf, hrf⟩

/-- Witness for C3 on `a.OR(b)` over two lifted predicates. -/
theorem or_single_merged_edge_witness :
    wfB (liftTest (liftTest emptyGraph 0).1 1).1 [1, 0, 1, 0] = true ∧
    1 < (liftTest (liftTest emptyGraph 0).1 1).1.states.length ∧
    3 < (liftTest (liftTest emptyGraph 0).1 1).1.states.length ∧
    (getSt (liftTest (liftTest emptyGraph 0).1 1).1
      (rootOf (liftTest (liftTest emptyGraph 0).1 1).1 1)).out ≠ [] ∧
    (getSt (liftTest (liftTest emptyGraph 0).1 1).1
      (rootOf (liftTest (liftTest emptyGraph 0).1 1).1 3)).out ≠ [] ∧
    ∃ d lp rp,
      (getSt (OR (liftTest (liftTest emptyGraph 0).1 1).1 1 3).1
        (liftTest (liftTest emptyGraph 0).1 1).1.states.length).out
        = lp ++ rp ∧
      List.Forall₂
        (LeftEdgeOk (OR (liftTest (liftTest emptyGraph 0).1 1).1 1 3).1
          ((liftTest (liftTest emptyGraph 0).1 1).1.states.length + 1)
          (rootOf (liftTest (liftTest emptyGraph 0).1 1).1 3)
          (OrBuiltN (OR (liftTest (liftTest emptyGraph 0).1 1).1 1 3).1
            ((liftTest (liftTest emptyGraph 0).1 1).1.states.length + 1)
            (liftTest (liftTest emptyGraph 0).1 1).1.states.length
            (liftTest (liftTest emptyGraph 0).1 1).1.states.length
            (OR (liftTest (liftTest emptyGraph 0).1 1).1 1 3).1.states.length
            d))
        lp ((getSt (OR (liftTest (liftTest emptyGraph 0).1 1).1 1 3).1
          (rootOf (liftTest (liftTest emptyGraph 0).1 1).1 1)).out) ∧
      List.Forall₂
        (RightEdgeOk (OR (liftTest (liftTest emptyGraph 0).1 1).1 1 3).1
          ((liftTest (liftTest emptyGraph 0).1 1).1.states.length + 1)
          (rootOf (liftTest (liftTest emptyGraph 0).1 1).1 1)
          (OrBuiltN (OR (liftTest (liftTest emptyGraph 0).1 1).1 1 3).1
            ((liftTest (liftTest emptyGraph 0).1 1).1.states.length + 1)
            (liftTest (liftTest emptyGraph 0).1 1).1.states.length
            (liftTest (liftTest emptyGraph 0).1 1).1.states.length
            (OR (liftTest (liftTest emptyGraph 0).1 1).1 1 3).1.states.length
            d))
        rp (((getSt (OR (liftTest (liftTest emptyGraph 0).1 1).1 1 3).1
            (rootOf (liftTest (liftTest emptyGraph 0).1 1).1 3)).out).filter
          (fun tro => !(hasTest (OR (liftTest (liftTest emptyGraph 0).1 1).1
              1 3).1
            (rootOf (liftTest (liftTest emptyGraph 0).1 1).1 1)
            ((getTr (OR (liftTest (liftTest emptyGraph 0).1 1).1 1 3).1
              tro).test)))) :=
  ⟨by decide, by decide, by decide, by decide, by decide,
    or_single_merged_edge_for_shared_tests
      (liftTest (liftTest emptyGraph 0).1 1).1 [1, 0, 1, 0] (by decide)
      1 3 (by decide) (by decide) (by decide) (by decide)⟩

/-- C1: OR is commutative in outcome — for operands with non-terminal
roots and pairwise-exclusive predicates, the flows built from `a.OR(b)`
and `b.OR(a)` accept exactly the same event sequences: each accepts `w`
precisely when one of the operands' roots accepts `w` in the original
graph, so the two built flows agree on every `w`. -/
theorem or_commutative_same_acceptance (g : Graph) (rks : List Nat)
    (sem : Sem) (a b : Nat) (hwf : wfB g rks = true)
    (ha : a < g.states.length) (hb : b < g.states.length)
    (hna : (getSt g (rootOf g a)).out ≠ [])
    (hnb : (getSt g (rootOf g b)).out ≠ [])
    (hex : ∀ (data : EventData) (p q : TestId),
      sem p data = true → sem q data = true → p = q)
    (w : List EventData) :
    accepts sem (Build (OR g a b).1 (OR g a b).2).1
        (Build (OR g a b).1 (OR g a b).2).2 w =
      accepts sem (Build (OR g b a).1 (OR g b a).2).1
        (Build (OR g b a).1 (OR g b a).2).2 w := by
  rw [or_built_accepts g rks sem hwf a b ha hb hna hnb hex w,
    or_built_accepts g rks sem hwf b a hb ha hnb hna hex w,
    Bool.or_comm]

/-- Witness for C1 on `a.OR(b)` over two lifted predicates with equality
semantics (pairwise exclusive), on the event word `[0]`. -/
theorem or_commutative_same_acceptance_witness :
    wfB (liftTest (liftTest emptyGraph 0).1 1).1 [1, 0, 1, 0] = true ∧
    1 < (liftTest (liftTest emptyGraph 0).1 1).1.states.length ∧
    3 < (liftTest (liftTest emptyGraph 0).1 1).1.states.length ∧
    (getSt (liftTest (liftTest emptyGraph 0).1 1).1
      (rootOf (liftTest (liftTest emptyGraph 0).1 1).1 1)).out ≠ [] ∧
    (getSt (liftTest (liftTest emptyGraph 0).1 1).1
      (rootOf (liftTest (liftTest emptyGraph 0).1 1).1 3)).out ≠ [] ∧
    (∀ (data p q : Nat), (fun p e => decide (p = e)) p data = true →
      (fun p e => decide (p = e)) q data = true → p = q) ∧
    accepts (fun p e => decide (p = e))
        (Build (OR (liftTest (liftTest emptyGraph 0).1 1).1 1 3).1
          (OR (liftTest (liftTest emptyGraph 0).1 1).1 1 3).2).1
        (Build (OR (liftTest (liftTest emptyGraph 0).1 1).1 1 3).1
          (OR (liftTest (liftTest emptyGraph 0).1 1).1 1 3).2).2 [0] =
      accepts (fun p e => decide (p = e))
        (Build (OR (liftTest (liftTest emptyGraph 0).1 1).1 3 1).1
          (OR (liftTest (liftTest emptyGraph 0).1 1).1 3 1).2).1
        (Build (OR (liftTest (liftTest emptyGraph 0).1 1).1 3 1).1
          (OR (liftTest (liftTest emptyGraph 0).1 1).1 3 1).2).2 [0] :=
  ⟨by decide, by decide, by decide, by decide, by decide,
    fun data p q hp hq =>
      (of_decide_eq_true hp).trans (of_decide_eq_true hq).symm,
    or_commutative_same_acceptance
      (liftTest (liftTest emptyGraph 0).1 1).1 [1, 0, 1, 0]
      (fun p e => decide (p = e)) 1 3 (by decide) (by decide) (by decide)
      (by decide) (by decide)
      (fun data p q hp hq =>
        (of_decide_eq_true hp).trans (of_decide_eq_true hq).symm)
      [0]⟩

/-- The diamond flow `(a.OR(b)).THEN(c)`: the OR join state is reachable
from the root along two paths. -/
def orDiamond : Graph × Nat :=
  let r1 := liftTest emptyGraph 0
  let r2 := liftTest r1.1 1
  let r3 := OR r2.1 r1.2 r2.2
  let r4 := liftTest r3.1 2
  THEN r4.1 r3.2 r4.2

/-- Witness for C9 on the diamond `(a.OR(b)).THEN(c)`, whose join state is
reachable from the root along two paths. -/
theorem doCopy_exact_clone_witness :
    wfB orDiamond.1 [3, 0, 3, 0, 3, 0, 3, 0, 3, 2, 3, 0] = true ∧
    orDiamond.2 < orDiamond.1.states.length ∧
    (∀ a b,
      ((doCopy orDiamond.1 [] (rootOf orDiamond.1 orDiamond.2)
        (orDiamond.1.states.length + 1)).2.1).lookup a = some b →
      ClonedOuts (doCopy orDiamond.1 [] (rootOf orDiamond.1 orDiamond.2)
          (orDiamond.1.states.length + 1)).1
        (doCopy orDiamond.1 [] (rootOf orDiamond.1 orDiamond.2)
          (orDiamond.1.states.length + 1)).2.1
        (getSt orDiamond.1 a).out
        (getSt (doCopy orDiamond.1 [] (rootOf orDiamond.1 orDiamond.2)
          (orDiamond.1.states.length + 1)).1 b).out) :=
  ⟨by decide, by decide,
   (doCopy_exact_clone orDiamond.1 [3, 0, 3, 0, 3, 0, 3, 0, 3, 2, 3, 0]
     orDiamond.2 (by decide) (by decide)).2.2.2.2.1⟩

/-- Witness for C4 on the diamond `(a.OR(b)).THEN(c)` at the join state
(index 9, visited twice: identifiers 2 then 4, of which only 4 survives). -/
theorem diamond_last_assigned_id_wins_witness :
    wfB orDiamond.1 [3, 0, 3, 0, 3, 0, 3, 0, 3, 2, 3, 0] = true ∧
    orDiamond.2 < orDiamond.1.states.length ∧
    2 ≤ (dfsPre orDiamond.1 (orDiamond.1.states.length + 1)
      (rootOf orDiamond.1 orDiamond.2)).count 9 ∧
    ((dfsPre orDiamond.1 (orDiamond.1.states.length + 1)
        (rootOf orDiamond.1 orDiamond.2)).count 9 =
      (pathsTo orDiamond.1 (orDiamond.1.states.length + 1)
        (rootOf orDiamond.1 orDiamond.2) 9).length ∧
    (getSt (Build orDiamond.1 orDiamond.2).1 9).ID =
      lastWriteTo (zipIds (dfsPre orDiamond.1
        (orDiamond.1.states.length + 1)
        (rootOf orDiamond.1 orDiamond.2)) 0) 9
        ((getSt orDiamond.1 9).ID) ∧
    (∀ v, v ≠ (getSt (Build orDiamond.1 orDiamond.2).1 9).ID →
      FindByID (Build orDiamond.1 orDiamond.2).1
        (Build orDiamond.1 orDiamond.2).2 v ≠ some 9) ∧
    FindByID (Build orDiamond.1 orDiamond.2).1
      (Build orDiamond.1 orDiamond.2).2
      ((getSt (Build orDiamond.1 orDiamond.2).1 9).ID) = some 9) :=
  ⟨by decide, by decide, by decide,
    diamond_last_assigned_id_wins orDiamond.1
      [3, 0, 3, 0, 3, 0, 3, 0, 3, 2, 3, 0] orDiamond.2 9
      (by decide) (by decide) (by decide)⟩

end GFlow
